import Mathlib

/-!
Verification of the bid-management document pipeline.

Python strings are modelled as `List Char`; each definition mirrors one
function of the backend services (`ocr_service.py`, `ai_service.py`,
`bids.py`).  Machine integers do not occur (Python integers are unbounded),
so `Nat`/`Int` are exact.  Fallible code returns `Option`.
-/

/-- Characters stripped by Python `str.strip()` (ASCII whitespace). -/
def pyIsSpace (c : Char) : Bool :=
  c = ' ' || c = '\t' || c = '\n' || c = '\r' || c = '\x0b' || c = '\x0c'

/-- Python `str.lstrip()`. -/
def pyStripLeft (s : List Char) : List Char := s.dropWhile pyIsSpace

/-- Python `str.rstrip()`. -/
def pyStripRight (s : List Char) : List Char := s.rdropWhile pyIsSpace

/-- Python `str.strip()`. -/
def pyStrip (s : List Char) : List Char := pyStripRight (pyStripLeft s)

/-- Python `str.lower()` (ASCII view, as used on the repository's inputs). -/
def pyLower (s : List Char) : List Char := s.map Char.toLower

/-- Convenience: string literal to character list. -/
def cs (s : String) : List Char := s.toList

/-- Helper for `collapseWs`: the flag records whether the previous character
was whitespace (so a continuing run emits nothing). -/
def collapseAux : Bool → List Char → List Char
  | _, [] => []
  | prevWs, c :: rest =>
    if pyIsSpace c then
      if prevWs then collapseAux true rest else ' ' :: collapseAux true rest
    else c :: collapseAux false rest

/-- Collapse every run of whitespace to a single space: `re.sub(r"\s+", " ", s)`. -/
def collapseWs (s : List Char) : List Char := collapseAux false s

/-- `ocr_service._normalize_for_search`: strip, lower-case, collapse whitespace. -/
def normalize_for_search (s : List Char) : List Char :=
  collapseWs (pyLower (pyStrip s))

/-- Python `pat in hay` (substring containment). -/
def listContains (hay pat : List Char) : Bool :=
  pat.isPrefixOf hay ||
    match hay with
    | [] => false
    | _ :: t => listContains t pat

/-- Fields of one annotation dict: the `quote` and `page` keys, plus the
remaining key/value pairs (opaque), as manipulated by
`correct_annotation_pages`. -/
structure AnnFields where
  quote : Option (List Char)
  page : Option Int
  rest : List (List Char × Nat)
deriving DecidableEq, Repr

/-- One element of the annotations list: either a non-dict value (opaque tag)
or an annotation dict. -/
inductive AnnEntry where
  | other (tag : Nat)
  | dict (a : AnnFields)
deriving DecidableEq, Repr

/-- The per-page test of `correct_annotation_pages`: the full normalized quote,
else a prefix of length 80 / 50 / 35 / 25 (in that order), contained in the
normalized page text. -/
def pageMatches (nq np : List Char) : Bool :=
  listContains np nq ||
  (decide (80 ≤ nq.length) && listContains np (nq.take 80)) ||
  (decide (50 ≤ nq.length) && listContains np (nq.take 50)) ||
  (decide (35 ≤ nq.length) && listContains np (nq.take 35)) ||
  (decide (25 ≤ nq.length) && listContains np (nq.take 25))

/-- The page-scan loop of `correct_annotation_pages`: pages in order, empty
pages skipped, result is the 1-based index of the first page that matches
(the accumulator `i` is the 0-based index of the head). -/
def findPage (nq : List Char) : List (List Char) → Nat → Option Nat
  | [], _ => none
  | p :: rest, i =>
    if p = [] then findPage nq rest (i + 1)
    else if pageMatches nq (normalize_for_search p) then some (i + 1)
    else findPage nq rest (i + 1)

/-- Body of the annotation loop of `correct_annotation_pages`. -/
def correctEntry (page_texts : List (List Char)) (e : AnnEntry) : AnnEntry :=
  match e with
  | .other t => .other t
  | .dict a =>
    let quote := pyStrip (a.quote.getD [])
    if quote = [] ∨ quote.length < 10 then .dict a
    else
      let nq := normalize_for_search quote
      if nq.length < 8 then .dict a
      else
        match findPage nq page_texts 0 with
        | some p => .dict { a with page := some (p : Int) }
        | none => .dict a

/-- `ocr_service.correct_annotation_pages`. -/
def correct_annotation_pages (annotations : List AnnEntry)
    (page_texts : List (List Char)) : List AnnEntry :=
  if page_texts = [] ∨ annotations = [] then annotations
  else annotations.map (correctEntry page_texts)

/-- Spec-side locator, following the amended claim: the 1-based index of the
first page whose normalized text contains the full normalized quote or an
eligible prefix of it. -/
def firstMatchingPage (nq : List Char) : List (List Char) → Option Nat
  | [] => none
  | p :: rest =>
    if pageMatches nq (normalize_for_search p) then some 1
    else (firstMatchingPage nq rest).map (· + 1)

/-- Spec-side per-entry transformation, following the amended claim. -/
def locateEntrySpec (pages : List (List Char)) (e : AnnEntry) : AnnEntry :=
  match e with
  | .other t => .other t
  | .dict a =>
    let q := pyStrip (a.quote.getD [])
    let nq := normalize_for_search q
    if pages = [] ∨ q.length < 10 ∨ nq.length < 8 then .dict a
    else
      match firstMatchingPage nq pages with
      | some p => .dict { a with page := some (p : Int) }
      | none => .dict a

/-- The claim's gate for entries that must be returned untouched: non-dict
entries, and quotes that are missing, shorter than 10 characters, or below 8
characters after normalization. -/
def gateFails (e : AnnEntry) : Prop :=
  match e with
  | .other _ => True
  | .dict a =>
    a.quote = none ∨ (a.quote.getD []).length < 10 ∨
      (normalize_for_search (a.quote.getD [])).length < 8

/-- Equality of entries up to the `page` field. -/
def sameExceptPage : AnnEntry → AnnEntry → Prop
  | .other t, .other u => t = u
  | .dict a, .dict b => a.quote = b.quote ∧ a.rest = b.rest
  | _, _ => False

-- Basic lemmas about the string primitives.

theorem length_pyStrip_le (s : List Char) : (pyStrip s).length ≤ s.length := by
  unfold pyStrip pyStripLeft pyStripRight
  exact le_trans (List.rdropWhile_prefix _ _).sublist.length_le
    (List.dropWhile_suffix _).sublist.length_le

theorem pyStripLeft_pyStripRight (s : List Char) :
    pyStripLeft (pyStripRight (pyStripLeft s)) = pyStripRight (pyStripLeft s) := by
  unfold pyStripLeft pyStripRight
  rw [List.dropWhile_eq_self_iff]
  intro hl
  have hpre := List.rdropWhile_prefix pyIsSpace (s.dropWhile pyIsSpace)
  have hlen : 0 < (s.dropWhile pyIsSpace).length :=
    lt_of_lt_of_le hl hpre.sublist.length_le
  have hget := hpre.getElem (n := 0) hl
  have hnot := List.dropWhile_get_zero_not pyIsSpace s hlen
  simpa [List.get_eq_getElem, hget] using hnot

theorem pyStrip_idem (s : List Char) : pyStrip (pyStrip s) = pyStrip s := by
  unfold pyStrip
  rw [pyStripLeft_pyStripRight]
  unfold pyStripLeft pyStripRight
  rw [List.rdropWhile_idempotent]

theorem normalize_pyStrip (s : List Char) :
    normalize_for_search (pyStrip s) = normalize_for_search s := by
  unfold normalize_for_search
  rw [pyStrip_idem]

theorem listContains_nil_eq (pat : List Char) :
    listContains [] pat = pat.isEmpty := by
  cases pat <;> simp [listContains, List.isPrefixOf]

theorem pageMatches_nil (nq : List Char) (h : 8 ≤ nq.length) :
    pageMatches nq [] = false := by
  have hne : nq ≠ [] := by
    intro e
    rw [e] at h
    simp at h
  have hk : ∀ k : Nat, 1 ≤ k →
      (decide (k ≤ nq.length) && listContains [] (nq.take k)) = false := by
    intro k hk1
    by_cases hkl : k ≤ nq.length
    · have hne2 : nq.take k ≠ [] := by
        intro heq
        rcases List.take_eq_nil_iff.mp heq with e | e
        · omega
        · exact hne e
      rw [listContains_nil_eq]
      simp [List.isEmpty_iff, hne2]
    · simp [hkl]
  unfold pageMatches
  rw [listContains_nil_eq, hk 80 (by omega), hk 50 (by omega), hk 35 (by omega),
    hk 25 (by omega)]
  simp [List.isEmpty_iff, hne]

theorem normalize_nil : normalize_for_search [] = [] := rfl

theorem findPage_eq_firstMatchingPage (nq : List Char) (h : 8 ≤ nq.length) :
    ∀ (pages : List (List Char)) (k : Nat),
      findPage nq pages k = (firstMatchingPage nq pages).map (· + k) := by
  intro pages
  induction pages with
  | nil => intro k; rfl
  | cons p rest ih =>
    intro k
    by_cases hp : p = []
    · subst hp
      have hm : pageMatches nq (normalize_for_search []) = false := by
        rw [normalize_nil]; exact pageMatches_nil nq h
      rw [findPage, firstMatchingPage, hm]
      simp only [if_true, Bool.false_eq_true, if_false, ih (k + 1), Option.map_map]
      congr 1
      funext j
      simp [Function.comp]
      omega
    · by_cases hm : pageMatches nq (normalize_for_search p) = true
      · rw [findPage, firstMatchingPage, if_neg hp, hm]
        simp
        omega
      · rw [findPage, firstMatchingPage, if_neg hp]
        rw [Bool.not_eq_true] at hm
        rw [hm]
        simp only [Bool.false_eq_true, if_false, ih (k + 1), Option.map_map]
        congr 1
        funext j
        simp [Function.comp]
        omega

/-- Per-entry agreement between the implementation's loop body and the
spec-side transformation, for a non-empty page list. -/
theorem correctEntry_eq_locateEntrySpec (pages : List (List Char))
    (hp : pages ≠ []) (e : AnnEntry) :
    correctEntry pages e = locateEntrySpec pages e := by
  cases e with
  | other t => rfl
  | dict a =>
    unfold correctEntry locateEntrySpec
    simp only
    by_cases h10 : (pyStrip (a.quote.getD [])).length < 10
    · have hq : (pyStrip (a.quote.getD []) = [] ∨
          (pyStrip (a.quote.getD [])).length < 10) := Or.inr h10
      rw [if_pos hq, if_pos (by right; left; exact h10)]
    · by_cases h8 : (normalize_for_search (pyStrip (a.quote.getD []))).length < 8
      · have hq : ¬(pyStrip (a.quote.getD []) = [] ∨
            (pyStrip (a.quote.getD [])).length < 10) := by
          rintro (e | e)
          · rw [e] at h10; simp at h10
          · exact h10 e
        rw [if_neg hq, if_pos h8, if_pos (by right; right; exact h8)]
      · have hq : ¬(pyStrip (a.quote.getD []) = [] ∨
            (pyStrip (a.quote.getD [])).length < 10) := by
          rintro (e | e)
          · rw [e] at h10; simp at h10
          · exact h10 e
        rw [if_neg hq, if_neg h8, if_neg (by
          rintro (e | e | e)
          · exact hp e
          · exact h10 e
          · exact h8 e)]
        rw [findPage_eq_firstMatchingPage _ (by omega) pages 0]
        cases firstMatchingPage (normalize_for_search (pyStrip (a.quote.getD []))) pages <;>
          simp

theorem locateEntrySpec_nil (e : AnnEntry) : locateEntrySpec [] e = e := by
  cases e with
  | other t => rfl
  | dict a => simp [locateEntrySpec]

/-- C2 (amended): `correct_annotation_pages` maps each annotation through the
spec-side page locator: an eligible annotation's page becomes the 1-based
index of the first page whose normalized text contains the full normalized
quote or a prefix of it of length 80/50/35/25 (the prefix fallback applied on
each page before moving to the next); first matching page wins, and when no
page matches, or the quote is ineligible, the annotation is unchanged. -/
theorem correct_pages_locates_first_matching_page (anns : List AnnEntry)
    (pages : List (List Char)) :
    correct_annotation_pages anns pages = anns.map (locateEntrySpec pages) := by
  unfold correct_annotation_pages
  by_cases hg : pages = [] ∨ anns = []
  · rw [if_pos hg]
    rcases hg with hg | hg
    · subst hg
      exact (List.map_id'' (locateEntrySpec_nil) anns).symm
    · subst hg
      rfl
  · rw [if_neg hg]
    push_neg at hg
    exact List.map_congr_left fun e _ =>
      correctEntry_eq_locateEntrySpec pages hg.1 e

/-- C2 (counterexample): the quote is found in full on page 2 only, yet the
code sets page 1, because page 1 contains the 25-character prefix and the
prefix fallback is tried on each page before later pages are scanned. -/
theorem correct_pages_cex_prefix_beats_full_quote :
    correct_annotation_pages
        [AnnEntry.dict ⟨some (cs "aaaaabbbbbcccccdddddeeeeefffff"), some 9, []⟩]
        [cs "aaaaabbbbbcccccdddddeeeeezzzzz", cs "aaaaabbbbbcccccdddddeeeeefffff"]
      = [AnnEntry.dict ⟨some (cs "aaaaabbbbbcccccdddddeeeeefffff"), some 1, []⟩] ∧
    listContains (normalize_for_search (cs "aaaaabbbbbcccccdddddeeeeefffff"))
        (normalize_for_search (cs "aaaaabbbbbcccccdddddeeeeefffff")) = true ∧
    listContains (normalize_for_search (cs "aaaaabbbbbcccccdddddeeeeezzzzz"))
        (normalize_for_search (cs "aaaaabbbbbcccccdddddeeeeefffff")) = false := by
  decide

theorem sameExceptPage_refl (e : AnnEntry) : sameExceptPage e e := by
  cases e <;> simp [sameExceptPage]

theorem gate_correctEntry (pages : List (List Char)) (e : AnnEntry)
    (h : gateFails e) : correctEntry pages e = e := by
  cases e with
  | other t => rfl
  | dict a =>
    unfold correctEntry
    simp only
    by_cases h10 : pyStrip (a.quote.getD []) = [] ∨
        (pyStrip (a.quote.getD [])).length < 10
    · rw [if_pos h10]
    · rw [if_neg h10]
      have h8 : (normalize_for_search (pyStrip (a.quote.getD []))).length < 8 := by
        unfold gateFails at h
        rcases h with h | h | h
        · exact absurd (Or.inl (by rw [h]; rfl)) h10
        · exact absurd (Or.inr (lt_of_le_of_lt (length_pyStrip_le _) h)) h10
        · rw [normalize_pyStrip]
          exact h
      rw [if_pos h8]

theorem correctEntry_sameExceptPage (pages : List (List Char)) (e : AnnEntry) :
    sameExceptPage e (correctEntry pages e) := by
  cases e with
  | other t => exact rfl
  | dict a =>
    unfold correctEntry
    simp only
    by_cases h10 : pyStrip (a.quote.getD []) = [] ∨
        (pyStrip (a.quote.getD [])).length < 10
    · rw [if_pos h10]; exact ⟨rfl, rfl⟩
    · rw [if_neg h10]
      by_cases h8 : (normalize_for_search (pyStrip (a.quote.getD []))).length < 8
      · rw [if_pos h8]; exact ⟨rfl, rfl⟩
      · rw [if_neg h8]
        cases findPage (normalize_for_search (pyStrip (a.quote.getD []))) pages 0 with
        | none => exact ⟨rfl, rfl⟩
        | some p => exact ⟨rfl, rfl⟩

/-- C10: `correct_annotation_pages` preserves the length and order of the
annotation list; every output entry agrees with its input entry on all fields
other than `page`; and entries that are not dicts, or whose quote is missing,
shorter than 10 characters, or below 8 characters after normalization, are
returned unchanged. -/
theorem correct_pages_frame (anns : List AnnEntry) (pages : List (List Char)) :
    (correct_annotation_pages anns pages).length = anns.length ∧
    List.Forall₂ (fun e e2 => sameExceptPage e e2 ∧ (gateFails e → e2 = e))
      anns (correct_annotation_pages anns pages) := by
  have hfa : List.Forall₂ (fun e e2 => sameExceptPage e e2 ∧ (gateFails e → e2 = e))
      anns (correct_annotation_pages anns pages) := by
    unfold correct_annotation_pages
    by_cases hg : pages = [] ∨ anns = []
    · rw [if_pos hg]
      exact List.forall₂_same.mpr fun e _ => ⟨sameExceptPage_refl e, fun _ => rfl⟩
    · rw [if_neg hg]
      rw [List.forall₂_map_right_iff]
      exact List.forall₂_same.mpr fun e _ =>
        ⟨correctEntry_sameExceptPage pages e, fun h => gate_correctEntry pages e h⟩
  exact ⟨hfa.length_eq.symm, hfa⟩

-- ai_service.chunk_text -------------------------------------------------

/-- Python slice-index normalization: a negative index counts from the end
(clamped at 0), a positive one is clamped at the length. -/
def pySliceIdx (n : Nat) (i : Int) : Nat :=
  if i < 0 then ((n : Int) + i).toNat else min i.toNat n

/-- Python `s[a:b]` for `Int` indices. -/
def pySlice (s : List Char) (a b : Int) : List Char :=
  let a2 := pySliceIdx s.length a
  let b2 := pySliceIdx s.length b
  (s.drop a2).take (b2 - a2)

/-- Scan for the right-most occurrence of `pat` inside `[a2, b2)`; walks the
text once keeping the index `j` of the head and the best match so far. -/
def rfindScan (pat : List Char) (a2 b2 : Nat) : List Char → Nat → Int → Int
  | [], _, best => best
  | c :: rest, j, best =>
    let best2 :=
      if a2 ≤ j ∧ j + pat.length ≤ b2 ∧ pat.isPrefixOf (c :: rest) then (j : Int)
      else best
    rfindScan pat a2 b2 rest (j + 1) best2

/-- Python `s.rfind(pat, a, b)`: the largest index of an occurrence of `pat`
lying entirely inside the normalized range, `-1` when there is none. -/
def pyRfind (s pat : List Char) (a b : Int) : Int :=
  let a2 := pySliceIdx s.length a
  let b2 := pySliceIdx s.length b
  if pat = [] then
    if a2 ≤ b2 then (min b2 s.length : Int) else -1
  else rfindScan pat a2 b2 s 0 (-1)

/-- One iteration of the `while` loop of `chunk_text`: from the current
`start`, pick the window end (backing off to the right-most paragraph break
`"\n\n"`, else sentence break `". "`, inside the window), and return the new
`start` together with the stripped chunk. -/
def chunkStep (text : List Char) (start : Int) : Int × List Char :=
  let n : Int := text.length
  let end0 := start + 1800
  let end1 :=
    if end0 < n then
      let ba := pyRfind text (cs "\n\n") start (end0 + 1)
      if ba > start then ba + 2
      else
        let ba2 := pyRfind text (cs ". ") start (end0 + 1)
        if ba2 > start then ba2 + 2 else end0
    else end0
  let chunk := pyStrip (pySlice text start end1)
  let start2 := if end1 < n then end1 - 100 else n
  (start2, chunk)

/-- The `while` loop of `chunk_text`, with explicit fuel; `none` means the
fuel ran out before the loop exited. -/
def chunkLoop (text : List Char) : Nat → Int → List (List Char) →
    Option (List (List Char))
  | 0, _, _ => none
  | fuel + 1, start, acc =>
    if start < (text.length : Int) then
      let sc := chunkStep text start
      chunkLoop text fuel sc.1 (if sc.2 = [] then acc else acc ++ [sc.2])
    else some acc

/-- `ai_service.chunk_text`, with explicit fuel for the `while` loop. -/
def chunk_text (fuel : Nat) (text : List Char) : Option (List (List Char)) :=
  if pyStrip text = [] then some []
  else chunkLoop (pyStrip text) fuel 0 []

/-- Input on which `chunk_text` loops forever: the only paragraph break sits
100 characters in, so every window from `start = 2` on ends at 102 and the
overlap rewinds `start` back to 2. -/
def c1BadText : List Char :=
  List.replicate 100 'A' ++ cs "\n\n" ++ List.replicate 1701 'B'

theorem cs_nl : cs "\n\n" = ['\n', '\n'] := rfl

theorem c1BadText_assoc :
    c1BadText =
      List.replicate 100 'A' ++ (['\n', '\n'] ++ List.replicate 1701 'B') := by
  unfold c1BadText
  rw [cs_nl, List.append_assoc]

theorem c1BadText_length : c1BadText.length = 1803 := by
  rw [c1BadText_assoc, List.length_append, List.length_append]
  rw [List.length_replicate, List.length_replicate]
  rfl

/-- Scanning a segment in which the pattern nowhere occurs only advances the
index. -/
theorem rfindScan_skip (pat : List Char) (a2 b2 : Nat) (xs ys : List Char) :
    ∀ (j : Nat) (best : Int),
      (∀ k, k < xs.length → pat.isPrefixOf ((xs ++ ys).drop k) = false) →
      rfindScan pat a2 b2 (xs ++ ys) j best =
        rfindScan pat a2 b2 ys (j + xs.length) best := by
  induction xs with
  | nil => intro j best _; simp
  | cons x xs ih =>
    intro j best h
    rw [List.cons_append, rfindScan]
    have h0 := h 0 (by simp)
    simp only [List.drop_zero, List.cons_append] at h0
    rw [if_neg (by simp [h0])]
    rw [ih (j + 1) best (fun k hk => by
      have := h (k + 1) (by simpa using Nat.succ_lt_succ hk)
      simpa using this)]
    congr 1
    simp only [List.length_cons]
    omega

theorem rfindScan_noMatch (pat : List Char) (a2 b2 : Nat) (s : List Char) :
    ∀ (j : Nat) (best : Int),
      (∀ k, k < s.length → pat.isPrefixOf (s.drop k) = false) →
      rfindScan pat a2 b2 s j best = best := by
  induction s with
  | nil => intro j best _; rfl
  | cons x xs ih =>
    intro j best h
    rw [rfindScan]
    have h0 := h 0 (by simp)
    simp only [List.drop_zero] at h0
    rw [if_neg (by simp [h0])]
    exact ih (j + 1) best (fun k hk => by
      have := h (k + 1) (by simpa using Nat.succ_lt_succ hk)
      simpa using this)

theorem rfindScan_nil (pat : List Char) (a2 b2 : Nat) (j : Nat) (best : Int) :
    rfindScan pat a2 b2 [] j best = best := rfl

theorem isPrefixOf_mismatch (p0 c : Char) (ps s : List Char) (h : (p0 == c) = false) :
    (p0 :: ps).isPrefixOf (c :: s) = false := by
  simp only [List.isPrefixOf, h, Bool.false_and]

theorem isPrefixOf_nlnl (s : List Char) :
    (['\n', '\n'] : List Char).isPrefixOf ('\n' :: '\n' :: s) = true := by
  simp [List.isPrefixOf]

/-- No occurrence of `"\n\n"` starting inside the leading `'A'` segment. -/
theorem c1_no_match_A (k : Nat) (hk : k < 100) :
    (['\n', '\n'] : List Char).isPrefixOf
      ((List.replicate 100 'A' ++ (['\n', '\n'] ++ List.replicate 1701 'B')).drop k)
      = false := by
  rw [List.drop_append_eq_append_drop]
  rw [List.drop_replicate]
  have h1 : k - (List.replicate 100 'A').length = 0 := by
    rw [List.length_replicate]; omega
  rw [h1, List.drop_zero]
  obtain ⟨m, hm⟩ : ∃ m, 100 - k = m + 1 := ⟨99 - k, by omega⟩
  rw [hm, List.replicate_succ, List.cons_append]
  exact isPrefixOf_mismatch _ _ _ _ (by decide)

/-- No occurrence of `"\n\n"` starting inside the trailing `'B'` segment. -/
theorem c1_no_match_B (k : Nat) (hk : k < 1701) :
    (['\n', '\n'] : List Char).isPrefixOf ((List.replicate 1701 'B').drop k)
      = false := by
  rw [List.drop_replicate]
  obtain ⟨m, hm⟩ : ∃ m, 1701 - k = m + 1 := ⟨1700 - k, by omega⟩
  rw [hm, List.replicate_succ]
  exact isPrefixOf_mismatch _ _ _ _ (by decide)

/-- The right-most `"\n\n"` of the bad input, searched in any window covering
index 100, is at index 100. -/
theorem rfindScan_c1 (a2 b2 : Nat) (h1 : a2 ≤ 100) (h2 : 102 ≤ b2) :
    rfindScan ['\n', '\n'] a2 b2 c1BadText 0 (-1) = 100 := by
  rw [c1BadText_assoc]
  rw [rfindScan_skip _ _ _ _ _ 0 (-1) (fun k hk => by
    exact c1_no_match_A k (by simpa using hk))]
  simp only [List.length_replicate, Nat.zero_add]
  have hB : List.replicate 1701 'B' = 'B' :: List.replicate 1700 'B' := by
    rw [← List.replicate_succ]
  rw [List.cons_append, rfindScan]
  rw [if_pos ⟨h1, by simpa using h2, isPrefixOf_nlnl _⟩]
  rw [List.singleton_append, rfindScan]
  rw [if_neg (fun hc => by
    have h3 := hc.2.2
    rw [hB] at h3
    simp only [List.isPrefixOf] at h3
    rw [(by decide : (('\n' : Char) == 'B') = false)] at h3
    simp at h3)]
  have hkB : ∀ k, k < (List.replicate 1701 'B').length →
      (['\n', '\n'] : List Char).isPrefixOf ((List.replicate 1701 'B').drop k)
        = false := by
    intro k hk
    rw [List.length_replicate] at hk
    exact c1_no_match_B k hk
  rw [rfindScan_noMatch _ _ _ _ _ _ hkB]
  simp

theorem pySliceIdx_of_nonneg (n : Nat) (i : Int) (h0 : 0 ≤ i) (hn : i.toNat ≤ n) :
    pySliceIdx n i = i.toNat := by
  unfold pySliceIdx
  rw [if_neg (not_lt.mpr h0)]
  exact min_eq_left hn

theorem pyRfind_c1 (a b : Int) (h0 : 0 ≤ a) (ha : a.toNat ≤ 100)
    (hb1 : 102 ≤ b.toNat) (hb2 : b.toNat ≤ 1803) (hb0 : 0 ≤ b) :
    pyRfind c1BadText (cs "\n\n") a b = 100 := by
  unfold pyRfind
  rw [c1BadText_length]
  rw [pySliceIdx_of_nonneg 1803 a h0 (by omega),
    pySliceIdx_of_nonneg 1803 b hb0 hb2]
  rw [if_neg (by rw [cs_nl]; simp)]
  rw [cs_nl]
  exact rfindScan_c1 a.toNat b.toNat ha hb1

theorem pyIsSpace_A : pyIsSpace 'A' = false := by decide

theorem pyIsSpace_B : pyIsSpace 'B' = false := by decide

theorem pyStrip_repl_nl (n : Nat) :
    pyStrip (List.replicate (n + 1) 'A' ++ ['\n', '\n'])
      = List.replicate (n + 1) 'A' := by
  unfold pyStrip pyStripLeft pyStripRight
  have hcons : List.replicate (n + 1) 'A' ++ ['\n', '\n']
      = 'A' :: (List.replicate n 'A' ++ ['\n', '\n']) := by
    rw [List.replicate_succ, List.cons_append]
  rw [hcons, List.dropWhile_cons, pyIsSpace_A]
  simp only [Bool.false_eq_true, if_false]
  rw [← hcons]
  unfold List.rdropWhile
  rw [List.reverse_append, List.reverse_replicate]
  have : (['\n', '\n'] : List Char).reverse = '\n' :: '\n' :: [] := rfl
  rw [this, List.cons_append, List.cons_append, List.dropWhile_cons]
  rw [(by decide : pyIsSpace '\n' = true)]
  simp only [if_true]
  rw [List.dropWhile_cons, (by decide : pyIsSpace '\n' = true)]
  simp only [if_true]
  have hA : List.replicate (n + 1) 'A' = 'A' :: List.replicate n 'A' :=
    List.replicate_succ 'A' n
  rw [List.nil_append, hA, List.dropWhile_cons, pyIsSpace_A]
  simp only [Bool.false_eq_true, if_false]
  rw [← hA, List.reverse_replicate]

theorem pyStrip_c1BadText : pyStrip c1BadText = c1BadText := by
  unfold pyStrip pyStripLeft pyStripRight
  have hcons : c1BadText = 'A' :: (List.replicate 99 'A' ++
      (['\n', '\n'] ++ List.replicate 1701 'B')) := by
    rw [c1BadText_assoc]
    rw [(by rw [← List.replicate_succ] : List.replicate 100 'A'
      = 'A' :: List.replicate 99 'A'), List.cons_append]
  rw [hcons, List.dropWhile_cons, pyIsSpace_A]
  simp only [Bool.false_eq_true, if_false]
  rw [← hcons]
  unfold List.rdropWhile
  have hcons2 : c1BadText.reverse =
      'B' :: (List.replicate 1700 'B' ++ ['\n', '\n'] ++ List.replicate 100 'A') := by
    rw [c1BadText_assoc, List.reverse_append, List.reverse_append,
      List.reverse_replicate, List.reverse_replicate]
    rw [show List.replicate 1701 'B' = 'B' :: List.replicate 1700 'B' from by
      rw [show (1701 : Nat) = 1700 + 1 from by norm_num, List.replicate_succ]]
    rw [show (['\n', '\n'] : List Char).reverse = ['\n', '\n'] from rfl]
    simp only [List.cons_append, List.append_assoc]
  rw [hcons2, List.dropWhile_cons, pyIsSpace_B]
  simp only [Bool.false_eq_true, if_false]
  rw [← hcons2, List.reverse_reverse]

theorem take_two_nl (t : List Char) :
    (['\n', '\n'] ++ t).take 2 = ['\n', '\n'] := rfl

theorem pySlice_c1 (an : Nat) (ha : an ≤ 100) :
    pySlice c1BadText (an : Int) 102
      = List.replicate (100 - an) 'A' ++ ['\n', '\n'] := by
  unfold pySlice
  rw [c1BadText_length]
  rw [pySliceIdx_of_nonneg 1803 an (Int.natCast_nonneg an) (by simp; omega)]
  rw [pySliceIdx_of_nonneg 1803 102 (by norm_num) (by norm_num)]
  rw [show ((an : Int)).toNat = an from Int.toNat_natCast an]
  rw [show ((102 : Int)).toNat = 102 from rfl]
  simp only []
  rw [c1BadText_assoc, List.drop_append_eq_append_drop, List.drop_replicate]
  rw [show an - (List.replicate 100 'A').length = 0 from by
    rw [List.length_replicate]; omega]
  rw [List.drop_zero, List.take_append_eq_append_take, List.take_replicate]
  rw [show min (102 - an) (100 - an) = 100 - an from by omega]
  rw [show 102 - an - (List.replicate (100 - an) 'A').length = 2 from by
    rw [List.length_replicate]; omega]
  rw [take_two_nl]

theorem chunkStep_c1 (an : Nat) (ha : an < 3) :
    chunkStep c1BadText (an : Int) = (2, List.replicate (100 - an) 'A') := by
  unfold chunkStep
  rw [c1BadText_length]
  simp only []
  rw [if_pos (show (an : Int) + 1800 < ((1803 : Nat) : Int) from by push_cast; omega)]
  have hr : pyRfind c1BadText (cs "\n\n") (an : Int) ((an : Int) + 1800 + 1)
      = 100 := by
    apply pyRfind_c1 <;> omega
  rw [hr]
  rw [if_pos (show (100 : Int) > (an : Int) from by omega)]
  rw [show ((100 : Int) + 2) = 102 from by norm_num]
  rw [if_pos (show (102 : Int) < ((1803 : Nat) : Int) from by norm_num)]
  rw [pySlice_c1 an (by omega)]
  obtain ⟨m, hm⟩ : ∃ m, 100 - an = m + 1 := ⟨99 - an, by omega⟩
  rw [hm, pyStrip_repl_nl m]
  norm_num

theorem chunkLoop_c1_stuck : ∀ (fuel : Nat) (acc : List (List Char)),
    chunkLoop c1BadText fuel 2 acc = none := by
  intro fuel
  induction fuel with
  | zero => intro acc; rfl
  | succ f ih =>
    intro acc
    rw [chunkLoop]
    rw [if_pos (show (2 : Int) < (c1BadText.length : Int) from by
      rw [c1BadText_length]; norm_num)]
    simp only [show chunkStep c1BadText 2 = (2, List.replicate 98 'A') from by
      have := chunkStep_c1 2 (by norm_num)
      norm_num at this
      exact this]
    rw [if_neg (by simp)]
    exact ih _

/-- C1: the chunker is not total.  On `c1BadText` (an `'A'`-block, one
paragraph break, then a long `'B'`-block) the `while` loop of `chunk_text`
returns to `start = 2` on every iteration, so no amount of fuel makes it
terminate; the claim that `chunk_text` terminates on every input is false of
the code. -/
theorem chunk_text_diverges (fuel : Nat) : chunk_text fuel c1BadText = none := by
  unfold chunk_text
  rw [pyStrip_c1BadText]
  rw [if_neg (by
    intro h
    have := congrArg List.length h
    rw [c1BadText_length] at this
    simp at this)]
  cases fuel with
  | zero => rfl
  | succ f =>
    rw [chunkLoop]
    rw [if_pos (show (0 : Int) < (c1BadText.length : Int) from by
      rw [c1BadText_length]; norm_num)]
    simp only [show chunkStep c1BadText 0 = (2, List.replicate 100 'A') from by
      have := chunkStep_c1 0 (by norm_num)
      norm_num at this
      exact this]
    rw [if_neg (by simp)]
    exact chunkLoop_c1_stuck f _

-- ai_service._bid_text_for_eval ----------------------------------------

/-- The chunk-concatenation loop of `_bid_text_for_eval`: keep taking chunks
while the running character count stays within the 6000 ceiling. -/
def concatChunks : List (List Char) → Nat → List (List Char)
  | [], _ => []
  | c :: rest, n =>
    if 6000 < n + c.length then []
    else c :: concatChunks rest (n + c.length)

/-- `ai_service._bid_text_for_eval`. -/
def bid_text_for_eval (bid_text : List Char)
    (evaluation_summary : Option (List Char))
    (text_chunks : Option (List (List Char))) : List Char :=
  match evaluation_summary with
  | some s =>
    if pyStrip s ≠ [] then
      (match text_chunks with
       | some (c0 :: _) => pyStrip s ++ (cs "\n\n[Excerpt]\n" ++ c0.take 1200)
       | _ => pyStrip s).take 6000
    else
      match text_chunks with
      | some (c0 :: cks) =>
        match concatChunks (c0 :: cks) 0 with
        | [] => bid_text.take 6000
        | out => List.intercalate (cs "\n\n") out
      | _ => bid_text.take 6000
  | none =>
    match text_chunks with
    | some (c0 :: cks) =>
      match concatChunks (c0 :: cks) 0 with
      | [] => bid_text.take 6000
      | out => List.intercalate (cs "\n\n") out
    | _ => bid_text.take 6000

/-- C9 (counterexample): a summary with a leading space is trimmed before
being placed first, so the selected text does not literally start with the
summary. -/
theorem bid_text_for_eval_cex_untrimmed_summary :
    bid_text_for_eval (cs "bid") (some (cs " a")) (some [cs "c"])
      = cs "a\n\n[Excerpt]\nc" ∧
    (cs " a").isPrefixOf
      (bid_text_for_eval (cs "bid") (some (cs " a")) (some [cs "c"])) = false ∧
    pyStrip (cs " a") ≠ [] := by
  decide

/-- C9 (amended): with a non-whitespace summary and a non-empty chunk list
the selected text is the trimmed summary followed by the `[Excerpt]` marker
and the first 1200 characters of the first chunk, all truncated to 6000
characters; whenever the trimmed summary fits the ceiling, the selected text
begins with the trimmed summary (never with chunk text). -/
theorem bid_text_for_eval_summary_first (bid s c0 : List Char)
    (cks : List (List Char)) (h : pyStrip s ≠ [])
    (hlen : (pyStrip s).length ≤ 6000) :
    bid_text_for_eval bid (some s) (some (c0 :: cks))
      = (pyStrip s ++ (cs "\n\n[Excerpt]\n" ++ c0.take 1200)).take 6000 ∧
    (pyStrip s).isPrefixOf
      (bid_text_for_eval bid (some s) (some (c0 :: cks))) = true := by
  have heq : bid_text_for_eval bid (some s) (some (c0 :: cks))
      = (pyStrip s ++ (cs "\n\n[Excerpt]\n" ++ c0.take 1200)).take 6000 := by
    unfold bid_text_for_eval
    simp only []
    rw [if_pos h]
  refine ⟨heq, ?_⟩
  rw [heq, List.isPrefixOf_iff_prefix]
  rw [List.take_append_eq_append_take]
  rw [List.take_of_length_le hlen]
  exact ⟨_, rfl⟩

theorem bid_text_for_eval_summary_first_witness :
    (pyStrip (cs " s1") ≠ [] ∧ (pyStrip (cs " s1")).length ≤ 6000) ∧
    (bid_text_for_eval (cs "b") (some (cs " s1")) (some [cs "c1"])
        = (pyStrip (cs " s1") ++
            (cs "\n\n[Excerpt]\n" ++ (cs "c1").take 1200)).take 6000 ∧
      (pyStrip (cs " s1")).isPrefixOf
        (bid_text_for_eval (cs "b") (some (cs " s1")) (some [cs "c1"])) = true) :=
  ⟨⟨by decide, by decide⟩,
    bid_text_for_eval_summary_first (cs "b") (cs " s1") (cs "c1") []
      (by decide) (by decide)⟩

-- JSON values and `json.loads` ------------------------------------------

/-- A parsed JSON value.  Numeric literals and the raw (still escaped)
contents of strings are kept verbatim, so no information of the source text
is lost and every comparison in the claims is exact. -/
inductive JVal where
  | null
  | bool (b : Bool)
  | num (lit : List Char)
  | str (raw : List Char)
  | arr (xs : List JVal)
  | obj (kvs : List (List Char × JVal))

mutual

/-- Decidable equality for `JVal` (the nested inductive needs it by hand). -/
def decEqJVal : (a b : JVal) → Decidable (a = b)
  | .null, .null => isTrue rfl
  | .bool b1, .bool b2 =>
    match decEq b1 b2 with
    | isTrue h => isTrue (by rw [h])
    | isFalse h => isFalse (by intro e; injection e; contradiction)
  | .num l1, .num l2 =>
    match decEq l1 l2 with
    | isTrue h => isTrue (by rw [h])
    | isFalse h => isFalse (by intro e; injection e; contradiction)
  | .str r1, .str r2 =>
    match decEq r1 r2 with
    | isTrue h => isTrue (by rw [h])
    | isFalse h => isFalse (by intro e; injection e; contradiction)
  | .arr xs, .arr ys =>
    match decEqJValList xs ys with
    | isTrue h => isTrue (by rw [h])
    | isFalse h => isFalse (by intro e; injection e; contradiction)
  | .obj xs, .obj ys =>
    match decEqJValKVs xs ys with
    | isTrue h => isTrue (by rw [h])
    | isFalse h => isFalse (by intro e; injection e; contradiction)
  | .null, .bool _ => isFalse (fun h => JVal.noConfusion h)
  | .null, .num _ => isFalse (fun h => JVal.noConfusion h)
  | .null, .str _ => isFalse (fun h => JVal.noConfusion h)
  | .null, .arr _ => isFalse (fun h => JVal.noConfusion h)
  | .null, .obj _ => isFalse (fun h => JVal.noConfusion h)
  | .bool _, .null => isFalse (fun h => JVal.noConfusion h)
  | .bool _, .num _ => isFalse (fun h => JVal.noConfusion h)
  | .bool _, .str _ => isFalse (fun h => JVal.noConfusion h)
  | .bool _, .arr _ => isFalse (fun h => JVal.noConfusion h)
  | .bool _, .obj _ => isFalse (fun h => JVal.noConfusion h)
  | .num _, .null => isFalse (fun h => JVal.noConfusion h)
  | .num _, .bool _ => isFalse (fun h => JVal.noConfusion h)
  | .num _, .str _ => isFalse (fun h => JVal.noConfusion h)
  | .num _, .arr _ => isFalse (fun h => JVal.noConfusion h)
  | .num _, .obj _ => isFalse (fun h => JVal.noConfusion h)
  | .str _, .null => isFalse (fun h => JVal.noConfusion h)
  | .str _, .bool _ => isFalse (fun h => JVal.noConfusion h)
  | .str _, .num _ => isFalse (fun h => JVal.noConfusion h)
  | .str _, .arr _ => isFalse (fun h => JVal.noConfusion h)
  | .str _, .obj _ => isFalse (fun h => JVal.noConfusion h)
  | .arr _, .null => isFalse (fun h => JVal.noConfusion h)
  | .arr _, .bool _ => isFalse (fun h => JVal.noConfusion h)
  | .arr _, .num _ => isFalse (fun h => JVal.noConfusion h)
  | .arr _, .str _ => isFalse (fun h => JVal.noConfusion h)
  | .arr _, .obj _ => isFalse (fun h => JVal.noConfusion h)
  | .obj _, .null => isFalse (fun h => JVal.noConfusion h)
  | .obj _, .bool _ => isFalse (fun h => JVal.noConfusion h)
  | .obj _, .num _ => isFalse (fun h => JVal.noConfusion h)
  | .obj _, .str _ => isFalse (fun h => JVal.noConfusion h)
  | .obj _, .arr _ => isFalse (fun h => JVal.noConfusion h)

/-- Decidable equality for lists of `JVal`. -/
def decEqJValList : (a b : List JVal) → Decidable (a = b)
  | [], [] => isTrue rfl
  | [], _ :: _ => isFalse (fun h => List.noConfusion h)
  | _ :: _, [] => isFalse (fun h => List.noConfusion h)
  | x :: xs, y :: ys =>
    match decEqJVal x y with
    | isFalse h => isFalse (by intro e; injection e; contradiction)
    | isTrue h1 =>
      match decEqJValList xs ys with
      | isTrue h2 => isTrue (by rw [h1, h2])
      | isFalse h => isFalse (by intro e; injection e; contradiction)

/-- Decidable equality for key/value lists. -/
def decEqJValKVs : (a b : List (List Char × JVal)) → Decidable (a = b)
  | [], [] => isTrue rfl
  | [], _ :: _ => isFalse (fun h => List.noConfusion h)
  | _ :: _, [] => isFalse (fun h => List.noConfusion h)
  | (k1, v1) :: xs, (k2, v2) :: ys =>
    match decEq k1 k2 with
    | isFalse h => isFalse (by
        intro e
        injection e with e1 e2
        injection e1
        contradiction)
    | isTrue hk =>
      match decEqJVal v1 v2 with
      | isFalse h => isFalse (by
          intro e
          injection e with e1 e2
          injection e1
          contradiction)
      | isTrue hv =>
        match decEqJValKVs xs ys with
        | isTrue ht => isTrue (by rw [hk, hv, ht])
        | isFalse h => isFalse (by intro e; injection e; contradiction)

end

instance : DecidableEq JVal := decEqJVal

/-- JSON structural whitespace (`json.loads` skips exactly these). -/
def jsonWs (c : Char) : Bool :=
  c = ' ' || c = '\t' || c = '\n' || c = '\r'

/-- Skip JSON whitespace. -/
def skipWs (s : List Char) : List Char := s.dropWhile jsonWs

/-- Hexadecimal digit (for `\uXXXX` escapes). -/
def isHexDigit (c : Char) : Bool :=
  c.isDigit || ('a' ≤ c && c ≤ 'f') || ('A' ≤ c && c ≤ 'F')

/-- One-character JSON escapes. -/
def isSimpleEscape (c : Char) : Bool :=
  c = '"' || c = '\\' || c = '/' || c = 'b' || c = 'f' || c = 'n' || c = 'r' || c = 't'

/-- Scan the body of a JSON string after the opening quote; returns the raw
(still escaped) content and the text after the closing quote.  Rejects bad
escapes and unescaped control characters, as Python's strict parser does. -/
def scanStringRaw : List Char → Option (List Char × List Char)
  | [] => none
  | c :: t =>
    if c = '"' then some ([], t)
    else if c = '\\' then
      match t with
      | [] => none
      | e :: t2 =>
        if e = 'u' then
          match t2 with
          | h1 :: h2 :: h3 :: h4 :: t3 =>
            if isHexDigit h1 && isHexDigit h2 && isHexDigit h3 && isHexDigit h4 then
              match scanStringRaw t3 with
              | some (r, rest) => some ('\\' :: 'u' :: h1 :: h2 :: h3 :: h4 :: r, rest)
              | none => none
            else none
          | _ => none
        else if isSimpleEscape e then
          match scanStringRaw t2 with
          | some (r, rest) => some ('\\' :: e :: r, rest)
          | none => none
        else none
    else if c.toNat < 32 then none
    else
      match scanStringRaw t with
      | some (r, rest) => some (c :: r, rest)
      | none => none

/-- Scan a JSON number literal (`-? int frac? exp?`); returns the literal and
the rest.  A leading zero ends the integer part, as in the JSON grammar. -/
def parseNumLit (s : List Char) : Option (List Char × List Char) :=
  let (neg, s1) : List Char × List Char :=
    match s with
    | '-' :: t => (['-'], t)
    | _ => ([], s)
  match s1 with
  | [] => none
  | c :: t =>
    if c = '0' ∨ (c.isDigit ∧ c ≠ '0') then
      let intPart : List Char × List Char :=
        if c = '0' then ([c], t)
        else (c :: t.takeWhile Char.isDigit, t.dropWhile Char.isDigit)
      let (ip, r1) := intPart
      let (fp, r2) : List Char × List Char :=
        match r1 with
        | '.' :: d :: u =>
          if d.isDigit then
            ('.' :: d :: u.takeWhile Char.isDigit, u.dropWhile Char.isDigit)
          else ([], r1)
        | _ => ([], r1)
      let (ep, r3) : List Char × List Char :=
        match r2 with
        | e :: u =>
          if e = 'e' ∨ e = 'E' then
            match u with
            | sgn :: w =>
              if sgn = '+' ∨ sgn = '-' then
                match w with
                | d :: _ =>
                  if d.isDigit then
                    (e :: sgn :: w.takeWhile Char.isDigit, w.dropWhile Char.isDigit)
                  else ([], r2)
                | [] => ([], r2)
              else if sgn.isDigit then
                (e :: u.takeWhile Char.isDigit, u.dropWhile Char.isDigit)
              else ([], r2)
            | [] => ([], r2)
          else ([], r2)
        | [] => ([], r2)
      some (neg ++ ip ++ fp ++ ep, r3)
    else none

mutual

/-- `json.loads` value parser with explicit fuel; `tc` additionally tolerates
one trailing comma before a closing bracket (used only to state which texts
are "invalid only by trailing commas" — Python's strict parser is `tc =
false`). -/
def parseVal (tc : Bool) : Nat → List Char → Option (JVal × List Char)
  | 0, _ => none
  | fuel + 1, s =>
    match skipWs s with
    | [] => none
    | c :: t =>
      if c = '{' then
        match skipWs t with
        | '}' :: rest => some (.obj [], rest)
        | _ => parseObjBody tc fuel t []
      else if c = '[' then
        match skipWs t with
        | ']' :: rest => some (.arr [], rest)
        | _ => parseArrBody tc fuel t []
      else if c = '"' then
        match scanStringRaw t with
        | some (r, rest) => some (.str r, rest)
        | none => none
      else if c = 't' then
        match t with
        | 'r' :: 'u' :: 'e' :: rest => some (.bool true, rest)
        | _ => none
      else if c = 'f' then
        match t with
        | 'a' :: 'l' :: 's' :: 'e' :: rest => some (.bool false, rest)
        | _ => none
      else if c = 'n' then
        match t with
        | 'u' :: 'l' :: 'l' :: rest => some (.null, rest)
        | _ => none
      else
        match parseNumLit (c :: t) with
        | some (lit, rest) => some (.num lit, rest)
        | none => none

/-- Members of an object after `{` (at least one member present). -/
def parseObjBody (tc : Bool) :
    Nat → List Char → List (List Char × JVal) → Option (JVal × List Char)
  | 0, _, _ => none
  | fuel + 1, s, acc =>
    match skipWs s with
    | '"' :: t =>
      match scanStringRaw t with
      | none => none
      | some (k, r1) =>
        match skipWs r1 with
        | ':' :: r2 =>
          match parseVal tc fuel r2 with
          | none => none
          | some (v, r3) =>
            match skipWs r3 with
            | ',' :: r4 =>
              if tc then
                match skipWs r4 with
                | '}' :: r5 => some (.obj (acc ++ [(k, v)]), r5)
                | _ => parseObjBody tc fuel r4 (acc ++ [(k, v)])
              else parseObjBody tc fuel r4 (acc ++ [(k, v)])
            | '}' :: r4 => some (.obj (acc ++ [(k, v)]), r4)
            | _ => none
        | _ => none
    | _ => none

/-- Elements of an array after `[` (at least one element present). -/
def parseArrBody (tc : Bool) :
    Nat → List Char → List JVal → Option (JVal × List Char)
  | 0, _, _ => none
  | fuel + 1, s, acc =>
    match parseVal tc fuel s with
    | none => none
    | some (v, r1) =>
      match skipWs r1 with
      | ',' :: r2 =>
        if tc then
          match skipWs r2 with
          | ']' :: r3 => some (.arr (acc ++ [v]), r3)
          | _ => parseArrBody tc fuel r2 (acc ++ [v])
        else parseArrBody tc fuel r2 (acc ++ [v])
      | ']' :: r2 => some (.arr (acc ++ [v]), r2)
      | _ => none

end

/-- Python `json.loads` (strict): parse one value and require only
whitespace after it. -/
def json_loads (s : List Char) : Option JVal :=
  match parseVal false (s.length + 1) s with
  | some (v, rest) => if skipWs rest = [] then some v else none
  | none => none

/-- The trailing-comma-tolerant variant, used to state claim C5's input
class. -/
def json_loads_tc (s : List Char) : Option JVal :=
  match parseVal true (s.length + 1) s with
  | some (v, rest) => if skipWs rest = [] then some v else none
  | none => none

-- ai_service response repair --------------------------------------------

/-- First index at which `pat` occurs in `hay` (Python `str.find`). -/
def findSubAux (pat : List Char) : List Char → Nat → Option Nat
  | hay, i =>
    if pat.isPrefixOf hay then some i
    else
      match hay with
      | [] => none
      | _ :: t => findSubAux pat t (i + 1)

/-- Python `hay.find(pat)` as an `Option`. -/
def findSub (hay pat : List Char) : Option Nat := findSubAux pat hay 0

/-- Python `hay.split(pat, 1)[-1]`: everything after the first occurrence of
`pat` (the whole string when `pat` does not occur). -/
def dropAfterFirst (pat hay : List Char) : List Char :=
  match findSub hay pat with
  | some i => hay.drop (i + pat.length)
  | none => hay

/-- Python `hay.split(pat, 1)[0]`: everything before the first occurrence of
`pat` (the whole string when `pat` does not occur). -/
def takeBeforeFirst (pat hay : List Char) : List Char :=
  match findSub hay pat with
  | some i => hay.take i
  | none => hay

/-- The markdown-fence stripping of `_parse_json_from_response` and
`_parse_extraction_json`. -/
def stripFences (t0 : List Char) : List Char :=
  if listContains t0 (cs "```json") then
    pyStrip (takeBeforeFirst (cs "```") (dropAfterFirst (cs "```json") t0))
  else if listContains t0 (cs "```") then
    pyStrip (takeBeforeFirst (cs "```") (dropAfterFirst (cs "```") t0))
  else t0

/-- The brace-depth loop: from the first `{`, find the index at which the
depth returns to zero (`pos` tracks the absolute index of the head). -/
def braceScan : List Char → Int → Nat → Option Nat
  | [], _, _ => none
  | c :: rest, d, pos =>
    if c = '{' then braceScan rest (d + 1) (pos + 1)
    else if c = '}' then
      if d - 1 = 0 then some pos else braceScan rest (d - 1) (pos + 1)
    else braceScan rest d (pos + 1)

/-- Lines 56–66 of `ai_service.py`: locate the first `{` and cut at its
brace-depth matching `}`; leave the text unchanged when there is no `{` or
the depth never returns to zero. -/
def braceExtract (t : List Char) : List Char :=
  match List.findIdx? (fun c => c = '{') t with
  | none => t
  | some start =>
    match braceScan (t.drop start) 0 start with
    | some i => (t.drop start).take (i + 1 - start)
    | none => t

/-- One pass of `re.sub(r",\s*C", "C", s)` for a closing character `C`: the
first argument accumulates (reversed) a pending `,` plus whitespace run that
may yet become a match. -/
def subCCAux (close : Char) : List Char → List Char → List Char
  | pending, [] => pending.reverse
  | pending, c :: rest =>
    match pending with
    | [] =>
      if c = ',' then subCCAux close [','] rest
      else c :: subCCAux close [] rest
    | p =>
      if c = close then close :: subCCAux close [] rest
      else if pyIsSpace c then subCCAux close (c :: p) rest
      else if c = ',' then p.reverse ++ subCCAux close [','] rest
      else p.reverse ++ (c :: subCCAux close [] rest)

/-- `re.sub(r",\s*C", "C", s)` for a closing character `C`. -/
def subCommaClose (close : Char) (s : List Char) : List Char :=
  subCCAux close [] s

/-- `ai_service._fix_trailing_commas`: drop trailing commas before `}` and
then before `]`. -/
def fix_trailing_commas (s : List Char) : List Char :=
  subCommaClose ']' (subCommaClose '}' s)

-- Regex fallback of `_parse_json_from_response` ---------------------------

/-- Numeric value of a run of decimal digits. -/
def digitsVal (ds : List Char) : Nat :=
  ds.foldl (fun acc c => 10 * acc + (c.toNat - '0'.toNat)) 0

/-- The matched digits of a score: integer digits and optional fraction
digits, kept verbatim so results stay kernel-computable. -/
structure ScoreLit where
  ip : List Char
  fp : Option (List Char)
deriving DecidableEq, Repr

/-- Exact value of `float(m.group(1))` for a matched score, as a rational
(used in statements only). -/
def scoreVal (l : ScoreLit) : ℚ :=
  (digitsVal l.ip : ℚ) +
    match l.fp with
    | none => 0
    | some f => (digitsVal f : ℚ) / (10 : ℚ) ^ f.length

/-- Try the regex `"score"\s*:\s*(\d+(\.\d+)?)` anchored at this position. -/
def tryScoreAt (s : List Char) : Option ScoreLit :=
  if (cs "\"score\"").isPrefixOf s then
    let r1 := (s.drop 7).dropWhile pyIsSpace
    match r1 with
    | ':' :: r2 =>
      let r3 := r2.dropWhile pyIsSpace
      let ds := r3.takeWhile Char.isDigit
      if ds = [] then none
      else
        match r3.dropWhile Char.isDigit with
        | '.' :: r4 =>
          let fs := r4.takeWhile Char.isDigit
          if fs = [] then some ⟨ds, none⟩
          else some ⟨ds, some fs⟩
        | _ => some ⟨ds, none⟩
    | _ => none
  else none

/-- `re.search` for the score pattern: left-most match wins. -/
def searchScore : List Char → Option ScoreLit
  | [] => none
  | s@(_ :: t) =>
    match tryScoreAt s with
    | some q => some q
    | none => searchScore t

/-- Scan the reasoning capture `((?:[^"\\]|\\.)*)` up to the closing quote:
any escaped pair or any character other than `"` and `\`. -/
def scanReasonBody : List Char → Option (List Char)
  | [] => none
  | c :: t =>
    if c = '"' then some []
    else if c = '\\' then
      match t with
      | [] => none
      | e :: t2 =>
        match scanReasonBody t2 with
        | some r => some (c :: e :: r)
        | none => none
    else
      match scanReasonBody t with
      | some r => some (c :: r)
      | none => none

/-- Try the regex `"reasoning"\s*:\s*"((?:[^"\\]|\\.)*)"` anchored at this
position; returns the raw captured group. -/
def tryReasoningAt (s : List Char) : Option (List Char) :=
  if (cs "\"reasoning\"").isPrefixOf s then
    let r1 := (s.drop 11).dropWhile pyIsSpace
    match r1 with
    | ':' :: r2 =>
      match r2.dropWhile pyIsSpace with
      | '"' :: r3 => scanReasonBody r3
      | _ => none
    | _ => none
  else none

/-- `re.search` for the reasoning pattern: left-most match wins. -/
def searchReasoning : List Char → Option (List Char)
  | [] => none
  | s@(_ :: t) =>
    match tryReasoningAt s with
    | some r => some r
    | none => searchReasoning t

/-- Octal digit. -/
def isOctDigit (c : Char) : Bool := '0' ≤ c && c ≤ '7'

/-- Value of a hexadecimal digit. -/
def hexVal (c : Char) : Nat :=
  if c.isDigit then c.toNat - '0'.toNat
  else if 'a' ≤ c && c ≤ 'f' then c.toNat - 'a'.toNat + 10
  else c.toNat - 'A'.toNat + 10

/-- Python `bytes.decode("unicode_escape")` on ASCII input: decode the
backslash escapes of a Python string literal; `none` models the
`UnicodeDecodeError` raised on a malformed `\x`/`\u`/`\U` escape.  (`\N{...}`
name lookups are outside this model and are kept verbatim, like any other
unknown escape.) -/
def pyUnicodeEscape : List Char → Option (List Char)
  | [] => some []
  | c :: t =>
    if c = '\\' then
      match t with
      | [] => none
      | e :: t2 =>
        if e = '\n' then pyUnicodeEscape t2
        else if e = '\\' then
          match pyUnicodeEscape t2 with
          | some r => some ('\\' :: r)
          | none => none
        else if e = '\'' then
          match pyUnicodeEscape t2 with
          | some r => some ('\'' :: r)
          | none => none
        else if e = '"' then
          match pyUnicodeEscape t2 with
          | some r => some ('"' :: r)
          | none => none
        else if e = 'a' then
          match pyUnicodeEscape t2 with
          | some r => some ('\x07' :: r)
          | none => none
        else if e = 'b' then
          match pyUnicodeEscape t2 with
          | some r => some ('\x08' :: r)
          | none => none
        else if e = 'f' then
          match pyUnicodeEscape t2 with
          | some r => some ('\x0c' :: r)
          | none => none
        else if e = 'n' then
          match pyUnicodeEscape t2 with
          | some r => some ('\n' :: r)
          | none => none
        else if e = 'r' then
          match pyUnicodeEscape t2 with
          | some r => some ('\r' :: r)
          | none => none
        else if e = 't' then
          match pyUnicodeEscape t2 with
          | some r => some ('\t' :: r)
          | none => none
        else if e = 'v' then
          match pyUnicodeEscape t2 with
          | some r => some ('\x0b' :: r)
          | none => none
        else if isOctDigit e then
          match t2 with
          | d2 :: d3 :: t3 =>
            if isOctDigit d2 && isOctDigit d3 then
              match pyUnicodeEscape t3 with
              | some r => some (Char.ofNat (64 * (e.toNat - '0'.toNat) +
                  8 * (d2.toNat - '0'.toNat) + (d3.toNat - '0'.toNat)) :: r)
              | none => none
            else if isOctDigit d2 then
              match pyUnicodeEscape (d3 :: t3) with
              | some r => some (Char.ofNat (8 * (e.toNat - '0'.toNat) +
                  (d2.toNat - '0'.toNat)) :: r)
              | none => none
            else
              match pyUnicodeEscape (d2 :: d3 :: t3) with
              | some r => some (Char.ofNat (e.toNat - '0'.toNat) :: r)
              | none => none
          | [d2] =>
            if isOctDigit d2 then
              match pyUnicodeEscape ([] : List Char) with
              | some r => some (Char.ofNat (8 * (e.toNat - '0'.toNat) +
                  (d2.toNat - '0'.toNat)) :: r)
              | none => none
            else
              match pyUnicodeEscape [d2] with
              | some r => some (Char.ofNat (e.toNat - '0'.toNat) :: r)
              | none => none
          | [] => some [Char.ofNat (e.toNat - '0'.toNat)]
        else if e = 'x' then
          match t2 with
          | h1 :: h2 :: t3 =>
            if isHexDigit h1 && isHexDigit h2 then
              match pyUnicodeEscape t3 with
              | some r => some (Char.ofNat (16 * hexVal h1 + hexVal h2) :: r)
              | none => none
            else none
          | _ => none
        else if e = 'u' then
          match t2 with
          | h1 :: h2 :: h3 :: h4 :: t3 =>
            if isHexDigit h1 && isHexDigit h2 && isHexDigit h3 && isHexDigit h4 then
              match pyUnicodeEscape t3 with
              | some r => some (Char.ofNat (((hexVal h1 * 16 + hexVal h2) * 16 +
                  hexVal h3) * 16 + hexVal h4) :: r)
              | none => none
            else none
          | _ => none
        else
          match pyUnicodeEscape t2 with
          | some r => some ('\\' :: e :: r)
          | none => none
    else
      match pyUnicodeEscape t with
      | some r => some (c :: r)
      | none => none

/-- The structured result of `_parse_json_from_response`: a parsed JSON
value, or the regex-scraped `{score, reasoning, requirements_breakdown: [],
annotations: []}` dict. -/
inductive RepairResult where
  | json (v : JVal)
  | scraped (score : Option ScoreLit) (reasoning : List Char)
deriving DecidableEq

/-- `ai_service._parse_json_from_response`.  `none` models the function
raising (`JSONDecodeError` from the final branch, or `UnicodeDecodeError`
from decoding the reasoning capture). -/
def parse_json_from_response (text : List Char) : Option RepairResult :=
  let t2 := braceExtract (stripFences (pyStrip text))
  match json_loads t2 with
  | some v => some (.json v)
  | none =>
    match json_loads (fix_trailing_commas t2) with
    | some v => some (.json v)
    | none =>
      let sc := searchScore t2
      match searchReasoning t2 with
      | some content =>
        match pyUnicodeEscape content with
        | none => none
        | some dec =>
          if sc ≠ none ∨ dec ≠ [] then some (.scraped sc dec) else none
      | none => if sc ≠ none then some (.scraped sc []) else none

set_option maxRecDepth 8000

/-- C5 (counterexample): `{"a": ",]", "b": [1,]}` is invalid only by the
trailing comma in `[1,]`, and its comma-free denotation has `"a" = ",]"`;
but the comma-stripping regex also rewrites the `,]` inside the string
value, so `repair` returns an object with `"a" = "]"`. -/
theorem repair_cex_comma_in_string :
    json_loads (cs "\x7b\"a\": \",]\", \"b\": [1,]\x7d") = none ∧
    json_loads_tc (cs "\x7b\"a\": \",]\", \"b\": [1,]\x7d")
      = some (.obj [(cs "a", .str (cs ",]")), (cs "b", .arr [.num (cs "1")])]) ∧
    parse_json_from_response (cs "\x7b\"a\": \",]\", \"b\": [1,]\x7d")
      = some (.json (.obj [(cs "a", .str (cs "]")),
          (cs "b", .arr [.num (cs "1")])])) ∧
    (JVal.obj [(cs "a", .str (cs "]")), (cs "b", .arr [.num (cs "1")])])
      ≠ .obj [(cs "a", .str (cs ",]")), (cs "b", .arr [.num (cs "1")])] := by
  refine ⟨?_, ?_, ?_, ?_⟩ <;> decide

/-- C6 (counterexample): the input contains a regex-recoverable
`"score": 72`, but the brace-depth extraction cuts the text to `{ "x": }`
before the regex fallback runs, so `repair` fails anyway. -/
theorem repair_cex_score_cut_away :
    searchScore (cs "\x7b \"x\": \x7dgarbage \"score\": 72") = some ⟨cs "72", none⟩ ∧
    parse_json_from_response (cs "\x7b \"x\": \x7dgarbage \"score\": 72") = none := by
  constructor
  · decide
  · decide

/-- The text that the parse/regex cascade of `_parse_json_from_response`
actually operates on: the input stripped, de-fenced and brace-extracted. -/
def repairCore (text : List Char) : List Char :=
  braceExtract (stripFences (pyStrip text))

/-- No usable fragment, per the amended claim: after fencing and brace
extraction, the remaining text neither parses as JSON (directly or after
comma-fixing) nor yields a regex-recoverable score or decodable non-empty
reasoning. -/
def noUsableFragment (text : List Char) : Prop :=
  json_loads (repairCore text) = none ∧
  json_loads (fix_trailing_commas (repairCore text)) = none ∧
  ((∃ c, searchReasoning (repairCore text) = some c ∧ pyUnicodeEscape c = none) ∨
   (searchScore (repairCore text) = none ∧
    (searchReasoning (repairCore text) = none ∨
     ∃ c, searchReasoning (repairCore text) = some c ∧ pyUnicodeEscape c = some [])))

/-- C6 (amended): `repair` fails exactly when no usable fragment survives the
fence-stripping and brace extraction: the extracted text must fail both JSON
parses, and the regex fallback must find no score and no non-empty decodable
reasoning on it (a reasoning match whose escape decoding fails also aborts).
In particular, pure prose with `"score": 72` embedded yields a structured
object with score `72.0`. -/
theorem repair_fails_only_without_usable_fragment :
    (∀ text : List Char,
      parse_json_from_response text = none ↔ noUsableFragment text) ∧
    parse_json_from_response (cs "The assessment gives \"score\": 72 overall.")
      = some (.scraped (some ⟨cs "72", none⟩) []) ∧
    scoreVal ⟨cs "72", none⟩ = 72 := by
  refine ⟨?_, by decide, ?_⟩
  · intro text
    unfold parse_json_from_response noUsableFragment
    rw [show braceExtract (stripFences (pyStrip text)) = repairCore text from rfl]
    cases hj : json_loads (repairCore text) with
    | some v => simp [hj]
    | none =>
      cases hf : json_loads (fix_trailing_commas (repairCore text)) with
      | some v => simp [hj, hf]
      | none =>
        simp only [hj, hf]
        cases hr : searchReasoning (repairCore text) with
        | some content =>
          cases hu : pyUnicodeEscape content with
          | none => simp [hr, hu]
          | some dec =>
            by_cases hd : dec = []
            · subst hd
              cases hs : searchScore (repairCore text) with
              | some q => simp [hr, hu, hs]
              | none => simp [hr, hu, hs]
            · simp [hr, hu, hd]
        | none =>
          cases hs : searchScore (repairCore text) with
          | some q => simp [hr, hs]
          | none => simp [hr, hs]
  · have h : digitsVal (cs "72") = 72 := by decide
    simp [scoreVal, h]

-- Dict primitives over JVal ----------------------------------------------

/-- Python dict lookup on a parsed object: with duplicate keys, the later
binding wins (as `json.loads` builds the dict). -/
def lookupLast : List (List Char × JVal) → List Char → Option JVal
  | [], _ => none
  | (k, x) :: rest, key =>
    match lookupLast rest key with
    | some r => some r
    | none => if k = key then some x else none

/-- `v[k]` on an object. -/
def jGet (v : JVal) (k : List Char) : Option JVal :=
  match v with
  | .obj kvs => lookupLast kvs k
  | _ => none

/-- Replace the (last) binding of `k`. -/
def replaceLastKV : List (List Char × JVal) → List Char → JVal →
    List (List Char × JVal)
  | [], _, _ => []
  | (k0, v0) :: rest, k, x =>
    if (lookupLast rest k).isSome then (k0, v0) :: replaceLastKV rest k x
    else if k0 = k then (k, x) :: rest
    else (k0, v0) :: rest

/-- Python dict assignment `v[k] = x` on an object (no-op on anything else;
callers model the `TypeError` separately). -/
def objSet (v : JVal) (k : List Char) (x : JVal) : JVal :=
  match v with
  | .obj kvs =>
    .obj (if (lookupLast kvs k).isSome then replaceLastKV kvs k x
          else kvs ++ [(k, x)])
  | other => other

/-- Decode the JSON escapes of a raw string body.  Malformed escapes are kept
verbatim (a malformed `\u` stops decoding; parser-produced strings always
carry well-formed escapes, so that arm is unreachable for them). -/
def jsonUnescape : List Char → List Char
  | [] => []
  | ['\\'] => ['\\']
  | '\\' :: e :: t2 =>
    if e = '"' then '"' :: jsonUnescape t2
    else if e = '\\' then '\\' :: jsonUnescape t2
    else if e = '/' then '/' :: jsonUnescape t2
    else if e = 'b' then '\x08' :: jsonUnescape t2
    else if e = 'f' then '\x0c' :: jsonUnescape t2
    else if e = 'n' then '\n' :: jsonUnescape t2
    else if e = 'r' then '\r' :: jsonUnescape t2
    else if e = 't' then '\t' :: jsonUnescape t2
    else if e = 'u' then
      match t2 with
      | h1 :: h2 :: h3 :: h4 :: t3 =>
        if isHexDigit h1 && isHexDigit h2 && isHexDigit h3 && isHexDigit h4 then
          Char.ofNat (((hexVal h1 * 16 + hexVal h2) * 16 + hexVal h3) * 16 +
            hexVal h4) :: jsonUnescape t3
        else '\\' :: 'u' :: h1 :: h2 :: h3 :: h4 :: t3
      | t2s => '\\' :: 'u' :: t2s
    else '\\' :: e :: jsonUnescape t2
  | c :: t => c :: jsonUnescape t

/-- Decimal digits of a natural number. -/
def natToLit (n : Nat) : List Char := Nat.toDigits 10 n

/-- Decimal literal of an integer. -/
def intToLit (i : Int) : List Char :=
  if i < 0 then '-' :: natToLit i.natAbs else natToLit i.toNat

mutual

/-- Python `str()` of a `json.loads` value.  Strings are their decoded text;
numeric literals are kept as written (`str(float)` re-formatting of exotic
literals such as `1e2` is outside this model); containers use a simplified
`repr`. -/
def pyStr : JVal → List Char
  | .null => cs "None"
  | .bool true => cs "True"
  | .bool false => cs "False"
  | .num lit => lit
  | .str raw => jsonUnescape raw
  | .arr xs => '[' :: (pyReprList xs ++ [']'])
  | .obj kvs => '{' :: (pyReprKVs kvs ++ ['}'])

/-- Simplified `repr` of a value inside a container. -/
def pyRepr : JVal → List Char
  | .str raw => '\'' :: (jsonUnescape raw ++ ['\''])
  | v => pyStrInner v

/-- Helper so the mutual recursion stays structural. -/
def pyStrInner : JVal → List Char
  | .null => cs "None"
  | .bool true => cs "True"
  | .bool false => cs "False"
  | .num lit => lit
  | .str raw => jsonUnescape raw
  | .arr xs => '[' :: (pyReprList xs ++ [']'])
  | .obj kvs => '{' :: (pyReprKVs kvs ++ ['}'])

/-- Comma-separated `repr`s of list elements. -/
def pyReprList : List JVal → List Char
  | [] => []
  | [x] => pyRepr x
  | x :: y :: t => pyRepr x ++ (',' :: ' ' :: pyReprList (y :: t))

/-- Comma-separated `repr`s of dict items. -/
def pyReprKVs : List (List Char × JVal) → List Char
  | [] => []
  | [(k, v)] => '\'' :: (k ++ ['\'', ':', ' ']) ++ pyRepr v
  | (k, v) :: y :: t =>
      '\'' :: (k ++ ['\'', ':', ' ']) ++ pyRepr v ++ (',' :: ' ' :: pyReprKVs (y :: t))

end

-- ai_service evaluation path ---------------------------------------------

/-- Is the numeric literal an integer literal (`json.loads` yields `int`)? -/
def litIsInt (lit : List Char) : Bool :=
  ¬ (lit.contains '.' || lit.contains 'e' || lit.contains 'E')

/-- Integer value of an integer literal. -/
def intLitVal (lit : List Char) : Int :=
  match lit with
  | '-' :: ds => -(digitsVal ds : Int)
  | ds => (digitsVal ds : Int)

/-- `int(p)` for a float literal: truncation toward zero of
`±ip.fp × 10^exp`. -/
def floatLitTrunc (lit : List Char) : Int :=
  let (neg, l1) : Bool × List Char :=
    match lit with
    | '-' :: t => (true, t)
    | _ => (false, lit)
  let ip := l1.takeWhile Char.isDigit
  let r1 := l1.dropWhile Char.isDigit
  let (fp, r2) : List Char × List Char :=
    match r1 with
    | '.' :: u => (u.takeWhile Char.isDigit, u.dropWhile Char.isDigit)
    | _ => ([], r1)
  let ex : Int :=
    match r2 with
    | _ :: u =>
      match u with
      | '-' :: ds => -(digitsVal (ds.takeWhile Char.isDigit) : Int)
      | '+' :: ds => (digitsVal (ds.takeWhile Char.isDigit) : Int)
      | ds => (digitsVal (ds.takeWhile Char.isDigit) : Int)
    | [] => 0
  let mantissa := digitsVal (ip ++ fp)
  let scale : Int := fp.length
  let shift : Int := ex - scale
  let mag : Nat :=
    if 0 ≤ shift then mantissa * 10 ^ shift.toNat
    else mantissa / 10 ^ (-shift).toNat
  if neg then -(mag : Int) else (mag : Int)

/-- `int(s)` for a Python string: optional surrounding whitespace, optional
sign, at least one digit; anything else raises (`none`). -/
def pyIntOfStr (s : List Char) : Option Int :=
  let t1 := pyStrip s
  let (neg, t2) : Bool × List Char :=
    match t1 with
    | '-' :: u => (true, u)
    | '+' :: u => (false, u)
    | _ => (false, t1)
  if t2 ≠ [] ∧ t2.all Char.isDigit then
    some (if neg then -(digitsVal t2 : Int) else (digitsVal t2 : Int))
  else none

/-- The `page` handling of `_norm_ann`: an `int ≥ 1` is kept; a float or
string is converted with `int(p)` and kept when `≥ 1` (a bad string raises);
everything else is dropped.  (Python's `bool` is an `int`: `True` is kept.) -/
def normAnnPage (p : JVal) : Option (Option JVal) :=
  match p with
  | .num lit =>
    if litIsInt lit then
      some (if 1 ≤ intLitVal lit then some (.num lit) else none)
    else
      let i := floatLitTrunc lit
      some (if 1 ≤ i then some (.num (intToLit i)) else none)
  | .str raw =>
    match pyIntOfStr (jsonUnescape raw) with
    | none => none
    | some i => some (if 1 ≤ i then some (.num (intToLit i)) else none)
  | .bool b => some (if b then some (.bool true) else none)
  | _ => some none

/-- `_norm_ann`: normalized quote and reason with their defaults, plus the
validated optional page. -/
def normAnn (a : JVal) : Option JVal :=
  match a with
  | .obj kvs =>
    let q0 := pyStrip (pyStr ((lookupLast kvs (cs "quote")).getD (.str [])))
    let q := if q0 = [] then cs "Excerpt" else q0
    let r0 := pyStrip (pyStr ((lookupLast kvs (cs "reason")).getD (.str [])))
    let r := if r0 = [] then cs "Needs review" else r0
    match lookupLast kvs (cs "page") with
    | none => some (.obj [(cs "quote", .str q), (cs "reason", .str r)])
    | some p =>
      match normAnnPage p with
      | none => none
      | some none => some (.obj [(cs "quote", .str q), (cs "reason", .str r)])
      | some (some pv) =>
        some (.obj [(cs "quote", .str q), (cs "reason", .str r), (cs "page", pv)])
  | _ => none

/-- Normalize the first 15 dict entries of the annotations array. -/
def normAnnList : List JVal → Option (List JVal)
  | [] => some []
  | a :: rest =>
    match normAnn a with
    | none => none
    | some a2 =>
      match normAnnList rest with
      | some rest2 => some (a2 :: rest2)
      | none => none

/-- Is the value a dict? -/
def isJObj : JVal → Bool
  | .obj _ => true
  | _ => false

/-- Is the value a list? -/
def isJArr : JVal → Bool
  | .arr _ => true
  | _ => false

/-- Lines 129–143 of `ai_service.py`: tag the parsed dict with
`evaluation_source = "ollama"`, coerce `requirements_breakdown` and
`annotations` to lists, and normalize the first 15 dict annotations.
`none` models an exception inside the normalization. -/
def normalizeOllamaEval (v : JVal) : Option JVal :=
  let v1 := objSet v (cs "evaluation_source") (.str (cs "ollama"))
  let v2 :=
    match jGet v1 (cs "requirements_breakdown") with
    | some (.arr xs) => objSet v1 (cs "requirements_breakdown") (.arr xs)
    | _ => objSet v1 (cs "requirements_breakdown") (.arr [])
  let v3 :=
    match jGet v2 (cs "annotations") with
    | some (.arr xs) => objSet v2 (cs "annotations") (.arr xs)
    | _ => objSet v2 (cs "annotations") (.arr [])
  match jGet v3 (cs "annotations") with
  | some (.arr xs) =>
    match normAnnList ((xs.take 15).filter isJObj) with
    | some ys => some (objSet v3 (cs "annotations") (.arr ys))
    | none => none
  | _ => none

/-- The fixed dict returned by `ai_service._mock_evaluate_bid`. -/
def mockEvalJ : JVal :=
  .obj [
    (cs "score", .num (cs "85.5")),
    (cs "reasoning", .str (cs "The bid meets most requirements but is missing the specific ISO certification details mentioned in the RFP. Good budget alignment.")),
    (cs "evaluation_source", .str (cs "mock")),
    (cs "requirements_breakdown", .arr [
      .obj [(cs "requirement", .str (cs "Technical capability and experience")),
            (cs "compliant", .bool true),
            (cs "note", .str (cs "Bid demonstrates relevant experience."))],
      .obj [(cs "requirement", .str (cs "Certifications (e.g. ISO, industry)")),
            (cs "compliant", .bool false),
            (cs "note", .str (cs "ISO 9001 claimed; needs verification."))],
      .obj [(cs "requirement", .str (cs "Budget and pricing")),
            (cs "compliant", .bool true),
            (cs "note", .str (cs "Within stated range."))],
      .obj [(cs "requirement", .str (cs "Delivery timeline")),
            (cs "compliant", .bool true),
            (cs "note", .str (cs "12 weeks proposed."))],
      .obj [(cs "requirement", .str (cs "Support and warranty")),
            (cs "compliant", .bool true),
            (cs "note", .str (cs "Standard terms offered."))]]),
    (cs "annotations", .arr [
      .obj [(cs "quote", .str (cs "ISO 9001 certification to be confirmed")),
            (cs "reason", .str (cs "Claimed certification should be verified with the vendor or issuing body.")),
            (cs "page", .num (cs "1"))],
      .obj [(cs "quote", .str (cs "Delivery timeline 12 weeks from contract")),
            (cs "reason", .str (cs "Verify feasibility and resource commitment.")),
            (cs "page", .num (cs "2"))],
      .obj [(cs "quote", .str (cs "Team comprises 5 FTE with PMP certification")),
            (cs "reason", .str (cs "Verify team availability and credentials.")),
            (cs "page", .num (cs "1"))],
      .obj [(cs "quote", .str (cs "Pricing valid for 90 days")),
            (cs "reason", .str (cs "Confirm validity period with vendor.")),
            (cs "page", .num (cs "2"))]])]

/-- `ai_service._mock_evaluate_bid` ignores its arguments and returns the
fixed dict (the `time.sleep(1)` has no effect on the value). -/
def mock_evaluate_bid (rfp_text bid_text : List Char) : JVal :=
  match rfp_text, bid_text with
  | _, _ => mockEvalJ

/-- The result of an evaluation: a dict, or the regex-scraped partial
result (whose score is a Python float, kept as matched digits). -/
inductive EvalResult where
  | json (v : JVal)
  | scraped (score : Option ScoreLit) (reasoning source : List Char)
deriving DecidableEq

/-- `ai_service._ollama_evaluate_bid`, with the provider modelled as an
oracle: `none` is a provider exception, `some text` the raw model output.
`none` in the result models the function raising. -/
def ollama_evaluate_bid (providerOut : Option (List Char)) :
    Option EvalResult :=
  match providerOut with
  | none => none
  | some text =>
    match parse_json_from_response text with
    | none => none
    | some (.scraped sc rs) => some (.scraped sc rs (cs "ollama"))
    | some (.json v) =>
      match v with
      | .obj kvs =>
        match normalizeOllamaEval (.obj kvs) with
        | some v2 => some (.json v2)
        | none => none
      | _ => none

/-- `ai_service.evaluate_bid`: prefer the provider when a base URL is
configured; on any provider or parse failure fall back to the mock result
tagged `"mock"`. -/
def evaluate_bid (baseUrl : List Char) (providerOut : Option (List Char))
    (rfp_text bid_text : List Char) (evaluation_summary : Option (List Char))
    (text_chunks : Option (List (List Char))) : EvalResult :=
  let bidForEval := bid_text_for_eval bid_text evaluation_summary text_chunks
  if pyStrip baseUrl ≠ [] then
    match ollama_evaluate_bid providerOut with
    | some r => r
    | none =>
      .json (objSet (mock_evaluate_bid rfp_text bidForEval)
        (cs "evaluation_source") (.str (cs "mock")))
  else .json (mock_evaluate_bid rfp_text bidForEval)

/-- Executable decomposition of a JSON numeric literal into sign, integer
digits, fraction digits and exponent. -/
structure NumParts where
  neg : Bool
  ip : List Char
  fp : List Char
  ex : Int
deriving DecidableEq, Repr

/-- Decompose a JSON numeric literal. -/
def decomposeNumLit (lit : List Char) : NumParts :=
  let (neg, l1) : Bool × List Char :=
    match lit with
    | '-' :: t => (true, t)
    | _ => (false, lit)
  let ip := l1.takeWhile Char.isDigit
  let r1 := l1.dropWhile Char.isDigit
  let (fp, r2) : List Char × List Char :=
    match r1 with
    | '.' :: u => (u.takeWhile Char.isDigit, u.dropWhile Char.isDigit)
    | _ => ([], r1)
  let ex : Int :=
    match r2 with
    | _ :: u =>
      match u with
      | '-' :: ds => -(digitsVal (ds.takeWhile Char.isDigit) : Int)
      | '+' :: ds => (digitsVal (ds.takeWhile Char.isDigit) : Int)
      | ds => (digitsVal (ds.takeWhile Char.isDigit) : Int)
    | [] => 0
  ⟨neg, ip, fp, ex⟩

/-- Exact rational value of a JSON numeric literal (used in statements). -/
def numLitVal (lit : List Char) : ℚ :=
  let p := decomposeNumLit lit
  (if p.neg then (-1 : ℚ) else 1) *
    ((digitsVal p.ip : ℚ) + (digitsVal p.fp : ℚ) / (10 : ℚ) ^ p.fp.length) *
    (10 : ℚ) ^ p.ex

/-- C3: with no provider configured (blank base URL), and likewise when the
provider call or the parse of its output fails, `evaluate_bid` returns the
deterministic mock result for any inputs; that result carries the fallback
source tag (literally `"mock"` in the code) and a score of 85.5, which lies
within [0, 100]. -/
theorem evaluate_bid_fallback (baseUrl : List Char)
    (providerOut : Option (List Char)) (rfp_text bid_text : List Char)
    (evaluation_summary : Option (List Char))
    (text_chunks : Option (List (List Char)))
    (h : pyStrip baseUrl = [] ∨ ollama_evaluate_bid providerOut = none) :
    evaluate_bid baseUrl providerOut rfp_text bid_text evaluation_summary
        text_chunks = .json mockEvalJ ∧
    jGet mockEvalJ (cs "evaluation_source") = some (.str (cs "mock")) ∧
    jGet mockEvalJ (cs "score") = some (.num (cs "85.5")) ∧
    0 ≤ numLitVal (cs "85.5") ∧ numLitVal (cs "85.5") ≤ 100 := by
  have hnum : numLitVal (cs "85.5") = 171 / 2 := by
    have hd : decomposeNumLit (cs "85.5") = ⟨false, cs "85", cs "5", 0⟩ := by
      decide
    have h1 : digitsVal (cs "85") = 85 := by decide
    have h2 : digitsVal (cs "5") = 5 := by decide
    have h3 : (cs "5").length = 1 := by decide
    rw [numLitVal]
    simp only [hd, h1, h2, h3]
    norm_num
  have hsrc : jGet mockEvalJ (cs "evaluation_source")
      = some (.str (cs "mock")) := by decide
  have hscore : jGet mockEvalJ (cs "score") = some (.num (cs "85.5")) := by
    decide
  refine ⟨?_, hsrc, hscore, by rw [hnum]; norm_num, by rw [hnum]; norm_num⟩
  unfold evaluate_bid
  simp only []
  by_cases hb : pyStrip baseUrl = []
  · rw [if_neg (by simpa using hb)]
    rfl
  · rcases h with h | h
    · exact absurd h hb
    · rw [if_pos (by simpa using hb), h]
      have hobj : objSet mockEvalJ (cs "evaluation_source") (.str (cs "mock"))
          = mockEvalJ := by decide
      rw [show mock_evaluate_bid rfp_text (bid_text_for_eval bid_text
        evaluation_summary text_chunks) = mockEvalJ from rfl, hobj]

theorem evaluate_bid_fallback_witness :
    (pyStrip (cs "") = [] ∨ ollama_evaluate_bid none = none) ∧
    (evaluate_bid (cs "") none (cs "rfp") (cs "bid") none none
        = .json mockEvalJ ∧
      jGet mockEvalJ (cs "evaluation_source") = some (.str (cs "mock")) ∧
      jGet mockEvalJ (cs "score") = some (.num (cs "85.5")) ∧
      0 ≤ numLitVal (cs "85.5") ∧ numLitVal (cs "85.5") ≤ 100) :=
  ⟨Or.inl (by decide),
    evaluate_bid_fallback (cs "") none (cs "rfp") (cs "bid") none none
      (Or.inl (by decide))⟩

-- ai_service vendor extraction -------------------------------------------

/-- The fixed dict of `ai_service._mock_extract_vendor`. -/
def mock_extract_vendor (bid_text : List Char) : JVal :=
  .obj [
    (cs "vendor", .obj [
      (cs "name", .str (cs "Extracted Vendor (Mock)")),
      (cs "address", .null),
      (cs "website", .null),
      (cs "domain", .null)]),
    (cs "representatives", .arr [
      .obj [(cs "name", .str (cs "Contact Person")),
            (cs "email", .null),
            (cs "phone", .null),
            (cs "designation", .str (cs "Representative"))]]),
    (cs "bid_summary",
      if bid_text ≠ [] then
        .str (cs "Bid document submitted for evaluation. Details available in full text.")
      else .null)]

/-- `ai_service._parse_extraction_json`: fence-strip, brace-extract, strict
parse, then one retry with trailing commas removed; a failure of the retry
propagates as an exception (`none`). -/
def parse_extraction_json (text : List Char) : Option JVal :=
  let t2 := braceExtract (stripFences (pyStrip text))
  match json_loads t2 with
  | some v => some v
  | none => json_loads (fix_trailing_commas t2)

/-- Is the numeric literal zero (so falsy in Python)? -/
def numLitIsZero (lit : List Char) : Bool :=
  digitsVal (decomposeNumLit lit).ip = 0 ∧ digitsVal (decomposeNumLit lit).fp = 0

/-- Python truthiness of a `json.loads` value. -/
def jTruthy : JVal → Bool
  | .null => false
  | .bool b => b
  | .num lit => ¬ numLitIsZero lit
  | .str raw => raw ≠ []
  | .arr xs => xs ≠ []
  | .obj kvs => kvs ≠ []

/-- `ai_service._ollama_extract_vendor` with the provider as an oracle:
parse the model output and default `bid_summary` to the first 800 characters
of the bid text (stripped, or `None`) when missing or falsy. -/
def ollama_extract_vendor (providerOut : Option (List Char))
    (bid_text : List Char) : Option JVal :=
  match providerOut with
  | none => none
  | some text =>
    match parse_extraction_json text with
    | none => none
    | some out =>
      match out with
      | .obj kvs =>
        match lookupLast kvs (cs "bid_summary") with
        | some s =>
          if jTruthy s then some (.obj kvs)
          else some (objSet (.obj kvs) (cs "bid_summary")
            (if pyStrip (bid_text.take 800) ≠ [] then
              .str (pyStrip (bid_text.take 800)) else .null))
        | none => some (objSet (.obj kvs) (cs "bid_summary")
            (if pyStrip (bid_text.take 800) ≠ [] then
              .str (pyStrip (bid_text.take 800)) else .null))
      | _ => none

/-- `ai_service.extract_vendor_and_rep`. -/
def extract_vendor_and_rep (baseUrl : List Char)
    (providerOut : Option (List Char)) (bid_text : List Char) : JVal :=
  if pyStrip baseUrl ≠ [] then
    match ollama_extract_vendor providerOut bid_text with
    | some out => out
    | none => mock_extract_vendor bid_text
  else mock_extract_vendor bid_text

/-- C7 (counterexample): when the model output parses but carries a null
vendor name and six representatives, `extract_vendor_and_rep` returns it
unchanged — the sentinel defaulting and the cap to 5 are not applied by the
extraction step itself. -/
theorem extract_vendor_cex_no_default_no_cap :
    (jGet (extract_vendor_and_rep (cs "http://x") (some (cs
        "\x7b\"vendor\": \x7b\"name\": null\x7d, \"representatives\": [\x7b\x7d, \x7b\x7d, \x7b\x7d, \x7b\x7d, \x7b\x7d, \x7b\x7d], \"bid_summary\": \"s\"\x7d"))
        (cs "bid")) (cs "vendor")).bind (fun v => jGet v (cs "name"))
      = some .null ∧
    (jGet (extract_vendor_and_rep (cs "http://x") (some (cs
        "\x7b\"vendor\": \x7b\"name\": null\x7d, \"representatives\": [\x7b\x7d, \x7b\x7d, \x7b\x7d, \x7b\x7d, \x7b\x7d, \x7b\x7d], \"bid_summary\": \"s\"\x7d"))
        (cs "bid")) (cs "representatives"))
      = some (.arr [.obj [], .obj [], .obj [], .obj [], .obj [], .obj []]) := by
  constructor
  · decide
  · decide

-- bids._find_or_create_vendor --------------------------------------------

/-- SQL `LIKE` with wildcards `%`/`_`, fuelled so it stays
kernel-computable; the fuel `p.length + t.length + 1` always suffices. -/
def likeMatchF : Nat → List Char → List Char → Bool
  | 0, _, _ => false
  | _ + 1, [], t => t.isEmpty
  | fuel + 1, c :: p, t =>
    if c = '%' then
      likeMatchF fuel p t ||
        (match t with
         | [] => false
         | _ :: t2 => likeMatchF fuel (c :: p) t2)
    else
      match t with
      | [] => false
      | d :: t2 => (if c = '_' then true else c = d) && likeMatchF fuel p t2

/-- `column LIKE pattern` (case handled by the callers via `pyLower`, which
models `ilike`). -/
def likeMatch (p t : List Char) : Bool :=
  likeMatchF (p.length + t.length + 1) p t

/-- A row of the `vendors` table. -/
structure Vendor where
  id : Nat
  name : List Char
  address : Option (List Char)
  website : Option (List Char)
  domain : Option (List Char)
  website_verified : Option Bool
deriving DecidableEq, Repr

/-- A row of the `vendor_reps` table. -/
structure VendorRep where
  vendor_id : Nat
  name : Option (List Char)
  email : Option (List Char)
  phone : Option (List Char)
  designation : Option (List Char)
  phone_verified : Option Bool
  email_verified : Option Bool
deriving DecidableEq, Repr

/-- The relevant slice of the database; `flush` assigns ids sequentially. -/
structure Db where
  vendors : List Vendor
  reps : List VendorRep
deriving DecidableEq, Repr

/-- The external verification agents (`digital_agents.verify_website`,
`verify_phone`, `verify_email`), as oracles. -/
structure Verifiers where
  website : List Char → Option Bool
  phone : List Char → Option Bool
  email : List Char → Option Bool

/-- `bids._domain_from_website`.  (The regex test on the host is vestigial in
the source: both the match and the no-match branch return the host, and only
an empty host yields `None`.) -/
def domain_from_website (website : Option (List Char)) : Option (List Char) :=
  match website with
  | none => none
  | some w =>
    let s := pyStrip w
    if s = [] then none
    else
      let s2 :=
        if (cs "http://").isPrefixOf s ∨ (cs "https://").isPrefixOf s then s
        else cs "https://" ++ s
      let afterScheme := dropAfterFirst (cs "//") s2
      let host := pyLower (afterScheme.takeWhile
        (fun c => ¬(c = '/' ∨ c = '?' ∨ c = '#')))
      if host = [] then none else some host

/-- Python `(value or "")` followed by `str.strip()`-compatibility: the
string content of a field, `""` for missing/falsy values, `none` when the
code would raise (`.strip()` on a truthy non-string). -/
def pyStrOfFieldOrEmpty : Option JVal → Option (List Char)
  | none => some []
  | some .null => some []
  | some (.bool false) => some []
  | some (.bool true) => none
  | some (.str raw) => some (jsonUnescape raw)
  | some (.num lit) => if numLitIsZero lit then some [] else none
  | some (.arr xs) => if xs = [] then some [] else none
  | some (.obj kvs) => if kvs = [] then some [] else none

/-- `(v.get(key) or "").strip() or None`. -/
def strippedOrNone (kvs : List (List Char × JVal)) (key : List Char) :
    Option (Option (List Char)) :=
  match pyStrOfFieldOrEmpty (lookupLast kvs key) with
  | none => none
  | some s => some (if pyStrip s = [] then none else some (pyStrip s))

/-- `(v.get("name") or "").strip() or "Unknown Vendor"`: the vendor name the
matcher actually uses. -/
def effectiveVendorName (kvs : List (List Char × JVal)) : Option (List Char) :=
  match pyStrOfFieldOrEmpty (lookupLast kvs (cs "name")) with
  | none => none
  | some s =>
    some (if pyStrip s = [] then cs "Unknown Vendor" else pyStrip s)

/-- `(extraction.get("vendor") or {})`: the vendor sub-dict, `{}` for
missing/falsy, `none` when `.get` would raise on a truthy non-dict. -/
def vendorFieldKVs (ekvs : List (List Char × JVal)) :
    Option (List (List Char × JVal)) :=
  match lookupLast ekvs (cs "vendor") with
  | none => some []
  | some (.obj kvs) => some kvs
  | some .null => some []
  | some (.bool false) => some []
  | some (.bool true) => none
  | some (.str raw) => if raw = [] then some [] else none
  | some (.arr xs) => if xs = [] then some [] else none
  | some (.num lit) => if numLitIsZero lit then some [] else none

/-- `(extraction.get("representatives") or [])[:5]`; `none` when slicing or
iterating would raise. -/
def repsField (ekvs : List (List Char × JVal)) : Option (List JVal) :=
  match lookupLast ekvs (cs "representatives") with
  | none => some []
  | some .null => some []
  | some (.arr xs) => some (xs.take 5)
  | some (.str raw) => if raw = [] then some [] else none
  | some (.bool false) => some []
  | some (.bool true) => none
  | some (.num lit) => if numLitIsZero lit then some [] else none
  | some (.obj kvs) => if kvs = [] then some [] else none

/-- Build one `VendorRep` row from one extracted representative dict. -/
def buildRep (vf : Verifiers) (vid : Nat) (r : JVal) : Option VendorRep :=
  match r with
  | .obj kvs =>
    match strippedOrNone kvs (cs "email") with
    | none => none
    | some email =>
      match strippedOrNone kvs (cs "phone") with
      | none => none
      | some phone =>
        match strippedOrNone kvs (cs "name") with
        | none => none
        | some nm =>
          match strippedOrNone kvs (cs "designation") with
          | none => none
          | some desig =>
            some ⟨vid, nm, email, phone, desig,
              (match phone with
               | some p => vf.phone p
               | none => none),
              (match email with
               | some e2 => vf.email e2
               | none => none)⟩
  | _ => none

/-- Build all representative rows (at most the 5 kept by the slice). -/
def buildReps (vf : Verifiers) (vid : Nat) : List JVal → Option (List VendorRep)
  | [] => some []
  | r :: rest =>
    match buildRep vf vid r with
    | none => none
    | some rep =>
      match buildReps vf vid rest with
      | some reps => some (rep :: reps)
      | none => none

/-- The `existing` query of `_find_or_create_vendor`: a case-insensitive
`LIKE` on the name (skipped for the `"Unknown Vendor"` sentinel), then an
exact website match; `.first()` is modelled as the first row in table
order. -/
def vendorLookup (db : Db) (name : List Char) (website : Option (List Char)) :
    Option Vendor :=
  match (if name ≠ cs "Unknown Vendor" then
          db.vendors.find? (fun vd => likeMatch (pyLower name) (pyLower vd.name))
         else none) with
  | some x => some x
  | none =>
    match website with
    | some w => db.vendors.find? (fun vd => vd.website = some w)
    | none => none

/-- `bids._find_or_create_vendor`: match an existing vendor by
case-insensitive name (skipped for the `"Unknown Vendor"` sentinel), else by
exact website; otherwise create the vendor and up to 5 representative rows,
running the verification agents once at creation.  `none` models the
function raising on malformed extraction values. -/
def find_or_create_vendor (vf : Verifiers) (db : Db) (extraction : JVal) :
    Option (Vendor × List VendorRep × Db) :=
  match extraction with
  | .obj ekvs =>
    match vendorFieldKVs ekvs with
    | none => none
    | some kvs =>
      match effectiveVendorName kvs with
      | none => none
      | some name =>
        match strippedOrNone kvs (cs "address") with
        | none => none
        | some address =>
          match strippedOrNone kvs (cs "website") with
          | none => none
          | some website =>
            match strippedOrNone kvs (cs "domain") with
            | none => none
            | some domain0 =>
              let domain :=
                match domain0 with
                | some d => some d
                | none => domain_from_website website
              match vendorLookup db name website with
              | some vendor =>
                some (vendor, db.reps.filter (fun r => r.vendor_id = vendor.id),
                  db)
              | none =>
                let wv :=
                  match website with
                  | some w => vf.website w
                  | none => none
                let vid := db.vendors.length + 1
                let vendor : Vendor := ⟨vid, name, address, website, domain, wv⟩
                match repsField ekvs with
                | none => none
                | some rs =>
                  match buildReps vf vid rs with
                  | none => none
                  | some newReps =>
                    some (vendor, newReps,
                      ⟨db.vendors ++ [vendor], db.reps ++ newReps⟩)
  | _ => none

/-- Complete case characterization of a successful `_find_or_create_vendor`
call: either an existing vendor was matched (database unchanged) or a new
vendor plus at most 5 representative rows were created. -/
theorem find_or_create_cases (vf : Verifiers) (db : Db) (e : JVal)
    (v : Vendor) (reps : List VendorRep) (db2 : Db)
    (h : find_or_create_vendor vf db e = some (v, reps, db2)) :
    ∃ ekvs kvs name address website domain0,
      e = .obj ekvs ∧ vendorFieldKVs ekvs = some kvs ∧
      effectiveVendorName kvs = some name ∧
      strippedOrNone kvs (cs "address") = some address ∧
      strippedOrNone kvs (cs "website") = some website ∧
      strippedOrNone kvs (cs "domain") = some domain0 ∧
      ((vendorLookup db name website = some v ∧
        reps = db.reps.filter (fun r => r.vendor_id = v.id) ∧ db2 = db) ∨
       (vendorLookup db name website = none ∧
        ∃ rs newReps, repsField ekvs = some rs ∧
          buildReps vf (db.vendors.length + 1) rs = some newReps ∧
          v = ⟨db.vendors.length + 1, name, address, website,
            (match domain0 with
             | some d => some d
             | none => domain_from_website website),
            (match website with
             | some w => vf.website w
             | none => none)⟩ ∧
          reps = newReps ∧
          db2 = ⟨db.vendors ++ [v], db.reps ++ newReps⟩)) := by
  cases e with
  | obj ekvs =>
    unfold find_or_create_vendor at h
    simp only [] at h
    rcases hk : vendorFieldKVs ekvs with _ | kvs <;> rw [hk] at h <;>
      simp only [] at h
    · exact absurd h (by simp)
    rcases hn : effectiveVendorName kvs with _ | name <;> rw [hn] at h <;>
      simp only [] at h
    · exact absurd h (by simp)
    rcases ha : strippedOrNone kvs (cs "address") with _ | address <;>
      rw [ha] at h <;> simp only [] at h
    · exact absurd h (by simp)
    rcases hw : strippedOrNone kvs (cs "website") with _ | website <;>
      rw [hw] at h <;> simp only [] at h
    · exact absurd h (by simp)
    rcases hd : strippedOrNone kvs (cs "domain") with _ | domain0 <;>
      rw [hd] at h <;> simp only [] at h
    · exact absurd h (by simp)
    refine ⟨ekvs, kvs, name, address, website, domain0, rfl, hk, hn, ha, hw,
      hd, ?_⟩
    rcases hex : vendorLookup db name website with _ | vendor <;>
      rw [hex] at h <;> simp only [] at h
    · rcases hr : repsField ekvs with _ | rs <;> rw [hr] at h <;>
        simp only [] at h
      · exact absurd h (by simp)
      rcases hb : buildReps vf (db.vendors.length + 1) rs with _ | newReps <;>
        rw [hb] at h <;> simp only [] at h
      · exact absurd h (by simp)
      simp only [Option.some.injEq, Prod.mk.injEq] at h
      obtain ⟨hv, hreps, hdb⟩ := h
      refine Or.inr ⟨rfl, rs, newReps, rfl, hb, hv.symm, hreps.symm, ?_⟩
      rw [← hdb, ← hv]
    · simp only [Option.some.injEq, Prod.mk.injEq] at h
      obtain ⟨hv, hreps, hdb⟩ := h
      refine Or.inl ⟨by rw [hv], ?_, hdb.symm⟩
      rw [← hreps, hv]
  | null => exact absurd h (by simp [find_or_create_vendor])
  | bool b => exact absurd h (by simp [find_or_create_vendor])
  | num l => exact absurd h (by simp [find_or_create_vendor])
  | str s => exact absurd h (by simp [find_or_create_vendor])
  | arr xs => exact absurd h (by simp [find_or_create_vendor])

theorem effectiveVendorName_ne_nil (kvs : List (List Char × JVal))
    (name : List Char) (h : effectiveVendorName kvs = some name) :
    name ≠ [] := by
  unfold effectiveVendorName at h
  rcases hs : pyStrOfFieldOrEmpty (lookupLast kvs (cs "name")) with _ | s <;>
    rw [hs] at h
  · exact absurd h (by simp)
  · simp only [Option.some.injEq] at h
    rw [← h]
    by_cases he : pyStrip s = []
    · rw [if_pos he]
      decide
    · rw [if_neg he]
      exact he

theorem effectiveVendorName_default (kvs : List (List Char × JVal))
    (name s : List Char)
    (h : effectiveVendorName kvs = some name)
    (h2 : pyStrOfFieldOrEmpty (lookupLast kvs (cs "name")) = some s)
    (h3 : pyStrip s = []) : name = cs "Unknown Vendor" := by
  unfold effectiveVendorName at h
  rw [h2] at h
  simp only [Option.some.injEq] at h
  rw [← h, if_pos h3]

theorem buildReps_length (vf : Verifiers) (vid : Nat) :
    ∀ (rs : List JVal) (reps : List VendorRep),
      buildReps vf vid rs = some reps → reps.length = rs.length := by
  intro rs
  induction rs with
  | nil =>
    intro reps h
    simp only [buildReps, Option.some.injEq] at h
    rw [← h]
    rfl
  | cons r rest ih =>
    intro reps h
    unfold buildReps at h
    rcases h1 : buildRep vf vid r with _ | rep <;> rw [h1] at h
    · exact absurd h (by simp)
    rcases h2 : buildReps vf vid rest with _ | reps2 <;> rw [h2] at h
    · exact absurd h (by simp)
    simp only [Option.some.injEq] at h
    rw [← h]
    simp [ih reps2 h2]

theorem repsField_le5 (ekvs : List (List Char × JVal)) (rs : List JVal)
    (h : repsField ekvs = some rs) : rs.length ≤ 5 := by
  unfold repsField at h
  rcases hl : lookupLast ekvs (cs "representatives") with _ | p <;> rw [hl] at h
  · simp only [Option.some.injEq] at h
    rw [← h]
    simp
  · cases p with
    | null =>
      simp only [Option.some.injEq] at h
      rw [← h]; simp
    | arr xs =>
      simp only [Option.some.injEq] at h
      rw [← h]
      calc (xs.take 5).length ≤ 5 := by
            rw [List.length_take]; omega
    | str raw =>
      by_cases hr : raw = [] <;> simp [hr] at h
      simp [h]
    | bool b =>
      cases b <;> simp at h
      simp [h]
    | num lit =>
      by_cases hz : numLitIsZero lit <;> simp [hz] at h
      simp [h]
    | obj kvs =>
      by_cases hk : kvs = [] <;> simp [hk] at h
      simp [h]

/-- C7 (amended): the `"Unknown Vendor"` defaulting and the cap of 5
representatives live in the vendor resolution step, not in
`extract_vendor_and_rep`: every successful `_find_or_create_vendor` call
uses a non-empty effective name (the sentinel when the extraction's name is
missing or blank), creates at most 5 representative rows, and any vendor it
creates carries that effective name. -/
theorem find_or_create_defaults_and_caps (vf : Verifiers) (db : Db)
    (e : JVal) (v : Vendor) (reps : List VendorRep) (db2 : Db)
    (h : find_or_create_vendor vf db e = some (v, reps, db2)) :
    ∃ ekvs kvs name, e = .obj ekvs ∧ vendorFieldKVs ekvs = some kvs ∧
      effectiveVendorName kvs = some name ∧ name ≠ [] ∧
      (∀ s, pyStrOfFieldOrEmpty (lookupLast kvs (cs "name")) = some s →
        pyStrip s = [] → name = cs "Unknown Vendor") ∧
      db2.reps.length ≤ db.reps.length + 5 ∧
      (db2 = db ∨ (db2.vendors = db.vendors ++ [v] ∧ v.name = name)) := by
  obtain ⟨ekvs, kvs, name, address, website, domain0, he, hk, hn, ha, hw, hd,
    hbranch⟩ := find_or_create_cases vf db e v reps db2 h
  refine ⟨ekvs, kvs, name, he, hk, hn, effectiveVendorName_ne_nil kvs name hn,
    fun s hs h3 => effectiveVendorName_default kvs name s hn hs h3, ?_, ?_⟩
  · rcases hbranch with ⟨_, _, hdb⟩ | ⟨_, rs, newReps, hr, hb, hv, _, hdb⟩
    · rw [hdb]
      omega
    · rw [hdb]
      simp only [List.length_append]
      have := buildReps_length vf (db.vendors.length + 1) rs newReps hb
      have := repsField_le5 ekvs rs hr
      omega
  · rcases hbranch with ⟨_, _, hdb⟩ | ⟨_, rs, newReps, hr, hb, hv, _, hdb⟩
    · exact Or.inl hdb
    · refine Or.inr ⟨by rw [hdb], by rw [hv]⟩

/-- Concrete extraction used by the C7 witness. -/
def c7Extraction : JVal :=
  .obj [(cs "vendor", .obj [(cs "name", .str (cs "  "))]),
        (cs "representatives", .arr [.obj [], .obj [], .obj [], .obj [],
          .obj [], .obj []])]

/-- Constant verification oracles for witnesses. -/
def vfNone : Verifiers := ⟨fun _ => none, fun _ => none, fun _ => none⟩

/-- The vendor row the C7 witness call creates. -/
def c7Vendor : Vendor := ⟨1, cs "Unknown Vendor", none, none, none, none⟩

/-- The representative row the C7 witness call creates (five copies). -/
def c7Rep : VendorRep := ⟨1, none, none, none, none, none, none⟩

/-- The database state after the C7 witness call. -/
def c7Db2 : Db := ⟨[c7Vendor], [c7Rep, c7Rep, c7Rep, c7Rep, c7Rep]⟩

theorem find_or_create_defaults_and_caps_witness :
    (find_or_create_vendor vfNone ⟨[], []⟩ c7Extraction
      = some (c7Vendor, [c7Rep, c7Rep, c7Rep, c7Rep, c7Rep], c7Db2)) ∧
    (∃ ekvs kvs name, c7Extraction = .obj ekvs ∧
      vendorFieldKVs ekvs = some kvs ∧
      effectiveVendorName kvs = some name ∧ name ≠ [] ∧
      (∀ s, pyStrOfFieldOrEmpty (lookupLast kvs (cs "name")) = some s →
        pyStrip s = [] → name = cs "Unknown Vendor") ∧
      c7Db2.reps.length ≤ (⟨[], []⟩ : Db).reps.length + 5 ∧
      (c7Db2 = ⟨[], []⟩ ∨
       (c7Db2.vendors = (⟨[], []⟩ : Db).vendors ++ [c7Vendor] ∧
        c7Vendor.name = name))) :=
  ⟨by decide,
    find_or_create_defaults_and_caps vfNone ⟨[], []⟩ c7Extraction c7Vendor
      [c7Rep, c7Rep, c7Rep, c7Rep, c7Rep] c7Db2 (by decide)⟩

theorem likeMatchF_fuel (p : List Char) :
    ∀ (t : List Char) (f1 f2 : Nat), p.length + t.length < f1 →
      p.length + t.length < f2 → likeMatchF f1 p t = likeMatchF f2 p t := by
  induction p with
  | nil =>
    intro t f1 f2 h1 h2
    cases f1 with
    | zero => omega
    | succ g1 =>
      cases f2 with
      | zero => omega
      | succ g2 => rfl
  | cons c p ih =>
    intro t
    induction t with
    | nil =>
      intro f1 f2 h1 h2
      cases f1 with
      | zero => omega
      | succ g1 =>
        cases f2 with
        | zero => omega
        | succ g2 =>
          show (if c = '%' then likeMatchF g1 p [] || false else false)
            = (if c = '%' then likeMatchF g2 p [] || false else false)
          by_cases hc : c = '%'
          · rw [if_pos hc, if_pos hc,
              ih [] g1 g2 (by simp at h1 ⊢; omega) (by simp at h2 ⊢; omega)]
          · rw [if_neg hc, if_neg hc]
    | cons d t2 iht =>
      intro f1 f2 h1 h2
      cases f1 with
      | zero => omega
      | succ g1 =>
        cases f2 with
        | zero => omega
        | succ g2 =>
          show (if c = '%' then likeMatchF g1 p (d :: t2) ||
                  likeMatchF g1 (c :: p) t2
                else (if c = '_' then true else c = d) && likeMatchF g1 p t2)
            = (if c = '%' then likeMatchF g2 p (d :: t2) ||
                  likeMatchF g2 (c :: p) t2
               else (if c = '_' then true else c = d) && likeMatchF g2 p t2)
          by_cases hc : c = '%'
          · rw [if_pos hc, if_pos hc]
            rw [ih (d :: t2) g1 g2 (by simp at h1 ⊢; omega)
              (by simp at h2 ⊢; omega)]
            rw [iht g1 g2 (by simp at h1 ⊢; omega) (by simp at h2 ⊢; omega)]
          · rw [if_neg hc, if_neg hc]
            rw [ih t2 g1 g2 (by simp at h1 ⊢; omega) (by simp at h2 ⊢; omega)]

theorem likeMatchF_self (s : List Char) :
    ∀ g, s.length + s.length < g → likeMatchF g s s = true := by
  induction s with
  | nil =>
    intro g hg
    cases g with
    | zero => omega
    | succ g1 => rfl
  | cons c s ih =>
    intro g hg
    cases g with
    | zero => omega
    | succ g1 =>
      show (if c = '%' then likeMatchF g1 s (c :: s) ||
              (match (c :: s : List Char) with
               | [] => false
               | _ :: t2 => likeMatchF g1 (c :: s) t2)
            else match (c :: s : List Char) with
              | [] => false
              | d :: t2 =>
                (if c = '_' then true else c = d) && likeMatchF g1 s t2) = true
      by_cases hc : c = '%'
      · rw [if_pos hc]
        refine Bool.or_eq_true_iff.mpr (Or.inr ?_)
        show likeMatchF g1 (c :: s) s = true
        cases g1 with
        | zero => simp at hg
        | succ g2 =>
          cases s with
          | nil =>
            show (if c = '%' then likeMatchF g2 [] [] ||
                    (match ([] : List Char) with
                     | [] => false
                     | _ :: t2 => likeMatchF g2 (c :: []) t2)
                  else match ([] : List Char) with
                    | [] => false
                    | d :: t2 =>
                      (if c = '_' then true else c = d) &&
                        likeMatchF g2 [] t2) = true
            rw [if_pos hc]
            cases g2 with
            | zero => simp at hg
            | succ g3 => rfl
          | cons d s2 =>
            show (if c = '%' then likeMatchF g2 (d :: s2) (d :: s2) ||
                    (match (d :: s2 : List Char) with
                     | [] => false
                     | _ :: t2 => likeMatchF g2 (c :: d :: s2) t2)
                  else match (d :: s2 : List Char) with
                    | e :: t2 =>
                      (if c = '_' then true else c = e) &&
                        likeMatchF g2 (d :: s2) t2
                    | [] => false) = true
            rw [if_pos hc]
            refine Bool.or_eq_true_iff.mpr (Or.inl ?_)
            refine ih g2 ?_
            simp at hg ⊢
            omega
      · rw [if_neg hc]
        show ((if c = '_' then true else (c = c : Bool)) &&
            likeMatchF g1 s s) = true
        have hd : (if c = '_' then true else (c = c : Bool)) = true := by
          by_cases h : c = '_' <;> simp [h]
        rw [hd, Bool.true_and]
        refine ih g1 ?_
        simp at hg
        omega

theorem likeMatch_self (s : List Char) : likeMatch s s = true :=
  likeMatchF_self s (s.length + s.length + 1) (by omega)

/-- Extraction with no vendor dict at all: the name defaults to the
`"Unknown Vendor"` sentinel, whose matching step `_find_or_create_vendor`
skips. -/
def c8SentinelExtraction : JVal := .obj []

/-- The vendor row the first sentinel call creates. -/
def c8U1 : Vendor := ⟨1, cs "Unknown Vendor", none, none, none, none⟩

/-- The vendor row the second sentinel call creates. -/
def c8U2 : Vendor := ⟨2, cs "Unknown Vendor", none, none, none, none⟩

/-- Concrete extraction used by the C8 witness: a vendor named `"Acme"`. -/
def c8Extraction : JVal :=
  .obj [(cs "vendor", .obj [(cs "name", .str (cs "Acme"))])]

/-- The vendor row the first C8 witness call creates. -/
def c8Vendor : Vendor := ⟨1, cs "Acme", none, none, none, none⟩

/-- The database state after the first C8 witness call. -/
def c8Db1 : Db := ⟨[c8Vendor], []⟩

/-- C8 counterexample: two resolutions of extractions bearing the same
vendor name (here both default to the sentinel `"Unknown Vendor"`) do NOT
return the same vendor identity: the sentinel skips name matching, so the
second call creates a duplicate vendor row with a fresh id instead of
matching the one the first call created. -/
theorem find_or_create_cex_sentinel_duplicate :
    find_or_create_vendor vfNone ⟨[], []⟩ c8SentinelExtraction
      = some (c8U1, [], ⟨[c8U1], []⟩) ∧
    find_or_create_vendor vfNone ⟨[c8U1], []⟩ c8SentinelExtraction
      = some (c8U2, [], ⟨[c8U1, c8U2], []⟩) ∧
    c8U2.id ≠ c8U1.id ∧
    (⟨[c8U1, c8U2], []⟩ : Db).vendors.length = 2 := by
  refine ⟨by decide, by decide, by decide, by decide⟩

/-- Unfolding of `vendorLookup` for a non-sentinel name. -/
theorem vendorLookup_eq (db : Db) (name : List Char)
    (website : Option (List Char)) (hns : name ≠ cs "Unknown Vendor") :
    vendorLookup db name website =
      match db.vendors.find?
          (fun vd => likeMatch (pyLower name) (pyLower vd.name)) with
      | some x => some x
      | none =>
        match website with
        | some w => db.vendors.find? (fun vd => vd.website = some w)
        | none => none := by
  unfold vendorLookup
  rw [if_pos hns]

/-- C8 (amended): when the two extractions carry the same effective vendor
name — and that name is not the `"Unknown Vendor"` sentinel — and the same
extracted website, resolving the second right after the first returns the
very same vendor row and leaves the database unchanged: no duplicate is
created.  (The original claim fails for the sentinel name, see the
counterexample.) -/
theorem find_or_create_no_duplicate (vf1 vf2 : Verifiers) (db : Db)
    (e1 e2 : JVal) (ekvs1 ekvs2 kvs1 kvs2 : List (List Char × JVal))
    (name : List Char) (website : Option (List Char))
    (v1 v2 : Vendor) (reps1 reps2 : List VendorRep) (db1 db2 : Db)
    (he1 : e1 = .obj ekvs1) (hk1 : vendorFieldKVs ekvs1 = some kvs1)
    (hn1 : effectiveVendorName kvs1 = some name)
    (hw1 : strippedOrNone kvs1 (cs "website") = some website)
    (he2 : e2 = .obj ekvs2) (hk2 : vendorFieldKVs ekvs2 = some kvs2)
    (hn2 : effectiveVendorName kvs2 = some name)
    (hw2 : strippedOrNone kvs2 (cs "website") = some website)
    (hns : name ≠ cs "Unknown Vendor")
    (h1 : find_or_create_vendor vf1 db e1 = some (v1, reps1, db1))
    (h2 : find_or_create_vendor vf2 db1 e2 = some (v2, reps2, db2)) :
    v2 = v1 ∧ db2 = db1 := by
  rcases find_or_create_cases vf1 db e1 v1 reps1 db1 h1 with
    ⟨ek1, k1, n1, a1, w1, d1, he1', hk1', hn1', ha1', hw1', hd1', hcase1⟩
  rw [he1] at he1'
  injection he1' with hek
  subst hek
  have hkk : kvs1 = k1 := by
    have := hk1.symm.trans hk1'
    injection this
  subst hkk
  have hnn : name = n1 := by
    have := hn1.symm.trans hn1'
    injection this
  subst hnn
  have hww : website = w1 := by
    have := hw1.symm.trans hw1'
    injection this
  subst hww
  have hlook : vendorLookup db1 name website = some v1 := by
    rcases hcase1 with ⟨hfound, _, hdb⟩ | ⟨hnone, rs, newReps, _, _, hv, _, hdb⟩
    · rw [hdb]
      exact hfound
    · rw [hdb]
      have hfind0 : db.vendors.find?
          (fun vd => likeMatch (pyLower name) (pyLower vd.name)) = none := by
        unfold vendorLookup at hnone
        rw [if_pos hns] at hnone
        rcases hf : db.vendors.find?
            (fun vd => likeMatch (pyLower name) (pyLower vd.name)) with _ | x
        · exact hf
        · rw [hf] at hnone
          exact absurd hnone (by simp)
      have hpred : likeMatch (pyLower name) (pyLower v1.name) = true := by
        rw [hv]
        exact likeMatch_self (pyLower name)
      have happ : (Db.mk (db.vendors ++ [v1])
            (db.reps ++ newReps)).vendors.find?
          (fun vd => likeMatch (pyLower name) (pyLower vd.name))
            = some v1 := by
        show (db.vendors ++ [v1]).find?
          (fun vd => likeMatch (pyLower name) (pyLower vd.name)) = some v1
        rw [List.find?_append, hfind0]
        simp [List.find?, hpred]
      rw [vendorLookup_eq _ name website hns, happ]
  rcases find_or_create_cases vf2 db1 e2 v2 reps2 db2 h2 with
    ⟨ek2, k2, n2, a2, w2, d2, he2', hk2', hn2', ha2', hw2', hd2', hcase2⟩
  rw [he2] at he2'
  injection he2' with hek2
  subst hek2
  have hkk2 : kvs2 = k2 := by
    have := hk2.symm.trans hk2'
    injection this
  subst hkk2
  have hnn2 : name = n2 := by
    have := hn2.symm.trans hn2'
    injection this
  subst hnn2
  have hww2 : website = w2 := by
    have := hw2.symm.trans hw2'
    injection this
  subst hww2
  rcases hcase2 with ⟨hfound2, _, hdb2⟩ | ⟨hnone2, _⟩
  · have := hlook.symm.trans hfound2
    injection this with hvv
    exact ⟨hvv.symm, hdb2⟩
  · exact absurd (hlook.symm.trans hnone2) (by simp)

theorem find_or_create_no_duplicate_witness :
    c8Vendor = c8Vendor ∧ c8Db1 = c8Db1 :=
  find_or_create_no_duplicate vfNone vfNone ⟨[], []⟩ c8Extraction
    c8Extraction
    [(cs "vendor", .obj [(cs "name", .str (cs "Acme"))])]
    [(cs "vendor", .obj [(cs "name", .str (cs "Acme"))])]
    [(cs "name", .str (cs "Acme"))] [(cs "name", .str (cs "Acme"))]
    (cs "Acme") none c8Vendor c8Vendor [] [] c8Db1 c8Db1
    rfl (by decide) (by decide) (by decide)
    rfl (by decide) (by decide) (by decide)
    (by decide) (by decide) (by decide)

-- Serialized JSON inputs for the repair pipeline --------------------------

mutual

/-- Tree of a JSON text fed to `_parse_json_from_response`: literals carry
their exact source characters, and each container records whether the text
writes a trailing comma before its closing bracket (the defect
`_fix_trailing_commas` repairs). -/
inductive TVal where
  | null
  | bool (b : Bool)
  | num (lit : List Char)
  | str (raw : List Char)
  | arr (tc : Bool) (xs : TList)
  | obj (tc : Bool) (kvs : TKVs)

/-- Elements of a serialized array. -/
inductive TList where
  | nil
  | cons (v : TVal) (t : TList)

/-- Members of a serialized object. -/
inductive TKVs where
  | nil
  | cons (k : List Char) (v : TVal) (t : TKVs)

end

mutual

/-- The text of a `TVal` (compact form, no inter-token whitespace). -/
def serV : TVal → List Char
  | .null => cs "null"
  | .bool b => if b then cs "true" else cs "false"
  | .num lit => lit
  | .str raw => '"' :: raw ++ ['"']
  | .arr tc xs => '[' :: serL xs tc
  | .obj tc kvs => '{' :: serK kvs tc

/-- Array elements plus the closing `]`, with the trailing comma when the
flag is set. -/
def serL : TList → Bool → List Char
  | .nil, _ => [']']
  | .cons v .nil, tc => serV v ++ (if tc then [',', ']'] else [']'])
  | .cons v (.cons v2 t), tc => serV v ++ ',' :: serL (.cons v2 t) tc

/-- Object members plus the closing `}`, with the trailing comma when the
flag is set. -/
def serK : TKVs → Bool → List Char
  | .nil, _ => ['}']
  | .cons k v .nil, tc =>
    '"' :: k ++ '"' :: ':' :: serV v ++ (if tc then [',', '}'] else ['}'])
  | .cons k v (.cons k2 v2 t), tc =>
    '"' :: k ++ '"' :: ':' :: serV v ++ ',' :: serK (.cons k2 v2 t) tc

end

mutual

/-- The `JVal` a `TVal` denotes (trailing-comma flags forgotten). -/
def eraseV : TVal → JVal
  | .null => .null
  | .bool b => .bool b
  | .num lit => .num lit
  | .str raw => .str raw
  | .arr _ xs => .arr (eraseL xs)
  | .obj _ kvs => .obj (eraseK kvs)

/-- Denotation of array elements. -/
def eraseL : TList → List JVal
  | .nil => []
  | .cons v t => eraseV v :: eraseL t

/-- Denotation of object members. -/
def eraseK : TKVs → List (List Char × JVal)
  | .nil => []
  | .cons k v t => (k, eraseV v) :: eraseK t

end

mutual

/-- Whether any container in the tree writes a trailing comma. -/
def hasTCV : TVal → Bool
  | .arr tc xs => tc || hasTCL xs
  | .obj tc kvs => tc || hasTCK kvs
  | _ => false

/-- `hasTCV` over array elements. -/
def hasTCL : TList → Bool
  | .nil => false
  | .cons v t => hasTCV v || hasTCL t

/-- `hasTCV` over object members. -/
def hasTCK : TKVs → Bool
  | .nil => false
  | .cons _ v t => hasTCV v || hasTCK t

end

mutual

/-- Clear the trailing-comma flags one regex pass removes: `objPass = true`
is the `,}` pass, `objPass = false` the `,]` pass. -/
def clearV (objPass : Bool) : TVal → TVal
  | .null => .null
  | .bool b => .bool b
  | .num lit => .num lit
  | .str raw => .str raw
  | .arr tc xs => .arr (if objPass then tc else false) (clearL objPass xs)
  | .obj tc kvs => .obj (if objPass then false else tc) (clearK objPass kvs)

/-- `clearV` over array elements. -/
def clearL (objPass : Bool) : TList → TList
  | .nil => .nil
  | .cons v t => .cons (clearV objPass v) (clearL objPass t)

/-- `clearV` over object members. -/
def clearK (objPass : Bool) : TKVs → TKVs
  | .nil => .nil
  | .cons k v t => .cons k (clearV objPass v) (clearK objPass t)

end

/-- An optional fraction part: empty, or a dot followed by at least one
digit. -/
def fracOk : List Char → Bool
  | [] => true
  | c :: t =>
    c = '.' && (match t with
      | f1 :: fs => f1.isDigit && fs.all Char.isDigit
      | [] => false)

/-- Unsigned number literal: `0` or a nonzero-led digit run, then an
optional fraction. -/
def numOkBody : List Char → Bool
  | [] => false
  | c :: t =>
    if c = '0' then fracOk t
    else if c.isDigit then fracOk (t.dropWhile Char.isDigit)
    else false

/-- A number literal in the shape `json.loads` accepts and `parseNumLit`
reproduces: optional sign, `0` or a nonzero-led digit run, optional
fraction. -/
def numOk (l : List Char) : Bool :=
  match l with
  | c :: t => if c = '-' then numOkBody t else numOkBody (c :: t)
  | [] => false

/-- Raw string content `scanStringRaw` accepts: no unescaped quote or
control character, escapes well formed. -/
def strOk : List Char → Bool
  | [] => true
  | c :: t =>
    if c = '"' then false
    else if c = '\\' then
      match t with
      | [] => false
      | e :: t2 =>
        if e = 'u' then
          match t2 with
          | h1 :: h2 :: h3 :: h4 :: t3 =>
            isHexDigit h1 && isHexDigit h2 && isHexDigit h3 && isHexDigit h4 &&
              strOk t3
          | _ => false
        else isSimpleEscape e && strOk t2
    else decide (32 ≤ c.toNat) && strOk t

mutual

/-- The tree's literals are parseable and (for flagged containers) the
trailing comma has something before it: exactly the texts the tolerant
parser `json_loads_tc` accepts. -/
def wfV : TVal → Bool
  | .null => true
  | .bool _ => true
  | .num lit => numOk lit
  | .str raw => strOk raw
  | .arr tc xs => (match xs with
      | .nil => !tc
      | .cons _ _ => true) && wfL xs
  | .obj tc kvs => (match kvs with
      | .nil => !tc
      | .cons _ _ _ => true) && wfK kvs

/-- `wfV` over array elements. -/
def wfL : TList → Bool
  | .nil => true
  | .cons v t => wfV v && wfL t

/-- `wfV` over object members (keys must scan as strings). -/
def wfK : TKVs → Bool
  | .nil => true
  | .cons k v t => strOk k && wfV v && wfK t

end

mutual

/-- Every character of every string literal, key and number literal avoids
`bad` (the characters the repair pipeline's text surgery is confused by). -/
def cleanV (bad : Char → Bool) : TVal → Bool
  | .null => true
  | .bool _ => true
  | .num lit => lit.all (fun c => !bad c)
  | .str raw => raw.all (fun c => !bad c)
  | .arr _ xs => cleanL bad xs
  | .obj _ kvs => cleanK bad kvs

/-- `cleanV` over array elements. -/
def cleanL (bad : Char → Bool) : TList → Bool
  | .nil => true
  | .cons v t => cleanV bad v && cleanL bad t

/-- `cleanV` over object members. -/
def cleanK (bad : Char → Bool) : TKVs → Bool
  | .nil => true
  | .cons k v t => k.all (fun c => !bad c) && cleanV bad v && cleanK bad t

end

/-- Additionally the comma, which the trailing-comma regex rewrites inside
string literals (claim C5's amendment). -/
def badC5 (c : Char) : Bool := c = '{' || c = '}' || c = '`' || c = ','

mutual

/-- Fuel bound for the parser lemmas. -/
def sizeV : TVal → Nat
  | .arr _ xs => 1 + sizeL xs
  | .obj _ kvs => 1 + sizeK kvs
  | _ => 1

/-- `sizeV` over array elements. -/
def sizeL : TList → Nat
  | .nil => 0
  | .cons v t => 1 + sizeV v + sizeL t

/-- `sizeV` over object members. -/
def sizeK : TKVs → Nat
  | .nil => 0
  | .cons _ v t => 1 + sizeV v + sizeK t

end

theorem skipWs_cons (c : Char) (t : List Char) (h : jsonWs c = false) :
    skipWs (c :: t) = c :: t := by
  simp [skipWs, List.dropWhile_cons, h]

theorem takeWhile_all_append (p : Char → Bool) (a b : List Char)
    (ha : ∀ c ∈ a, p c = true)
    (hb : b = [] ∨ ∃ c t, b = c :: t ∧ p c = false) :
    (a ++ b).takeWhile p = a := by
  induction a with
  | nil =>
    rcases hb with h | ⟨c, t, h, hc⟩
    · rw [h]; rfl
    · rw [h]
      simp [List.takeWhile_cons, hc]
  | cons x a ih =>
    have hx : p x = true := ha x (by simp)
    simp only [List.cons_append, List.takeWhile_cons, hx]
    rw [ih (fun c hc => ha c (by simp [hc]))]
    simp

theorem dropWhile_all_append (p : Char → Bool) (a b : List Char)
    (ha : ∀ c ∈ a, p c = true)
    (hb : b = [] ∨ ∃ c t, b = c :: t ∧ p c = false) :
    (a ++ b).dropWhile p = b := by
  induction a with
  | nil =>
    rcases hb with h | ⟨c, t, h, hc⟩
    · rw [h]; rfl
    · rw [h]
      simp [List.dropWhile_cons, hc]
  | cons x a ih =>
    have hx : p x = true := ha x (by simp)
    simp only [List.cons_append, List.dropWhile_cons, hx]
    exact ih (fun c hc => ha c (by simp [hc]))

theorem listContains_false_of_notMem (hay : List Char) (c0 : Char)
    (pr : List Char) (h : c0 ∉ hay) :
    listContains hay (c0 :: pr) = false := by
  induction hay with
  | nil => rfl
  | cons x t ih =>
    have hx : c0 ≠ x := fun he => h (by simp [he])
    have hbeq : (c0 == x) = false := beq_eq_false_iff_ne.mpr hx
    have hpre : (c0 :: pr).isPrefixOf (x :: t) = false := by
      show ((c0 == x) && pr.isPrefixOf t) = false
      rw [hbeq, Bool.false_and]
    unfold listContains
    rw [hpre, Bool.false_or]
    exact ih (fun hm => h (by simp [hm]))

theorem strOk_bs (e : Char) (t2 : List Char) (hne : e ≠ 'u') :
    strOk ('\\' :: e :: t2) = (isSimpleEscape e && strOk t2) := by
  rw [strOk.eq_def]
  show (if e = 'u' then
      (match t2 with
       | h1 :: h2 :: h3 :: h4 :: t3 =>
         isHexDigit h1 && isHexDigit h2 && isHexDigit h3 && isHexDigit h4 &&
           strOk t3
       | _ => false)
    else isSimpleEscape e && strOk t2) = (isSimpleEscape e && strOk t2)
  rw [if_neg hne]

theorem strOk_other (c : Char) (t : List Char) (h1 : ¬c = '"')
    (h2 : ¬c = '\\') :
    strOk (c :: t) = (decide (32 ≤ c.toNat) && strOk t) := by
  rw [strOk.eq_def]
  show (if c = '"' then false
    else if c = '\\' then
      (match t with
       | [] => false
       | e :: t2 =>
         if e = 'u' then
           (match t2 with
            | h1 :: h2 :: h3 :: h4 :: t3 =>
              isHexDigit h1 && isHexDigit h2 && isHexDigit h3 &&
                isHexDigit h4 && strOk t3
            | _ => false)
         else isSimpleEscape e && strOk t2)
    else decide (32 ≤ c.toNat) && strOk t) = (decide (32 ≤ c.toNat) && strOk t)
  rw [if_neg h1, if_neg h2]

theorem scan_bs (e : Char) (t2 : List Char) (hne : e ≠ 'u')
    (hse : isSimpleEscape e = true) :
    scanStringRaw ('\\' :: e :: t2)
      = Option.map (fun p => ('\\' :: e :: p.1, p.2)) (scanStringRaw t2) := by
  rw [scanStringRaw.eq_def]
  show (if e = 'u' then
      (match t2 with
       | h1 :: h2 :: h3 :: h4 :: t3 =>
         if isHexDigit h1 && isHexDigit h2 && isHexDigit h3 && isHexDigit h4
         then
           match scanStringRaw t3 with
           | some (r, rest2) =>
             some ('\\' :: 'u' :: h1 :: h2 :: h3 :: h4 :: r, rest2)
           | none => none
         else none
       | _ => none)
    else if isSimpleEscape e then
      match scanStringRaw t2 with
      | some (r, rest2) => some ('\\' :: e :: r, rest2)
      | none => none
    else none)
    = Option.map (fun p => ('\\' :: e :: p.1, p.2)) (scanStringRaw t2)
  rw [if_neg hne, if_pos hse]
  cases scanStringRaw t2 with
  | none => rfl
  | some p => rfl

theorem scan_other (c : Char) (t : List Char) (h1 : ¬c = '"')
    (h2 : ¬c = '\\') (h3 : ¬c.toNat < 32) :
    scanStringRaw (c :: t)
      = Option.map (fun p => (c :: p.1, p.2)) (scanStringRaw t) := by
  rw [scanStringRaw.eq_def]
  show (if c = '"' then some ([], t)
    else if c = '\\' then
      (match t with
       | [] => none
       | e :: t2 =>
         if e = 'u' then
           (match t2 with
            | h1 :: h2 :: h3 :: h4 :: t3 =>
              if isHexDigit h1 && isHexDigit h2 && isHexDigit h3 &&
                  isHexDigit h4
              then
                match scanStringRaw t3 with
                | some (r, rest2) =>
                  some ('\\' :: 'u' :: h1 :: h2 :: h3 :: h4 :: r, rest2)
                | none => none
              else none
            | _ => none)
         else if isSimpleEscape e then
           match scanStringRaw t2 with
           | some (r, rest2) => some ('\\' :: e :: r, rest2)
           | none => none
         else none)
    else if c.toNat < 32 then none
    else
      match scanStringRaw t with
      | some (r, rest2) => some (c :: r, rest2)
      | none => none)
    = Option.map (fun p => (c :: p.1, p.2)) (scanStringRaw t)
  rw [if_neg h1, if_neg h2, if_neg h3]
  cases scanStringRaw t with
  | none => rfl
  | some p => rfl

theorem scanStringRaw_rt (raw : List Char) :
    ∀ rest, strOk raw = true →
      scanStringRaw (raw ++ '"' :: rest) = some (raw, rest) := by
  induction raw using strOk.induct with
  | case1 =>
    intro rest h
    simp only [List.nil_append]
    rw [scanStringRaw.eq_def]
    rfl
  | case2 t2 =>
    intro rest h
    rw [strOk.eq_def] at h
    exact Bool.noConfusion h
  | case3 hq =>
    intro rest h
    rw [strOk.eq_def] at h
    exact Bool.noConfusion h
  | case4 h1 h2 h3 h4 t3 hq ih =>
    intro rest h
    rw [strOk.eq_def] at h
    have h' : (isHexDigit h1 && isHexDigit h2 && isHexDigit h3 &&
        isHexDigit h4 && strOk t3) = true := h
    simp only [Bool.and_eq_true] at h'
    obtain ⟨⟨⟨⟨hh1, hh2⟩, hh3⟩, hh4⟩, hs⟩ := h'
    simp only [List.cons_append]
    rw [scanStringRaw.eq_def]
    show (if isHexDigit h1 && isHexDigit h2 && isHexDigit h3 && isHexDigit h4
        then
          match scanStringRaw (t3 ++ '"' :: rest) with
          | some (r, rest2) =>
            some ('\\' :: 'u' :: h1 :: h2 :: h3 :: h4 :: r, rest2)
          | none => none
        else none) = some ('\\' :: 'u' :: h1 :: h2 :: h3 :: h4 :: t3, rest)
    rw [if_pos (by simp [hh1, hh2, hh3, hh4]), ih rest hs]
  | case5 t2 hq hx =>
    intro rest h
    rw [strOk.eq_def] at h
    rcases t2 with _ | ⟨a1, _ | ⟨a2, _ | ⟨a3, _ | ⟨a4, t5⟩⟩⟩⟩
    · exact Bool.noConfusion h
    · exact Bool.noConfusion h
    · exact Bool.noConfusion h
    · exact Bool.noConfusion h
    · exact (hx a1 a2 a3 a4 t5 rfl).elim
  | case6 e t2 hne hq ih =>
    intro rest h
    rw [strOk_bs e t2 hne, Bool.and_eq_true] at h
    obtain ⟨hse, hs⟩ := h
    simp only [List.cons_append]
    rw [scan_bs e (t2 ++ '"' :: rest) hne hse, ih rest hs]
    rfl
  | case7 e t2 hq hb ih =>
    intro rest h
    rw [strOk_other e t2 hq hb, Bool.and_eq_true] at h
    obtain ⟨h32, hs⟩ := h
    have h32' : ¬ e.toNat < 32 := by
      have := of_decide_eq_true h32
      omega
    simp only [List.cons_append]
    rw [scan_other e (t2 ++ '"' :: rest) hq hb h32', ih rest hs]
    rfl

/-- Round trip of `parseNumLit` on a well-formed literal followed by a
non-numeric delimiter. -/
theorem parseNumLit_rt (neg ip fp rest : List Char)
    (hneg : neg = [] ∨ neg = ['-'])
    (hip : ip = ['0'] ∨ ∃ c ds, ip = c :: ds ∧ c.isDigit = true ∧ c ≠ '0' ∧
      ∀ d ∈ ds, d.isDigit = true)
    (hfp : fp = [] ∨ ∃ f1 fs, fp = '.' :: f1 :: fs ∧ f1.isDigit = true ∧
      ∀ d ∈ fs, d.isDigit = true)
    (hrest : rest = [] ∨ ∃ r0 rt, rest = r0 :: rt ∧ r0.isDigit = false ∧
      r0 ≠ '.' ∧ r0 ≠ 'e' ∧ r0 ≠ 'E') :
    parseNumLit (neg ++ ip ++ fp ++ rest) = some (neg ++ ip ++ fp, rest) := by
  have hfr : fp ++ rest = [] ∨ ∃ b0 bt, fp ++ rest = b0 :: bt ∧
      b0.isDigit = false := by
    rcases hfp with hf | ⟨f1, fs, hf, _, _⟩ <;> subst hf
    · rcases hrest with hr | ⟨r0, rt, hr, hrd, _⟩ <;> subst hr
      · exact Or.inl rfl
      · exact Or.inr ⟨r0, rt, rfl, hrd⟩
    · exact Or.inr ⟨'.', _, rfl, by decide⟩
  have hrest' : rest = [] ∨ ∃ b0 bt, rest = b0 :: bt ∧ b0.isDigit = false := by
    rcases hrest with hr | ⟨r0, rt, hr, hrd, _⟩
    · exact Or.inl hr
    · exact Or.inr ⟨r0, rt, hr, hrd⟩
  rcases hip with hip | ⟨c, ds, hip, hc, hc0, hds⟩ <;> subst hip
  · -- integer part "0"
    rcases hfp with hf | ⟨f1, fs, hf, hf1, hfs⟩ <;> subst hf
    · -- no fraction
      rcases hneg with hn | hn <;> subst hn <;>
        rcases hrest with hr | ⟨r0, rt, hr, hrd, hrdot, hre, hrE⟩ <;> subst hr
      · simp [parseNumLit]
      · simp [parseNumLit, hrd, hrdot, hre, hrE]
      · simp [parseNumLit]
      · simp [parseNumLit, hrd, hrdot, hre, hrE]
    · -- fraction '.' f1 fs
      have htw : (fs ++ rest).takeWhile Char.isDigit = fs :=
        takeWhile_all_append _ _ _ hfs hrest'
      have hdw : (fs ++ rest).dropWhile Char.isDigit = rest :=
        dropWhile_all_append _ _ _ hfs hrest'
      rcases hneg with hn | hn <;> subst hn <;>
        rcases hrest with hr | ⟨r0, rt, hr, hrd, hrdot, hre, hrE⟩ <;> subst hr
      · simp only [List.append_nil] at htw hdw ⊢
        simp [parseNumLit, hf1, htw, hdw]
      · simp [parseNumLit, hf1, htw, hdw, hrd, hrdot, hre, hrE]
      · simp only [List.append_nil] at htw hdw ⊢
        simp [parseNumLit, hf1, htw, hdw]
      · simp [parseNumLit, hf1, htw, hdw, hrd, hrdot, hre, hrE]
  · -- integer part c :: ds
    have hcm : c ≠ '-' := by
      intro h
      subst h
      simp at hc
    have htwi : (ds ++ (fp ++ rest)).takeWhile Char.isDigit = ds :=
      takeWhile_all_append _ _ _ hds hfr
    have hdwi : (ds ++ (fp ++ rest)).dropWhile Char.isDigit = fp ++ rest :=
      dropWhile_all_append _ _ _ hds hfr
    rcases hfp with hf | ⟨f1, fs, hf, hf1, hfs⟩ <;> subst hf
    · -- no fraction
      simp only [List.nil_append] at htwi hdwi
      rcases hneg with hn | hn <;> subst hn <;>
        rcases hrest with hr | ⟨r0, rt, hr, hrd, hrdot, hre, hrE⟩ <;> subst hr
      · simp only [List.append_nil] at htwi hdwi ⊢
        simp [parseNumLit, hc, hc0, hcm, htwi, hdwi]
      · simp [parseNumLit, hc, hc0, hcm, htwi, hdwi, hrd, hrdot, hre, hrE]
      · simp only [List.append_nil] at htwi hdwi ⊢
        simp [parseNumLit, hc, hc0, hcm, htwi, hdwi]
      · simp [parseNumLit, hc, hc0, hcm, htwi, hdwi, hrd, hrdot, hre, hrE]
    · -- fraction
      simp only [List.cons_append] at htwi hdwi
      have htw : (fs ++ rest).takeWhile Char.isDigit = fs :=
        takeWhile_all_append _ _ _ hfs hrest'
      have hdw : (fs ++ rest).dropWhile Char.isDigit = rest :=
        dropWhile_all_append _ _ _ hfs hrest'
      rcases hneg with hn | hn <;> subst hn <;>
        rcases hrest with hr | ⟨r0, rt, hr, hrd, hrdot, hre, hrE⟩ <;> subst hr
      · simp only [List.append_nil] at htwi hdwi htw hdw ⊢
        simp [parseNumLit, hc, hc0, hcm, htwi, hdwi, hf1, htw, hdw]
      · simp [parseNumLit, hc, hc0, hcm, htwi, hdwi, hf1, htw, hdw, hrd,
          hrdot, hre, hrE]
      · simp only [List.append_nil] at htwi hdwi htw hdw ⊢
        simp [parseNumLit, hc, hc0, hcm, htwi, hdwi, hf1, htw, hdw]
      · simp [parseNumLit, hc, hc0, hcm, htwi, hdwi, hf1, htw, hdw, hrd,
          hrdot, hre, hrE]

theorem fracOk_cons (c : Char) (t : List Char) :
    fracOk (c :: t) = ((c = '.' : Bool) && (match t with
      | f1 :: fs => f1.isDigit && fs.all Char.isDigit
      | [] => false)) := rfl

theorem numOk_cons (c : Char) (t : List Char) :
    numOk (c :: t) = (if c = '-' then numOkBody t else numOkBody (c :: t)) :=
  rfl

theorem fracOk_decomp (fp : List Char) (h : fracOk fp = true) :
    fp = [] ∨ ∃ f1 fs, fp = '.' :: f1 :: fs ∧ f1.isDigit = true ∧
      ∀ d ∈ fs, d.isDigit = true := by
  rcases fp with _ | ⟨c, t⟩
  · exact Or.inl rfl
  · rw [fracOk_cons, Bool.and_eq_true] at h
    have h' := h
    obtain ⟨hc, h2⟩ := h'
    have hc' : c = '.' := by
      have := of_decide_eq_true hc
      exact this
    subst hc'
    rcases t with _ | ⟨f1, fs⟩
    · exact Bool.noConfusion h2
    · have h3 : (f1.isDigit && fs.all Char.isDigit) = true := h2
      rw [Bool.and_eq_true] at h3
      refine Or.inr ⟨f1, fs, rfl, h3.1, ?_⟩
      intro d hd
      exact List.all_eq_true.mp h3.2 d hd

theorem numOkBody_decomp (l1 : List Char) (h : numOkBody l1 = true) :
    ∃ ip fp, l1 = ip ++ fp ∧
      (ip = ['0'] ∨ ∃ c ds, ip = c :: ds ∧ c.isDigit = true ∧ c ≠ '0' ∧
        ∀ d ∈ ds, d.isDigit = true) ∧
      (fp = [] ∨ ∃ f1 fs, fp = '.' :: f1 :: fs ∧ f1.isDigit = true ∧
        ∀ d ∈ fs, d.isDigit = true) := by
  rcases l1 with _ | ⟨c, t⟩
  · exact Bool.noConfusion h
  · have h' : (if c = '0' then fracOk t
        else if c.isDigit then fracOk (t.dropWhile Char.isDigit)
        else false) = true := h
    by_cases hc0 : c = '0'
    · subst hc0
      rw [if_pos rfl] at h'
      exact ⟨['0'], t, rfl, Or.inl rfl, fracOk_decomp t h'⟩
    · rw [if_neg hc0] at h'
      by_cases hcd : c.isDigit = true
      · rw [if_pos hcd] at h'
        refine ⟨c :: t.takeWhile Char.isDigit, t.dropWhile Char.isDigit,
          ?_, Or.inr ⟨c, t.takeWhile Char.isDigit, rfl, hcd, hc0, ?_⟩,
          fracOk_decomp _ h'⟩
        · simp [List.takeWhile_append_dropWhile]
        · intro d hd
          exact List.mem_takeWhile_imp hd
      · rw [if_neg hcd] at h'
        exact Bool.noConfusion h'

theorem numOk_decomp (l : List Char) (h : numOk l = true) :
    ∃ neg ip fp, l = neg ++ ip ++ fp ∧ (neg = [] ∨ neg = ['-']) ∧
      (ip = ['0'] ∨ ∃ c ds, ip = c :: ds ∧ c.isDigit = true ∧ c ≠ '0' ∧
        ∀ d ∈ ds, d.isDigit = true) ∧
      (fp = [] ∨ ∃ f1 fs, fp = '.' :: f1 :: fs ∧ f1.isDigit = true ∧
        ∀ d ∈ fs, d.isDigit = true) := by
  rcases l with _ | ⟨c0, t0⟩
  · exact absurd h (by decide)
  · by_cases hm : c0 = '-'
    · subst hm
      have h' : numOkBody t0 = true := h
      obtain ⟨ip, fp, he, hip, hfp⟩ := numOkBody_decomp t0 h'
      exact ⟨['-'], ip, fp, by simp [he], Or.inr rfl, hip, hfp⟩
    · rw [numOk_cons, if_neg hm] at h
      have h' := h
      obtain ⟨ip, fp, he, hip, hfp⟩ := numOkBody_decomp (c0 :: t0) h'
      exact ⟨[], ip, fp, by simp [he], Or.inl rfl, hip, hfp⟩

mutual

theorem eraseV_clearV : ∀ (p : Bool) (w : TVal),
    eraseV (clearV p w) = eraseV w
  | _, .null => rfl
  | _, .bool _ => rfl
  | _, .num _ => rfl
  | _, .str _ => rfl
  | p, .arr tc xs => by
    show JVal.arr (eraseL (clearL p xs)) = JVal.arr (eraseL xs)
    rw [eraseL_clearL p xs]
  | p, .obj tc kvs => by
    show JVal.obj (eraseK (clearK p kvs)) = JVal.obj (eraseK kvs)
    rw [eraseK_clearK p kvs]

theorem eraseL_clearL : ∀ (p : Bool) (xs : TList),
    eraseL (clearL p xs) = eraseL xs
  | _, .nil => rfl
  | p, .cons v t => by
    show eraseV (clearV p v) :: eraseL (clearL p t) = eraseV v :: eraseL t
    rw [eraseV_clearV p v, eraseL_clearL p t]

theorem eraseK_clearK : ∀ (p : Bool) (kvs : TKVs),
    eraseK (clearK p kvs) = eraseK kvs
  | _, .nil => rfl
  | p, .cons k v t => by
    show (k, eraseV (clearV p v)) :: eraseK (clearK p t)
      = (k, eraseV v) :: eraseK t
    rw [eraseV_clearV p v, eraseK_clearK p t]

end

mutual

theorem hasTCV_clear2 : ∀ (w : TVal),
    hasTCV (clearV false (clearV true w)) = false
  | .null => rfl
  | .bool _ => rfl
  | .num _ => rfl
  | .str _ => rfl
  | .arr tc xs => by
    show ((if false then (if true then tc else false) else false) ||
      hasTCL (clearL false (clearL true xs))) = false
    rw [hasTCL_clear2 xs]
    rfl
  | .obj tc kvs => by
    show ((if false then false else (if true then false else tc)) ||
      hasTCK (clearK false (clearK true kvs))) = false
    rw [hasTCK_clear2 kvs]
    rfl

theorem hasTCL_clear2 : ∀ (xs : TList),
    hasTCL (clearL false (clearL true xs)) = false
  | .nil => rfl
  | .cons v t => by
    show (hasTCV (clearV false (clearV true v)) ||
      hasTCL (clearL false (clearL true t))) = false
    rw [hasTCV_clear2 v, hasTCL_clear2 t]
    rfl

theorem hasTCK_clear2 : ∀ (kvs : TKVs),
    hasTCK (clearK false (clearK true kvs)) = false
  | .nil => rfl
  | .cons k v t => by
    show (hasTCV (clearV false (clearV true v)) ||
      hasTCK (clearK false (clearK true t))) = false
    rw [hasTCV_clear2 v, hasTCK_clear2 t]
    rfl

end

theorem wfV_arr (tc : Bool) (xs : TList) :
    wfV (.arr tc xs) = ((match xs with
      | .nil => !tc
      | .cons _ _ => true) && wfL xs) := rfl

theorem wfV_obj (tc : Bool) (kvs : TKVs) :
    wfV (.obj tc kvs) = ((match kvs with
      | .nil => !tc
      | .cons _ _ _ => true) && wfK kvs) := rfl

mutual

theorem wfV_clearV : ∀ (p : Bool) (w : TVal), wfV w = true →
    wfV (clearV p w) = true
  | _, .null, _ => rfl
  | _, .bool _, _ => rfl
  | _, .num _, h => h
  | _, .str _, h => h
  | p, .arr tc xs, h => by
    rw [wfV_arr, Bool.and_eq_true] at h
    show wfV (.arr (if p then tc else false) (clearL p xs)) = true
    rw [wfV_arr, Bool.and_eq_true]
    refine ⟨?_, wfL_clearL p xs h.2⟩
    rcases xs with _ | ⟨v, t⟩
    · show (!(if p then tc else false)) = true
      have htc : (!tc) = true := h.1
      rcases p
      · rfl
      · exact htc
    · rfl
  | p, .obj tc kvs, h => by
    rw [wfV_obj, Bool.and_eq_true] at h
    show wfV (.obj (if p then false else tc) (clearK p kvs)) = true
    rw [wfV_obj, Bool.and_eq_true]
    refine ⟨?_, wfK_clearK p kvs h.2⟩
    rcases kvs with _ | ⟨k, v, t⟩
    · show (!(if p then false else tc)) = true
      have htc : (!tc) = true := h.1
      rcases p
      · exact htc
      · rfl
    · rfl

theorem wfL_clearL : ∀ (p : Bool) (xs : TList), wfL xs = true →
    wfL (clearL p xs) = true
  | _, .nil, _ => rfl
  | p, .cons v t, h => by
    have h' : (wfV v && wfL t) = true := h
    rw [Bool.and_eq_true] at h'
    show (wfV (clearV p v) && wfL (clearL p t)) = true
    rw [Bool.and_eq_true]
    exact ⟨wfV_clearV p v h'.1, wfL_clearL p t h'.2⟩

theorem wfK_clearK : ∀ (p : Bool) (kvs : TKVs), wfK kvs = true →
    wfK (clearK p kvs) = true
  | _, .nil, _ => rfl
  | p, .cons k v t, h => by
    have h' : (strOk k && wfV v && wfK t) = true := h
    rw [Bool.and_eq_true, Bool.and_eq_true] at h'
    show (strOk k && wfV (clearV p v) && wfK (clearK p t)) = true
    rw [Bool.and_eq_true, Bool.and_eq_true]
    exact ⟨⟨h'.1.1, wfV_clearV p v h'.1.2⟩, wfK_clearK p t h'.2⟩

end

mutual

theorem cleanV_clearV : ∀ (bad : Char → Bool) (p : Bool) (w : TVal),
    cleanV bad w = true → cleanV bad (clearV p w) = true
  | _, _, .null, _ => rfl
  | _, _, .bool _, _ => rfl
  | _, _, .num _, h => h
  | _, _, .str _, h => h
  | bad, p, .arr tc xs, h => by
    show cleanL bad (clearL p xs) = true
    exact cleanL_clearL bad p xs h
  | bad, p, .obj tc kvs, h => by
    show cleanK bad (clearK p kvs) = true
    exact cleanK_clearK bad p kvs h

theorem cleanL_clearL : ∀ (bad : Char → Bool) (p : Bool) (xs : TList),
    cleanL bad xs = true → cleanL bad (clearL p xs) = true
  | _, _, .nil, _ => rfl
  | bad, p, .cons v t, h => by
    have h' : (cleanV bad v && cleanL bad t) = true := h
    rw [Bool.and_eq_true] at h'
    show (cleanV bad (clearV p v) && cleanL bad (clearL p t)) = true
    rw [Bool.and_eq_true]
    exact ⟨cleanV_clearV bad p v h'.1, cleanL_clearL bad p t h'.2⟩

theorem cleanK_clearK : ∀ (bad : Char → Bool) (p : Bool) (kvs : TKVs),
    cleanK bad kvs = true → cleanK bad (clearK p kvs) = true
  | _, _, .nil, _ => rfl
  | bad, p, .cons k v t, h => by
    have h' : (k.all (fun c => !bad c) && cleanV bad v && cleanK bad t)
        = true := h
    rw [Bool.and_eq_true, Bool.and_eq_true] at h'
    show (k.all (fun c => !bad c) && cleanV bad (clearV p v) &&
      cleanK bad (clearK p t)) = true
    rw [Bool.and_eq_true, Bool.and_eq_true]
    exact ⟨⟨h'.1.1, cleanV_clearV bad p v h'.1.2⟩, cleanK_clearK bad p t h'.2⟩

end

theorem digit_head_facts (c : Char) (h : c.isDigit = true) :
    c ≠ ',' ∧ c ≠ '}' ∧ c ≠ ']' ∧ jsonWs c = false ∧ pyIsSpace c = false := by
  refine ⟨?_, ?_, ?_, ?_, ?_⟩
  · intro he; subst he; exact absurd h (by decide)
  · intro he; subst he; exact absurd h (by decide)
  · intro he; subst he; exact absurd h (by decide)
  · cases hj : jsonWs c
    · rfl
    · exfalso
      have hj' := hj
      simp only [jsonWs, Bool.or_eq_true, decide_eq_true_eq] at hj'
      rcases hj' with ((h1 | h1) | h1) | h1 <;> subst h1 <;>
        exact absurd h (by decide)
  · cases hj : pyIsSpace c
    · rfl
    · exfalso
      have hj' := hj
      simp only [pyIsSpace, Bool.or_eq_true, decide_eq_true_eq] at hj'
      rcases hj' with ((((h1 | h1) | h1) | h1) | h1) | h1 <;> subst h1 <;>
        exact absurd h (by decide)

theorem numOk_head (l : List Char) (h : numOk l = true) :
    ∃ c t, l = c :: t ∧ (c = '-' ∨ c.isDigit = true) := by
  rcases l with _ | ⟨c, t⟩
  · exact absurd h (by decide)
  · refine ⟨c, t, rfl, ?_⟩
    by_cases hm : c = '-'
    · exact Or.inl hm
    · rw [numOk_cons, if_neg hm] at h
      right
      rcases t with _ | ⟨c2, t2⟩
      · have h' : (if c = '0' then fracOk [] else
            if c.isDigit then fracOk ([].dropWhile Char.isDigit)
            else false) = true := h
        by_cases hc0 : c = '0'
        · subst hc0; decide
        · rw [if_neg hc0] at h'
          by_cases hcd : c.isDigit = true
          · exact hcd
          · rw [if_neg hcd] at h'
            exact Bool.noConfusion h'
      · have h' : (if c = '0' then fracOk (c2 :: t2) else
            if c.isDigit then fracOk ((c2 :: t2).dropWhile Char.isDigit)
            else false) = true := h
        by_cases hc0 : c = '0'
        · subst hc0; decide
        · rw [if_neg hc0] at h'
          by_cases hcd : c.isDigit = true
          · exact hcd
          · rw [if_neg hcd] at h'
            exact Bool.noConfusion h'

theorem serV_head (w : TVal) (h : wfV w = true) :
    ∃ c t, serV w = c :: t ∧ c ≠ ',' ∧ c ≠ '}' ∧ c ≠ ']' ∧
      jsonWs c = false ∧ pyIsSpace c = false := by
  rcases w with _ | b | lit | raw | ⟨tc, xs⟩ | ⟨tc, kvs⟩
  · exact ⟨'n', _, rfl, by decide, by decide, by decide, by decide, by decide⟩
  · rcases b
    · exact ⟨'f', _, rfl, by decide, by decide, by decide, by decide,
        by decide⟩
    · exact ⟨'t', _, rfl, by decide, by decide, by decide, by decide,
        by decide⟩
  · obtain ⟨c, t, he, hc⟩ := numOk_head lit h
    refine ⟨c, t, by rw [show serV (.num lit) = lit from rfl, he], ?_⟩
    rcases hc with hc | hc
    · subst hc
      exact ⟨by decide, by decide, by decide, by decide, by decide⟩
    · obtain ⟨h1, h2, h3, h4, h5⟩ := digit_head_facts c hc
      exact ⟨h1, h2, h3, h4, h5⟩
  · exact ⟨'"', _, rfl, by decide, by decide, by decide, by decide, by decide⟩
  · exact ⟨'[', _, rfl, by decide, by decide, by decide, by decide, by decide⟩
  · exact ⟨'{', _, rfl, by decide, by decide, by decide, by decide, by decide⟩

theorem serK_ends : ∀ (kvs : TKVs) (tc : Bool),
    ∃ a, serK kvs tc = a ++ ['}']
  | .nil, _ => ⟨[], rfl⟩
  | .cons k v .nil, tc => by
    rcases tc
    · exact ⟨'"' :: k ++ '"' :: ':' :: serV v, by simp [serK]⟩
    · exact ⟨'"' :: k ++ '"' :: ':' :: serV v ++ [','], by simp [serK]⟩
  | .cons k v (.cons k2 v2 t), tc => by
    obtain ⟨a, ha⟩ := serK_ends (.cons k2 v2 t) tc
    exact ⟨'"' :: k ++ '"' :: ':' :: serV v ++ ',' :: a,
      by simp [serK, ha]⟩

theorem all_not_bad_notMem (bad : Char → Bool) (l : List Char)
    (h : l.all (fun c => !bad c) = true) (hb : bad '`' = true) :
    '`' ∉ l := by
  intro hm
  have := List.all_eq_true.mp h '`' hm
  rw [hb] at this
  exact Bool.noConfusion this

mutual

theorem serV_no_bt : ∀ (bad : Char → Bool) (w : TVal),
    cleanV bad w = true → bad '`' = true → '`' ∉ serV w
  | _, .null, _, _ => by decide
  | _, .bool b, _, _ => by rcases b <;> decide
  | bad, .num lit, h, hb => all_not_bad_notMem bad lit h hb
  | bad, .str raw, h, hb => by
    have hr := all_not_bad_notMem bad raw h hb
    intro hm
    rcases List.mem_cons.mp hm with he | hm2
    · exact absurd he (by decide)
    · rcases List.mem_append.mp hm2 with hm3 | hm3
      · exact hr hm3
      · simp at hm3
  | bad, .arr tc xs, h, hb => by
    intro hm
    rcases List.mem_cons.mp hm with he | hm2
    · exact absurd he (by decide)
    · exact serL_no_bt bad xs tc h hb hm2
  | bad, .obj tc kvs, h, hb => by
    intro hm
    rcases List.mem_cons.mp hm with he | hm2
    · exact absurd he (by decide)
    · exact serK_no_bt bad kvs tc h hb hm2

theorem serL_no_bt : ∀ (bad : Char → Bool) (xs : TList) (tcA : Bool),
    cleanL bad xs = true → bad '`' = true → '`' ∉ serL xs tcA
  | _, .nil, tcA, _, _ => by rcases tcA <;> decide
  | bad, .cons v .nil, tcA, h, hb => by
    have h' : (cleanV bad v && cleanL bad .nil) = true := h
    rw [Bool.and_eq_true] at h'
    have hv := serV_no_bt bad v h'.1 hb
    intro hm
    have hser : serL (.cons v .nil) tcA
        = serV v ++ (if tcA then [',', ']'] else [']']) := rfl
    rw [hser] at hm
    rcases tcA <;> simp [hv] at hm
  | bad, .cons v (.cons v2 t), tcA, h, hb => by
    have h' : (cleanV bad v && cleanL bad (.cons v2 t)) = true := h
    rw [Bool.and_eq_true] at h'
    have hv := serV_no_bt bad v h'.1 hb
    have ht := serL_no_bt bad (.cons v2 t) tcA h'.2 hb
    intro hm
    have hser : serL (.cons v (.cons v2 t)) tcA
        = serV v ++ ',' :: serL (.cons v2 t) tcA := rfl
    rw [hser] at hm
    simp [hv, ht] at hm

theorem serK_no_bt : ∀ (bad : Char → Bool) (kvs : TKVs) (tcO : Bool),
    cleanK bad kvs = true → bad '`' = true → '`' ∉ serK kvs tcO
  | _, .nil, tcO, _, _ => by rcases tcO <;> decide
  | bad, .cons k v .nil, tcO, h, hb => by
    have h' : (k.all (fun c => !bad c) && cleanV bad v && cleanK bad .nil)
        = true := h
    rw [Bool.and_eq_true, Bool.and_eq_true] at h'
    have hk := all_not_bad_notMem bad k h'.1.1 hb
    have hv := serV_no_bt bad v h'.1.2 hb
    intro hm
    have hser : serK (.cons k v .nil) tcO
        = '"' :: k ++ '"' :: ':' :: serV v ++
          (if tcO then [',', '}'] else ['}']) := rfl
    rw [hser] at hm
    rcases tcO <;> simp [hk, hv] at hm
  | bad, .cons k v (.cons k2 v2 t), tcO, h, hb => by
    have h' : (k.all (fun c => !bad c) && cleanV bad v &&
        cleanK bad (.cons k2 v2 t)) = true := h
    rw [Bool.and_eq_true, Bool.and_eq_true] at h'
    have hk := all_not_bad_notMem bad k h'.1.1 hb
    have hv := serV_no_bt bad v h'.1.2 hb
    have ht := serK_no_bt bad (.cons k2 v2 t) tcO h'.2 hb
    intro hm
    have hser : serK (.cons k v (.cons k2 v2 t)) tcO
        = '"' :: k ++ '"' :: ':' :: serV v ++
          ',' :: serK (.cons k2 v2 t) tcO := rfl
    rw [hser] at hm
    simp [hk, hv, ht] at hm

end

theorem braceScan_cons (c : Char) (rest : List Char) (d : Int) (pos : Nat) :
    braceScan (c :: rest) d pos =
      (if c = '{' then braceScan rest (d + 1) (pos + 1)
       else if c = '}' then
         (if d - 1 = 0 then some pos else braceScan rest (d - 1) (pos + 1))
       else braceScan rest d (pos + 1)) := by
  rw [braceScan.eq_def]

theorem braceScan_step (c : Char) (rest : List Char) (d : Int) (pos : Nat)
    (h1 : c ≠ '{') (h2 : c ≠ '}') :
    braceScan (c :: rest) d pos = braceScan rest d (pos + 1) := by
  rw [braceScan_cons, if_neg h1, if_neg h2]

theorem braceScan_skip (a : List Char) (h : ∀ c ∈ a, c ≠ '{' ∧ c ≠ '}') :
    ∀ (rest : List Char) (d : Int) (pos : Nat),
      braceScan (a ++ rest) d pos = braceScan rest d (pos + a.length) := by
  induction a with
  | nil => intro rest d pos; simp
  | cons c a ih =>
    intro rest d pos
    have hc := h c (by simp)
    rw [List.cons_append, braceScan_step c _ d pos hc.1 hc.2,
      ih (fun x hx => h x (by simp [hx])) rest d (pos + 1)]
    congr 1
    simp
    omega

theorem all_not_bad_braces (bad : Char → Bool) (l : List Char)
    (h : l.all (fun c => !bad c) = true) (hb1 : bad '{' = true)
    (hb2 : bad '}' = true) :
    ∀ c ∈ l, c ≠ '{' ∧ c ≠ '}' := by
  intro c hm
  have hc := List.all_eq_true.mp h c hm
  constructor <;> intro he <;> subst he
  · rw [hb1] at hc; exact Bool.noConfusion hc
  · rw [hb2] at hc; exact Bool.noConfusion hc

mutual

theorem braceScan_serV : ∀ (bad : Char → Bool) (w : TVal),
    cleanV bad w = true → bad '\x7b' = true → bad '\x7d' = true →
    ∀ (rest : List Char) (d : Int) (pos : Nat), 1 ≤ d →
      braceScan (serV w ++ rest) d pos
        = braceScan rest d (pos + (serV w).length)
  | bad, .null, h, hb1, hb2 => by
    intro rest d pos hd
    exact braceScan_skip ['n', 'u', 'l', 'l'] (by decide) rest d pos
  | bad, .bool b, h, hb1, hb2 => by
    intro rest d pos hd
    rcases b
    · exact braceScan_skip ['f', 'a', 'l', 's', 'e'] (by decide) rest d pos
    · exact braceScan_skip ['t', 'r', 'u', 'e'] (by decide) rest d pos
  | bad, .num lit, h, hb1, hb2 => by
    intro rest d pos hd
    exact braceScan_skip lit (all_not_bad_braces bad lit h hb1 hb2) rest d pos
  | bad, .str raw, h, hb1, hb2 => by
    intro rest d pos hd
    have hchars : ∀ c ∈ ('"' :: raw) ++ ['"'], c ≠ '\x7b' ∧ c ≠ '\x7d' := by
      intro c hm
      rcases List.mem_append.mp hm with hm1 | hm1
      · rcases List.mem_cons.mp hm1 with he | hm2
        · subst he
          exact ⟨by decide, by decide⟩
        · exact all_not_bad_braces bad raw h hb1 hb2 c hm2
      · simp at hm1
        subst hm1
        exact ⟨by decide, by decide⟩
    exact braceScan_skip (('"' :: raw) ++ ['"']) hchars rest d pos
  | bad, .arr tc xs, h, hb1, hb2 => by
    intro rest d pos hd
    rw [show serV (.arr tc xs) = '[' :: serL xs tc from rfl, List.cons_append,
      braceScan_step '[' _ d pos (by decide) (by decide),
      braceScan_serL bad xs tc h hb1 hb2 rest d (pos + 1) hd]
    congr 1
    simp
    omega
  | bad, .obj tc kvs, h, hb1, hb2 => by
    intro rest d pos hd
    rw [show serV (.obj tc kvs) = '\x7b' :: serK kvs tc from rfl,
      List.cons_append, braceScan_cons, if_pos rfl,
      braceScan_serK bad kvs tc h hb1 hb2 rest (d + 1) (pos + 1) (by omega),
      if_neg (show ¬(d + 1 = 1) by omega)]
    have he : d + 1 - 1 = d := by omega
    rw [he]
    congr 1
    simp
    omega

theorem braceScan_serL : ∀ (bad : Char → Bool) (xs : TList) (tcA : Bool),
    cleanL bad xs = true → bad '\x7b' = true → bad '\x7d' = true →
    ∀ (rest : List Char) (d : Int) (pos : Nat), 1 ≤ d →
      braceScan (serL xs tcA ++ rest) d pos
        = braceScan rest d (pos + (serL xs tcA).length)
  | bad, .nil, tcA, h, hb1, hb2 => by
    intro rest d pos hd
    exact braceScan_skip [']'] (by decide) rest d pos
  | bad, .cons v .nil, tcA, h, hb1, hb2 => by
    intro rest d pos hd
    have h' : (cleanV bad v && cleanL bad .nil) = true := h
    rw [Bool.and_eq_true] at h'
    rcases tcA
    · rw [show serL (.cons v .nil) false = serV v ++ [']'] from rfl,
        List.append_assoc,
        braceScan_serV bad v h'.1 hb1 hb2 _ d pos hd,
        show ([']'] ++ rest : List Char) = ']' :: rest from rfl,
        braceScan_step ']' _ _ _ (by decide) (by decide)]
      congr 1
      simp
      omega
    · rw [show serL (.cons v .nil) true = serV v ++ [',', ']'] from rfl,
        List.append_assoc,
        braceScan_serV bad v h'.1 hb1 hb2 _ d pos hd,
        show ([',', ']'] ++ rest : List Char) = ',' :: ']' :: rest from rfl,
        braceScan_step ',' _ _ _ (by decide) (by decide),
        braceScan_step ']' _ _ _ (by decide) (by decide)]
      congr 1
      simp
      omega
  | bad, .cons v (.cons v2 t), tcA, h, hb1, hb2 => by
    intro rest d pos hd
    have h' : (cleanV bad v && cleanL bad (.cons v2 t)) = true := h
    rw [Bool.and_eq_true] at h'
    rw [show serL (.cons v (.cons v2 t)) tcA
        = serV v ++ ',' :: serL (.cons v2 t) tcA from rfl,
      List.append_assoc,
      braceScan_serV bad v h'.1 hb1 hb2 _ d pos hd,
      List.cons_append,
      braceScan_step ',' _ _ _ (by decide) (by decide),
      braceScan_serL bad (.cons v2 t) tcA h'.2 hb1 hb2 rest d _ hd]
    congr 1
    simp
    omega

theorem braceScan_serK : ∀ (bad : Char → Bool) (kvs : TKVs) (tcO : Bool),
    cleanK bad kvs = true → bad '\x7b' = true → bad '\x7d' = true →
    ∀ (rest : List Char) (d : Int) (pos : Nat), 1 ≤ d →
      braceScan (serK kvs tcO ++ rest) d pos
        = (if d = 1 then some (pos + (serK kvs tcO).length - 1)
           else braceScan rest (d - 1) (pos + (serK kvs tcO).length))
  | bad, .nil, tcO, h, hb1, hb2 => by
    intro rest d pos hd
    rw [show serK .nil tcO = ['\x7d'] from rfl,
      show (['\x7d'] ++ rest : List Char) = '\x7d' :: rest from rfl,
      braceScan_cons, if_neg (show ¬('\x7d' : Char) = '\x7b' by decide),
      if_pos rfl]
    by_cases hd1 : d = 1
    · rw [if_pos (show d - 1 = 0 by omega), if_pos hd1]
      norm_num
    · rw [if_neg (show ¬(d - 1 = 0) by omega), if_neg hd1]
      rfl
  | bad, .cons k v .nil, tcO, h, hb1, hb2 => by
    intro rest d pos hd
    have h' : (k.all (fun c => !bad c) && cleanV bad v && cleanK bad .nil)
        = true := h
    rw [Bool.and_eq_true, Bool.and_eq_true] at h'
    rcases tcO
    · rw [show serK (.cons k v .nil) false
          = (('"' :: k) ++ ('"' :: ':' :: serV v)) ++ ['\x7d'] from rfl]
      simp only [List.append_assoc, List.cons_append, List.nil_append]
      rw [braceScan_step '"' _ _ _ (by decide) (by decide),
        braceScan_skip k (all_not_bad_braces bad k h'.1.1 hb1 hb2),
        braceScan_step '"' _ _ _ (by decide) (by decide),
        braceScan_step ':' _ _ _ (by decide) (by decide),
        braceScan_serV bad v h'.1.2 hb1 hb2 _ d _ hd,
        braceScan_cons, if_neg (show ¬('\x7d' : Char) = '\x7b' by decide),
        if_pos rfl]
      by_cases hd1 : d = 1
      · rw [if_pos (show d - 1 = 0 by omega), if_pos hd1]
        congr 1
        simp only [List.length_append, List.length_cons, List.length_nil]
        omega
      · rw [if_neg (show ¬(d - 1 = 0) by omega), if_neg hd1]
        congr 1
        simp only [List.length_append, List.length_cons, List.length_nil]
        omega
    · rw [show serK (.cons k v .nil) true
          = (('"' :: k) ++ ('"' :: ':' :: serV v)) ++ [',', '\x7d'] from rfl]
      simp only [List.append_assoc, List.cons_append, List.nil_append]
      rw [braceScan_step '"' _ _ _ (by decide) (by decide),
        braceScan_skip k (all_not_bad_braces bad k h'.1.1 hb1 hb2),
        braceScan_step '"' _ _ _ (by decide) (by decide),
        braceScan_step ':' _ _ _ (by decide) (by decide),
        braceScan_serV bad v h'.1.2 hb1 hb2 _ d _ hd,
        braceScan_step ',' _ _ _ (by decide) (by decide),
        braceScan_cons, if_neg (show ¬('\x7d' : Char) = '\x7b' by decide),
        if_pos rfl]
      by_cases hd1 : d = 1
      · rw [if_pos (show d - 1 = 0 by omega), if_pos hd1]
        congr 1
        simp only [List.length_append, List.length_cons, List.length_nil]
        omega
      · rw [if_neg (show ¬(d - 1 = 0) by omega), if_neg hd1]
        congr 1
        simp only [List.length_append, List.length_cons, List.length_nil]
        omega
  | bad, .cons k v (.cons k2 v2 t), tcO, h, hb1, hb2 => by
    intro rest d pos hd
    have h' : (k.all (fun c => !bad c) && cleanV bad v &&
        cleanK bad (.cons k2 v2 t)) = true := h
    rw [Bool.and_eq_true, Bool.and_eq_true] at h'
    rw [show serK (.cons k v (.cons k2 v2 t)) tcO
        = (('"' :: k) ++ ('"' :: ':' :: serV v))
          ++ (',' :: serK (.cons k2 v2 t) tcO) from rfl]
    simp only [List.append_assoc, List.cons_append, List.nil_append]
    rw [braceScan_step '"' _ _ _ (by decide) (by decide),
      braceScan_skip k (all_not_bad_braces bad k h'.1.1 hb1 hb2),
      braceScan_step '"' _ _ _ (by decide) (by decide),
      braceScan_step ':' _ _ _ (by decide) (by decide),
      braceScan_serV bad v h'.1.2 hb1 hb2 _ d _ hd,
      braceScan_step ',' _ _ _ (by decide) (by decide),
      braceScan_serK bad (.cons k2 v2 t) tcO h'.2 hb1 hb2 rest d _ hd]
    by_cases hd1 : d = 1
    · rw [if_pos hd1, if_pos hd1]
      congr 1
      have hk1 : 1 ≤ (serK (.cons k2 v2 t) tcO).length := by
        obtain ⟨a, ha⟩ := serK_ends (.cons k2 v2 t) tcO
        rw [ha]
        simp
      simp only [List.length_append, List.length_cons, List.length_nil]
      omega
    · rw [if_neg hd1, if_neg hd1]
      congr 1
      simp only [List.length_append, List.length_cons, List.length_nil]
      omega

end

theorem braceExtract_cons_brace (t : List Char) :
    braceExtract ('\x7b' :: t) =
      (match braceScan ('\x7b' :: t) 0 0 with
       | some i => ('\x7b' :: t).take (i + 1)
       | none => '\x7b' :: t) := by
  unfold braceExtract
  rw [show List.findIdx? (fun c => c = '\x7b') ('\x7b' :: t) = some 0 from rfl]
  rfl

theorem braceExtract_ser (bad : Char → Bool) (tc : Bool) (kvs : TKVs)
    (h : cleanK bad kvs = true) (hb1 : bad '\x7b' = true)
    (hb2 : bad '\x7d' = true) (rest : List Char) :
    braceExtract (('\x7b' :: serK kvs tc) ++ rest) = '\x7b' :: serK kvs tc := by
  have hk1 : 1 ≤ (serK kvs tc).length := by
    obtain ⟨a, ha⟩ := serK_ends kvs tc
    rw [ha]
    simp
  have hscan : braceScan (serK kvs tc ++ rest) (0 + 1) (0 + 1)
      = some ((serK kvs tc).length) := by
    rw [braceScan_serK bad kvs tc h hb1 hb2 rest (0 + 1) (0 + 1) (by omega),
      if_pos (show (0 : Int) + 1 = 1 by norm_num)]
    congr 1
    omega
  rw [List.cons_append, braceExtract_cons_brace, braceScan_cons, if_pos rfl,
    hscan]
  show ('\x7b' :: (serK kvs tc ++ rest)).take ((serK kvs tc).length + 1)
    = '\x7b' :: serK kvs tc
  rw [List.take_succ_cons, List.take_left]

/-- Delimiter condition under which `parseNumLit` stops exactly at the end
of the literal. -/
def numDelim : List Char → Prop
  | [] => True
  | c :: _ => c.isDigit = false ∧ c ≠ '.' ∧ c ≠ 'e' ∧ c ≠ 'E'

/-- The delimiter condition, needed only when the value is a bare number. -/
def valDelim : TVal → List Char → Prop
  | .num _, rest => numDelim rest
  | _, _ => True

theorem valDelim_of_head (w : TVal) (c : Char) (X : List Char)
    (h1 : c.isDigit = false) (h2 : c ≠ '.') (h3 : c ≠ 'e') (h4 : c ≠ 'E') :
    valDelim w (c :: X) := by
  rcases w with _ | b | lit | raw | ⟨tc, xs⟩ | ⟨tc, kvs⟩ <;>
    first
      | exact trivial
      | exact ⟨h1, h2, h3, h4⟩

theorem parseVal_null (b : Bool) (fuel : Nat) (rest : List Char) :
    parseVal b (fuel + 1) ('n' :: 'u' :: 'l' :: 'l' :: rest)
      = some (.null, rest) := by
  rw [parseVal.eq_def]
  have h1 : skipWs ('n' :: 'u' :: 'l' :: 'l' :: rest)
      = 'n' :: 'u' :: 'l' :: 'l' :: rest := skipWs_cons _ _ (by decide)
  simp [h1]

theorem parseVal_btrue (b : Bool) (fuel : Nat) (rest : List Char) :
    parseVal b (fuel + 1) ('t' :: 'r' :: 'u' :: 'e' :: rest)
      = some (.bool true, rest) := by
  rw [parseVal.eq_def]
  have h1 : skipWs ('t' :: 'r' :: 'u' :: 'e' :: rest)
      = 't' :: 'r' :: 'u' :: 'e' :: rest := skipWs_cons _ _ (by decide)
  simp [h1]

theorem parseVal_bfalse (b : Bool) (fuel : Nat) (rest : List Char) :
    parseVal b (fuel + 1) ('f' :: 'a' :: 'l' :: 's' :: 'e' :: rest)
      = some (.bool false, rest) := by
  rw [parseVal.eq_def]
  have h1 : skipWs ('f' :: 'a' :: 'l' :: 's' :: 'e' :: rest)
      = 'f' :: 'a' :: 'l' :: 's' :: 'e' :: rest := skipWs_cons _ _ (by decide)
  simp [h1]

theorem parseVal_str_rt (b : Bool) (fuel : Nat) (raw rest : List Char)
    (h : strOk raw = true) :
    parseVal b (fuel + 1) ('"' :: (raw ++ '"' :: rest))
      = some (.str raw, rest) := by
  rw [parseVal.eq_def]
  have h1 : skipWs ('"' :: (raw ++ '"' :: rest))
      = '"' :: (raw ++ '"' :: rest) := skipWs_cons _ _ (by decide)
  have h2 := scanStringRaw_rt raw rest h
  simp [h1, h2]

theorem num_head_not_special (c : Char) (h : c = '-' ∨ c.isDigit = true) :
    jsonWs c = false ∧ ¬c = '\x7b' ∧ ¬c = '[' ∧ ¬c = '"' ∧ ¬c = 't' ∧
      ¬c = 'f' ∧ ¬c = 'n' := by
  rcases h with h | h
  · subst h
    exact ⟨by decide, by decide, by decide, by decide, by decide, by decide,
      by decide⟩
  · refine ⟨(digit_head_facts c h).2.2.2.1, ?_, ?_, ?_, ?_, ?_, ?_⟩ <;>
      intro he <;> subst he <;> exact absurd h (by decide)

theorem numDelim_shape (rest : List Char) (h : numDelim rest) :
    rest = [] ∨ ∃ r0 rt, rest = r0 :: rt ∧ r0.isDigit = false ∧
      r0 ≠ '.' ∧ r0 ≠ 'e' ∧ r0 ≠ 'E' := by
  rcases rest with _ | ⟨r0, rt⟩
  · exact Or.inl rfl
  · obtain ⟨h1, h2, h3, h4⟩ := h
    exact Or.inr ⟨r0, rt, rfl, h1, h2, h3, h4⟩

theorem parseNumLit_rt_full (lit rest : List Char) (h : numOk lit = true)
    (hd : numDelim rest) :
    parseNumLit (lit ++ rest) = some (lit, rest) := by
  obtain ⟨neg, ip, fp, he, hneg, hip, hfp⟩ := numOk_decomp lit h
  subst he
  exact parseNumLit_rt neg ip fp rest hneg hip hfp (numDelim_shape rest hd)

theorem parseVal_num_rt (b : Bool) (fuel : Nat) (lit rest : List Char)
    (h : numOk lit = true) (hd : numDelim rest) :
    parseVal b (fuel + 1) (lit ++ rest) = some (.num lit, rest) := by
  obtain ⟨c, t0, he, hc⟩ := numOk_head lit h
  obtain ⟨hws, h1, h2, h3, h4, h5, h6⟩ := num_head_not_special c hc
  subst he
  rw [List.cons_append, parseVal.eq_def]
  have hsk : skipWs (c :: (t0 ++ rest)) = c :: (t0 ++ rest) :=
    skipWs_cons _ _ hws
  have hnum : parseNumLit (c :: (t0 ++ rest)) = some (c :: t0, rest) := by
    rw [show c :: (t0 ++ rest) = (c :: t0) ++ rest from rfl]
    exact parseNumLit_rt_full (c :: t0) rest h hd
  simp [hsk, h1, h2, h3, h4, h5, h6, hnum]

theorem parseVal_rbracket (b : Bool) (fuel : Nat) (rest : List Char) :
    parseVal b fuel (']' :: rest) = none := by
  cases fuel with
  | zero => rfl
  | succ g =>
    rw [parseVal.eq_def]
    have h1 : skipWs (']' :: rest) = ']' :: rest := skipWs_cons _ _ (by decide)
    simp [h1, parseNumLit]

theorem parseArrBody_rbracket (b : Bool) (fuel : Nat) (rest : List Char)
    (acc : List JVal) :
    parseArrBody b fuel (']' :: rest) acc = none := by
  cases fuel with
  | zero => rfl
  | succ g =>
    rw [parseArrBody.eq_def]
    simp [parseVal_rbracket]

theorem parseObjBody_rbrace (b : Bool) (fuel : Nat) (rest : List Char)
    (acc : List (List Char × JVal)) :
    parseObjBody b fuel ('\x7d' :: rest) acc = none := by
  cases fuel with
  | zero => rfl
  | succ g =>
    rw [parseObjBody.eq_def]
    have h1 : skipWs ('\x7d' :: rest) = '\x7d' :: rest :=
      skipWs_cons _ _ (by decide)
    simp [h1]

theorem hasTCV_arr (tc : Bool) (xs : TList) :
    hasTCV (.arr tc xs) = (tc || hasTCL xs) := rfl

theorem hasTCV_obj (tc : Bool) (kvs : TKVs) :
    hasTCV (.obj tc kvs) = (tc || hasTCK kvs) := rfl

theorem hasTCL_nil : hasTCL .nil = false := rfl

theorem hasTCL_cons (v : TVal) (t : TList) :
    hasTCL (.cons v t) = (hasTCV v || hasTCL t) := rfl

theorem hasTCK_nil : hasTCK .nil = false := rfl

theorem hasTCK_cons (k : List Char) (v : TVal) (t : TKVs) :
    hasTCK (.cons k v t) = (hasTCV v || hasTCK t) := rfl

theorem eraseV_arr (tc : Bool) (xs : TList) :
    eraseV (.arr tc xs) = .arr (eraseL xs) := rfl

theorem eraseV_obj (tc : Bool) (kvs : TKVs) :
    eraseV (.obj tc kvs) = .obj (eraseK kvs) := rfl

theorem eraseL_nil : eraseL .nil = [] := rfl

theorem eraseL_cons (v : TVal) (t : TList) :
    eraseL (.cons v t) = eraseV v :: eraseL t := rfl

theorem eraseK_nil : eraseK .nil = [] := rfl

theorem eraseK_cons (k : List Char) (v : TVal) (t : TKVs) :
    eraseK (.cons k v t) = (k, eraseV v) :: eraseK t := rfl

theorem wfL_cons (v : TVal) (t : TList) :
    wfL (.cons v t) = (wfV v && wfL t) := rfl

theorem wfK_cons (k : List Char) (v : TVal) (t : TKVs) :
    wfK (.cons k v t) = (strOk k && wfV v && wfK t) := rfl

theorem sizeV_arr (tc : Bool) (xs : TList) :
    sizeV (.arr tc xs) = 1 + sizeL xs := rfl

theorem sizeV_obj (tc : Bool) (kvs : TKVs) :
    sizeV (.obj tc kvs) = 1 + sizeK kvs := rfl

theorem sizeL_cons (v : TVal) (t : TList) :
    sizeL (.cons v t) = 1 + sizeV v + sizeL t := rfl

theorem sizeK_cons (k : List Char) (v : TVal) (t : TKVs) :
    sizeK (.cons k v t) = 1 + sizeV v + sizeK t := rfl

theorem serV_str (raw : List Char) : serV (.str raw) = ('"' :: raw) ++ ['"'] :=
  rfl

theorem serV_arr (tc : Bool) (xs : TList) :
    serV (.arr tc xs) = '[' :: serL xs tc := rfl

theorem serV_obj (tc : Bool) (kvs : TKVs) :
    serV (.obj tc kvs) = '\x7b' :: serK kvs tc := rfl

theorem serL_nil (tc : Bool) : serL .nil tc = [']'] := rfl

theorem serL_single (v : TVal) (tc : Bool) :
    serL (.cons v .nil) tc = serV v ++ (if tc then [',', ']'] else [']']) :=
  rfl

theorem serL_cons2 (v v2 : TVal) (t : TList) (tc : Bool) :
    serL (.cons v (.cons v2 t)) tc
      = serV v ++ ',' :: serL (.cons v2 t) tc := rfl

theorem serK_nil (tc : Bool) : serK .nil tc = ['\x7d'] := rfl

theorem serK_single (k : List Char) (v : TVal) (tc : Bool) :
    serK (.cons k v .nil) tc
      = (('"' :: k) ++ ('"' :: ':' :: serV v))
        ++ (if tc then [',', '\x7d'] else ['\x7d']) := rfl

theorem serK_cons2 (k : List Char) (v : TVal) (k2 : List Char) (v2 : TVal)
    (t : TKVs) (tc : Bool) :
    serK (.cons k v (.cons k2 v2 t)) tc
      = (('"' :: k) ++ ('"' :: ':' :: serV v))
        ++ (',' :: serK (.cons k2 v2 t) tc) := rfl

mutual

theorem parseVal_ser : ∀ (w : TVal) (b : Bool) (fuel : Nat)
    (rest : List Char), wfV w = true → sizeV w < fuel → valDelim w rest →
    parseVal b fuel (serV w ++ rest)
      = if (hasTCV w && !b) then none else some (eraseV w, rest)
  | .null, b, fuel, rest, h, hf, hd => by
    cases fuel with
    | zero => exact absurd hf (Nat.not_lt_zero _)
    | succ g =>
      rw [show serV TVal.null ++ rest = 'n' :: 'u' :: 'l' :: 'l' :: rest
          from rfl, parseVal_null]
      rfl
  | .bool bb, b, fuel, rest, h, hf, hd => by
    cases fuel with
    | zero => exact absurd hf (Nat.not_lt_zero _)
    | succ g =>
      rcases bb
      · rw [show serV (TVal.bool false) ++ rest
            = 'f' :: 'a' :: 'l' :: 's' :: 'e' :: rest from rfl, parseVal_bfalse]
        rfl
      · rw [show serV (TVal.bool true) ++ rest
            = 't' :: 'r' :: 'u' :: 'e' :: rest from rfl, parseVal_btrue]
        rfl
  | .num lit, b, fuel, rest, h, hf, hd => by
    cases fuel with
    | zero => exact absurd hf (Nat.not_lt_zero _)
    | succ g => exact parseVal_num_rt b g lit rest h hd
  | .str raw, b, fuel, rest, h, hf, hd => by
    cases fuel with
    | zero => exact absurd hf (Nat.not_lt_zero _)
    | succ g =>
      rw [show serV (TVal.str raw) ++ rest = '"' :: (raw ++ '"' :: rest)
          from by rw [serV_str]; simp]
      exact parseVal_str_rt b g raw rest h
  | .arr tc .nil, b, fuel, rest, h, hf, hd => by
    cases fuel with
    | zero => exact absurd hf (Nat.not_lt_zero _)
    | succ g =>
      have htc : tc = false := by
        rw [wfV_arr] at h
        simp at h
        exact h.1
      subst htc
      rw [show serV (TVal.arr false TList.nil) ++ rest = '[' :: ']' :: rest
          from rfl, parseVal.eq_def]
      have h1 : skipWs ('[' :: ']' :: rest) = '[' :: ']' :: rest :=
        skipWs_cons _ _ (by decide)
      have h2 : skipWs (']' :: rest) = ']' :: rest :=
        skipWs_cons _ _ (by decide)
      simp [h1, h2, hasTCV_arr, hasTCL_nil, eraseV_arr, eraseL_nil]
  | .arr tc (.cons v t), b, fuel, rest, h, hf, hd => by
    cases fuel with
    | zero => exact absurd hf (Nat.not_lt_zero _)
    | succ g =>
      have hwl : wfL (.cons v t) = true := by
        rw [wfV_arr] at h
        simpa using h
      have hwv : wfV v = true := by
        have h2 : (wfV v && wfL t) = true := hwl
        rw [Bool.and_eq_true] at h2
        exact h2.1
      obtain ⟨c0, t0, hse, hcm, hrb, hrs, hjw, hpy⟩ := serV_head v hwv
      obtain ⟨tail, htail⟩ : ∃ tail, serL (.cons v t) tc = serV v ++ tail := by
        rcases t with _ | ⟨v2, t2⟩
        · exact ⟨(if tc then [',', ']'] else [']']), rfl⟩
        · exact ⟨',' :: serL (.cons v2 t2) tc, rfl⟩
      have hskA : skipWs (serL (.cons v t) tc ++ rest)
          = c0 :: (t0 ++ (tail ++ rest)) := by
        rw [htail, List.append_assoc, hse, List.cons_append,
          skipWs_cons _ _ hjw]
      rw [show serV (TVal.arr tc (TList.cons v t)) ++ rest
          = '[' :: (serL (TList.cons v t) tc ++ rest) from by
            rw [serV_arr]; simp, parseVal.eq_def]
      have h1 : skipWs ('[' :: (serL (TList.cons v t) tc ++ rest))
          = '[' :: (serL (TList.cons v t) tc ++ rest) :=
        skipWs_cons _ _ (by decide)
      simp only [h1]
      show (if '[' = '\x7b' then
          (match skipWs (serL (TList.cons v t) tc ++ rest) with
           | '\x7d' :: rest2 => some (JVal.obj [], rest2)
           | _ => parseObjBody b g (serL (TList.cons v t) tc ++ rest) [])
        else if '[' = '[' then
          (match skipWs (serL (TList.cons v t) tc ++ rest) with
           | ']' :: rest2 => some (JVal.arr [], rest2)
           | _ => parseArrBody b g (serL (TList.cons v t) tc ++ rest) [])
        else if '[' = '"' then
          (match scanStringRaw (serL (TList.cons v t) tc ++ rest) with
           | some (r, rest2) => some (JVal.str r, rest2)
           | none => none)
        else if '[' = 't' then
          (match serL (TList.cons v t) tc ++ rest with
           | 'r' :: 'u' :: 'e' :: rest2 => some (JVal.bool true, rest2)
           | _ => none)
        else if '[' = 'f' then
          (match serL (TList.cons v t) tc ++ rest with
           | 'a' :: 'l' :: 's' :: 'e' :: rest2 => some (JVal.bool false, rest2)
           | _ => none)
        else if '[' = 'n' then
          (match serL (TList.cons v t) tc ++ rest with
           | 'u' :: 'l' :: 'l' :: rest2 => some (JVal.null, rest2)
           | _ => none)
        else
          (match parseNumLit ('[' :: (serL (TList.cons v t) tc ++ rest)) with
           | some (lit, rest2) => some (JVal.num lit, rest2)
           | none => none))
        = if (hasTCV (TVal.arr tc (TList.cons v t)) && !b) then none
          else some (eraseV (TVal.arr tc (TList.cons v t)), rest)
      rw [if_neg (by decide), if_pos rfl]
      rw [hskA]
      split
      · rename_i r2 heq
        injection heq with he1 he2
        exact absurd he1 hrs
      · rw [parseArrBody_ser v t tc b g rest [] hwl
          (by rw [sizeV_arr] at hf; omega)]
        simp [hasTCV_arr, eraseV_arr]
  | .obj tc .nil, b, fuel, rest, h, hf, hd => by
    cases fuel with
    | zero => exact absurd hf (Nat.not_lt_zero _)
    | succ g =>
      have htc : tc = false := by
        rw [wfV_obj] at h
        simp at h
        exact h.1
      subst htc
      rw [show serV (TVal.obj false TKVs.nil) ++ rest
          = '\x7b' :: '\x7d' :: rest from rfl, parseVal.eq_def]
      have h1 : skipWs ('\x7b' :: '\x7d' :: rest)
          = '\x7b' :: '\x7d' :: rest := skipWs_cons _ _ (by decide)
      have h2 : skipWs ('\x7d' :: rest) = '\x7d' :: rest :=
        skipWs_cons _ _ (by decide)
      simp [h1, h2, hasTCV_obj, hasTCK_nil, eraseV_obj, eraseK_nil]
  | .obj tc (.cons k v t), b, fuel, rest, h, hf, hd => by
    cases fuel with
    | zero => exact absurd hf (Nat.not_lt_zero _)
    | succ g =>
      have hwk : wfK (.cons k v t) = true := by
        rw [wfV_obj] at h
        simpa using h
      obtain ⟨Z, hZ⟩ : ∃ Z, serK (.cons k v t) tc ++ rest = '"' :: Z := by
        rcases t with _ | ⟨k2, v2, t2⟩
        · exact ⟨k ++ '"' :: ':' :: (serV v ++
            ((if tc then [',', '\x7d'] else ['\x7d']) ++ rest)),
            by rw [serK_single]; simp⟩
        · exact ⟨k ++ '"' :: ':' :: (serV v ++
            (',' :: (serK (.cons k2 v2 t2) tc ++ rest))),
            by rw [serK_cons2]; simp⟩
      have hskK : skipWs (serK (.cons k v t) tc ++ rest) = '"' :: Z := by
        rw [hZ]
        exact skipWs_cons _ _ (by decide)
      rw [show serV (TVal.obj tc (TKVs.cons k v t)) ++ rest
          = '\x7b' :: (serK (TKVs.cons k v t) tc ++ rest) from by
            rw [serV_obj]; simp, parseVal.eq_def]
      have h1 : skipWs ('\x7b' :: (serK (TKVs.cons k v t) tc ++ rest))
          = '\x7b' :: (serK (TKVs.cons k v t) tc ++ rest) :=
        skipWs_cons _ _ (by decide)
      simp only [h1]
      show (if '\x7b' = '\x7b' then
          (match skipWs (serK (TKVs.cons k v t) tc ++ rest) with
           | '\x7d' :: rest2 => some (JVal.obj [], rest2)
           | _ => parseObjBody b g (serK (TKVs.cons k v t) tc ++ rest) [])
        else if '\x7b' = '[' then
          (match skipWs (serK (TKVs.cons k v t) tc ++ rest) with
           | ']' :: rest2 => some (JVal.arr [], rest2)
           | _ => parseArrBody b g (serK (TKVs.cons k v t) tc ++ rest) [])
        else if '\x7b' = '"' then
          (match scanStringRaw (serK (TKVs.cons k v t) tc ++ rest) with
           | some (r, rest2) => some (JVal.str r, rest2)
           | none => none)
        else if '\x7b' = 't' then
          (match serK (TKVs.cons k v t) tc ++ rest with
           | 'r' :: 'u' :: 'e' :: rest2 => some (JVal.bool true, rest2)
           | _ => none)
        else if '\x7b' = 'f' then
          (match serK (TKVs.cons k v t) tc ++ rest with
           | 'a' :: 'l' :: 's' :: 'e' :: rest2 => some (JVal.bool false, rest2)
           | _ => none)
        else if '\x7b' = 'n' then
          (match serK (TKVs.cons k v t) tc ++ rest with
           | 'u' :: 'l' :: 'l' :: rest2 => some (JVal.null, rest2)
           | _ => none)
        else
          (match parseNumLit ('\x7b' ::
              (serK (TKVs.cons k v t) tc ++ rest)) with
           | some (lit, rest2) => some (JVal.num lit, rest2)
           | none => none))
        = if (hasTCV (TVal.obj tc (TKVs.cons k v t)) && !b) then none
          else some (eraseV (TVal.obj tc (TKVs.cons k v t)), rest)
      rw [if_pos rfl, hskK]
      show parseObjBody b g (serK (TKVs.cons k v t) tc ++ rest) [] = _
      rw [parseObjBody_ser k v t tc b g rest [] hwk
        (by rw [sizeV_obj] at hf; omega)]
      simp [hasTCV_obj, eraseV_obj]
termination_by w b fuel rest h hf hd => sizeOf w

theorem parseArrBody_ser : ∀ (v : TVal) (t : TList) (tcA b : Bool)
    (fuel : Nat) (rest : List Char) (acc : List JVal),
    wfL (.cons v t) = true → sizeL (.cons v t) < fuel →
    parseArrBody b fuel (serL (.cons v t) tcA ++ rest) acc
      = if ((tcA || hasTCL (.cons v t)) && !b) then none
        else some (.arr (acc ++ eraseL (.cons v t)), rest)
  | v, .nil, tcA, b, fuel, rest, acc, h, hf => by
    cases fuel with
    | zero => exact absurd hf (Nat.not_lt_zero _)
    | succ g =>
      have hwv : wfV v = true := by
        have h2 : (wfV v && wfL .nil) = true := h
        rw [Bool.and_eq_true] at h2
        exact h2.1
      rcases tcA
      · rw [show serL (TList.cons v TList.nil) false ++ rest
            = serV v ++ (']' :: rest) from by rw [serL_single]; simp,
          parseArrBody.eq_def]
        have hv := parseVal_ser v b g (']' :: rest) hwv
          (by rw [sizeL_cons] at hf; omega)
          (valDelim_of_head v ']' rest (by decide) (by decide) (by decide)
            (by decide))
        cases hvb : (hasTCV v && !b) with
        | true =>
          have hvn : parseVal b g (serV v ++ (']' :: rest)) = none := by
            rw [hv, hvb, if_pos rfl]
          rw [Bool.and_eq_true] at hvb
          simp [hvn, hasTCL_cons, hasTCL_nil, hvb.1, hvb.2]
        | false =>
          have hvs : parseVal b g (serV v ++ (']' :: rest))
              = some (eraseV v, ']' :: rest) := by
            rw [hv, hvb, if_neg (by simp)]
          have hsk : skipWs (']' :: rest) = ']' :: rest :=
            skipWs_cons _ _ (by decide)
          simp [hvs, hsk, hasTCL_cons, hasTCL_nil, eraseL_cons, eraseL_nil,
            hvb]
      · rw [show serL (TList.cons v TList.nil) true ++ rest
            = serV v ++ (',' :: ']' :: rest) from by rw [serL_single]; simp,
          parseArrBody.eq_def]
        have hv := parseVal_ser v b g (',' :: ']' :: rest) hwv
          (by rw [sizeL_cons] at hf; omega)
          (valDelim_of_head v ',' _ (by decide) (by decide) (by decide)
            (by decide))
        cases hvb : (hasTCV v && !b) with
        | true =>
          have hvn : parseVal b g (serV v ++ (',' :: ']' :: rest)) = none := by
            rw [hv, hvb, if_pos rfl]
          rw [Bool.and_eq_true] at hvb
          simp [hvn, hasTCL_cons, hasTCL_nil, hvb.1, hvb.2]
        | false =>
          have hvs : parseVal b g (serV v ++ (',' :: ']' :: rest))
              = some (eraseV v, ',' :: ']' :: rest) := by
            rw [hv, hvb, if_neg (by simp)]
          have hsk : skipWs (',' :: ']' :: rest) = ',' :: ']' :: rest :=
            skipWs_cons _ _ (by decide)
          have hsk2 : skipWs (']' :: rest) = ']' :: rest :=
            skipWs_cons _ _ (by decide)
          rcases hb : b
          · subst hb
            simp [hvs, hsk, parseArrBody_rbracket, hasTCL_cons, hasTCL_nil]
          · subst hb
            simp [hvs, hsk, hsk2, hasTCL_cons, hasTCL_nil, eraseL_cons,
              eraseL_nil]
  | v, .cons v2 t2, tcA, b, fuel, rest, acc, h, hf => by
    cases fuel with
    | zero => exact absurd hf (Nat.not_lt_zero _)
    | succ g =>
      have h2 : (wfV v && wfL (.cons v2 t2)) = true := h
      rw [Bool.and_eq_true] at h2
      obtain ⟨hwv, hwt⟩ := h2
      have hwv2 : wfV v2 = true := by
        have h3 : (wfV v2 && wfL t2) = true := hwt
        rw [Bool.and_eq_true] at h3
        exact h3.1
      obtain ⟨c0, t0, hse, hcm, hrb, hrs, hjw, hpy⟩ := serV_head v2 hwv2
      obtain ⟨tail, htail⟩ : ∃ tail, serL (.cons v2 t2) tcA
          = serV v2 ++ tail := by
        rcases t2 with _ | ⟨v3, t3⟩
        · exact ⟨(if tcA then [',', ']'] else [']']), rfl⟩
        · exact ⟨',' :: serL (.cons v3 t3) tcA, rfl⟩
      have hskA2 : skipWs (serL (.cons v2 t2) tcA ++ rest)
          = c0 :: (t0 ++ (tail ++ rest)) := by
        rw [htail, List.append_assoc, hse, List.cons_append,
          skipWs_cons _ _ hjw]
      rw [show serL (TList.cons v (TList.cons v2 t2)) tcA ++ rest
          = serV v ++ (',' :: (serL (TList.cons v2 t2) tcA ++ rest))
          from by rw [serL_cons2]; simp, parseArrBody.eq_def]
      have hv := parseVal_ser v b g
        (',' :: (serL (TList.cons v2 t2) tcA ++ rest)) hwv
        (by rw [sizeL_cons] at hf; omega)
        (valDelim_of_head v ',' _ (by decide) (by decide) (by decide)
          (by decide))
      cases hvb : (hasTCV v && !b) with
      | true =>
        have hvn : parseVal b g
            (serV v ++ (',' :: (serL (TList.cons v2 t2) tcA ++ rest)))
            = none := by
          rw [hv, hvb, if_pos rfl]
        rw [Bool.and_eq_true] at hvb
        simp [hvn, hasTCL_cons, hvb.1, hvb.2]
      | false =>
        have hvs : parseVal b g
            (serV v ++ (',' :: (serL (TList.cons v2 t2) tcA ++ rest)))
            = some (eraseV v, ',' :: (serL (TList.cons v2 t2) tcA ++ rest))
            := by
          rw [hv, hvb, if_neg (by simp)]
        have hsk : skipWs (',' :: (serL (TList.cons v2 t2) tcA ++ rest))
            = ',' :: (serL (TList.cons v2 t2) tcA ++ rest) :=
          skipWs_cons _ _ (by decide)
        have hrec := parseArrBody_ser v2 t2 tcA b g rest (acc ++ [eraseV v])
          hwt (by rw [sizeL_cons] at hf; omega)
        rcases hb : b
        · subst hb
          have hv0 : hasTCV v = false := by simpa using hvb
          simp [hvs, hsk, hrec, hasTCL_cons, eraseL_cons, hv0,
            List.append_assoc]
        · subst hb
          simp only [hvs, hsk]
          show (match skipWs (',' :: (serL (TList.cons v2 t2) tcA ++ rest))
              with
            | ',' :: r2 =>
              if true then
                match skipWs r2 with
                | ']' :: r3 => some (JVal.arr (acc ++ [eraseV v]), r3)
                | _ => parseArrBody true g r2 (acc ++ [eraseV v])
              else parseArrBody true g r2 (acc ++ [eraseV v])
            | ']' :: r2 => some (JVal.arr (acc ++ [eraseV v]), r2)
            | _ => none) = _
          rw [hsk]
          show (if true then
              match skipWs (serL (TList.cons v2 t2) tcA ++ rest) with
              | ']' :: r3 => some (JVal.arr (acc ++ [eraseV v]), r3)
              | _ => parseArrBody true g (serL (TList.cons v2 t2) tcA ++ rest)
                  (acc ++ [eraseV v])
            else parseArrBody true g (serL (TList.cons v2 t2) tcA ++ rest)
                (acc ++ [eraseV v])) = _
          rw [if_pos rfl, hskA2]
          split
          · rename_i r3 heq
            injection heq with he1 he2
            exact absurd he1 hrs
          · rw [hrec]
            simp [hasTCL_cons, eraseL_cons, List.append_assoc]
termination_by v t tcA b fuel rest acc h hf => sizeOf (TList.cons v t)


theorem parseObjBody_ser : ∀ (k : List Char) (v : TVal) (t : TKVs)
    (tcO b : Bool) (fuel : Nat) (rest : List Char)
    (acc : List (List Char × JVal)),
    wfK (.cons k v t) = true → sizeK (.cons k v t) < fuel →
    parseObjBody b fuel (serK (.cons k v t) tcO ++ rest) acc
      = if ((tcO || hasTCK (.cons k v t)) && !b) then none
        else some (.obj (acc ++ eraseK (.cons k v t)), rest)
  | k, v, .nil, tcO, b, fuel, rest, acc, h, hf => by
    cases fuel with
    | zero => exact absurd hf (Nat.not_lt_zero _)
    | succ g =>
      have h2 : (strOk k && wfV v && wfK .nil) = true := h
      rw [Bool.and_eq_true, Bool.and_eq_true] at h2
      obtain ⟨⟨hk, hwv⟩, hwt⟩ := h2
      rcases tcO
      · rw [show serK (TKVs.cons k v TKVs.nil) false ++ rest
            = '"' :: (k ++ '"' :: ':' :: (serV v ++ ('\x7d' :: rest)))
            from by rw [serK_single]; simp, parseObjBody.eq_def]
        have h1 : skipWs ('"' :: (k ++ '"' :: ':' ::
            (serV v ++ ('\x7d' :: rest))))
            = '"' :: (k ++ '"' :: ':' :: (serV v ++ ('\x7d' :: rest))) :=
          skipWs_cons _ _ (by decide)
        have hscan := scanStringRaw_rt k
          (':' :: (serV v ++ ('\x7d' :: rest))) hk
        have hsk2 : skipWs (':' :: (serV v ++ ('\x7d' :: rest)))
            = ':' :: (serV v ++ ('\x7d' :: rest)) :=
          skipWs_cons _ _ (by decide)
        have hv := parseVal_ser v b g ('\x7d' :: rest) hwv
          (by rw [sizeK_cons] at hf; omega)
          (valDelim_of_head v '\x7d' rest (by decide) (by decide) (by decide)
            (by decide))
        cases hvb : (hasTCV v && !b) with
        | true =>
          have hvn : parseVal b g (serV v ++ ('\x7d' :: rest)) = none := by
            rw [hv, hvb, if_pos rfl]
          rw [Bool.and_eq_true] at hvb
          simp [h1, hscan, hsk2, hvn, hasTCK_cons, hasTCK_nil, hvb.1, hvb.2]
        | false =>
          have hvs : parseVal b g (serV v ++ ('\x7d' :: rest))
              = some (eraseV v, '\x7d' :: rest) := by
            rw [hv, hvb, if_neg (by simp)]
          have hsk3 : skipWs ('\x7d' :: rest) = '\x7d' :: rest :=
            skipWs_cons _ _ (by decide)
          simp [h1, hscan, hsk2, hvs, hsk3, hasTCK_cons, hasTCK_nil,
            eraseK_cons, eraseK_nil, hvb]
      · rw [show serK (TKVs.cons k v TKVs.nil) true ++ rest
            = '"' :: (k ++ '"' :: ':' :: (serV v ++ (',' :: '\x7d' :: rest)))
            from by rw [serK_single]; simp, parseObjBody.eq_def]
        have h1 : skipWs ('"' :: (k ++ '"' :: ':' ::
            (serV v ++ (',' :: '\x7d' :: rest))))
            = '"' :: (k ++ '"' :: ':' ::
              (serV v ++ (',' :: '\x7d' :: rest))) :=
          skipWs_cons _ _ (by decide)
        have hscan := scanStringRaw_rt k
          (':' :: (serV v ++ (',' :: '\x7d' :: rest))) hk
        have hsk2 : skipWs (':' :: (serV v ++ (',' :: '\x7d' :: rest)))
            = ':' :: (serV v ++ (',' :: '\x7d' :: rest)) :=
          skipWs_cons _ _ (by decide)
        have hv := parseVal_ser v b g (',' :: '\x7d' :: rest) hwv
          (by rw [sizeK_cons] at hf; omega)
          (valDelim_of_head v ',' _ (by decide) (by decide) (by decide)
            (by decide))
        cases hvb : (hasTCV v && !b) with
        | true =>
          have hvn : parseVal b g (serV v ++ (',' :: '\x7d' :: rest))
              = none := by
            rw [hv, hvb, if_pos rfl]
          rw [Bool.and_eq_true] at hvb
          simp [h1, hscan, hsk2, hvn, hasTCK_cons, hasTCK_nil, hvb.1, hvb.2]
        | false =>
          have hvs : parseVal b g (serV v ++ (',' :: '\x7d' :: rest))
              = some (eraseV v, ',' :: '\x7d' :: rest) := by
            rw [hv, hvb, if_neg (by simp)]
          have hsk3 : skipWs (',' :: '\x7d' :: rest)
              = ',' :: '\x7d' :: rest := skipWs_cons _ _ (by decide)
          have hsk4 : skipWs ('\x7d' :: rest) = '\x7d' :: rest :=
            skipWs_cons _ _ (by decide)
          rcases hb : b
          · subst hb
            simp [h1, hscan, hsk2, hvs, hsk3, parseObjBody_rbrace,
              hasTCK_cons, hasTCK_nil]
          · subst hb
            simp [h1, hscan, hsk2, hvs, hsk3, hsk4, hasTCK_cons, hasTCK_nil,
              eraseK_cons, eraseK_nil]
  | k, v, .cons k2 v2 t2, tcO, b, fuel, rest, acc, h, hf => by
    cases fuel with
    | zero => exact absurd hf (Nat.not_lt_zero _)
    | succ g =>
      have h2 : (strOk k && wfV v && wfK (.cons k2 v2 t2)) = true := h
      rw [Bool.and_eq_true, Bool.and_eq_true] at h2
      obtain ⟨⟨hk, hwv⟩, hwt⟩ := h2
      obtain ⟨Z, hZ⟩ : ∃ Z, serK (.cons k2 v2 t2) tcO ++ rest
          = '"' :: Z := by
        rcases t2 with _ | ⟨k3, v3, t3⟩
        · exact ⟨k2 ++ '"' :: ':' :: (serV v2 ++
            ((if tcO then [',', '\x7d'] else ['\x7d']) ++ rest)),
            by rw [serK_single]; simp⟩
        · exact ⟨k2 ++ '"' :: ':' :: (serV v2 ++
            (',' :: (serK (.cons k3 v3 t3) tcO ++ rest))),
            by rw [serK_cons2]; simp⟩
      have hskK : skipWs (serK (.cons k2 v2 t2) tcO ++ rest) = '"' :: Z := by
        rw [hZ]
        exact skipWs_cons _ _ (by decide)
      rw [show serK (TKVs.cons k v (TKVs.cons k2 v2 t2)) tcO ++ rest
          = '"' :: (k ++ '"' :: ':' :: (serV v ++
            (',' :: (serK (TKVs.cons k2 v2 t2) tcO ++ rest))))
          from by rw [serK_cons2]; simp, parseObjBody.eq_def]
      have h1 : skipWs ('"' :: (k ++ '"' :: ':' :: (serV v ++
          (',' :: (serK (TKVs.cons k2 v2 t2) tcO ++ rest)))))
          = '"' :: (k ++ '"' :: ':' :: (serV v ++
            (',' :: (serK (TKVs.cons k2 v2 t2) tcO ++ rest)))) :=
        skipWs_cons _ _ (by decide)
      have hscan := scanStringRaw_rt k
        (':' :: (serV v ++ (',' :: (serK (TKVs.cons k2 v2 t2) tcO ++ rest))))
        hk
      have hsk2 : skipWs (':' :: (serV v ++
          (',' :: (serK (TKVs.cons k2 v2 t2) tcO ++ rest))))
          = ':' :: (serV v ++
            (',' :: (serK (TKVs.cons k2 v2 t2) tcO ++ rest))) :=
        skipWs_cons _ _ (by decide)
      have hv := parseVal_ser v b g
        (',' :: (serK (TKVs.cons k2 v2 t2) tcO ++ rest)) hwv
        (by rw [sizeK_cons] at hf; omega)
        (valDelim_of_head v ',' _ (by decide) (by decide) (by decide)
          (by decide))
      have hsk3 : skipWs (',' :: (serK (TKVs.cons k2 v2 t2) tcO ++ rest))
          = ',' :: (serK (TKVs.cons k2 v2 t2) tcO ++ rest) :=
        skipWs_cons _ _ (by decide)
      have hrec := parseObjBody_ser k2 v2 t2 tcO b g rest
        (acc ++ [(k, eraseV v)]) hwt (by rw [sizeK_cons] at hf; omega)
      cases hvb : (hasTCV v && !b) with
      | true =>
        have hvn : parseVal b g (serV v ++
            (',' :: (serK (TKVs.cons k2 v2 t2) tcO ++ rest))) = none := by
          rw [hv, hvb, if_pos rfl]
        rw [Bool.and_eq_true] at hvb
        simp [h1, hscan, hsk2, hvn, hasTCK_cons, hvb.1, hvb.2]
      | false =>
        have hvs : parseVal b g (serV v ++
            (',' :: (serK (TKVs.cons k2 v2 t2) tcO ++ rest)))
            = some (eraseV v,
              ',' :: (serK (TKVs.cons k2 v2 t2) tcO ++ rest)) := by
          rw [hv, hvb, if_neg (by simp)]
        rcases hb : b
        · subst hb
          have hv0 : hasTCV v = false := by simpa using hvb
          simp [h1, hscan, hsk2, hvs, hsk3, hrec, hasTCK_cons, eraseK_cons,
            hv0, List.append_assoc]
        · subst hb
          simp [h1, hscan, hsk2, hvs, hsk3, hskK, hrec, hasTCK_cons,
            eraseK_cons, List.append_assoc]
termination_by k v t tcO b fuel rest acc h hf => sizeOf (TKVs.cons k v t)

end

theorem valDelim_nil (w : TVal) : valDelim w [] := by
  rcases w with _ | b | lit | raw | ⟨tc, xs⟩ | ⟨tc, kvs⟩ <;> exact trivial

mutual

theorem sizeV_le : ∀ (w : TVal), wfV w = true → sizeV w ≤ (serV w).length
  | .null, _ => by decide
  | .bool bb, _ => by rcases bb <;> decide
  | .num lit, h => by
    obtain ⟨c, t0, he, _⟩ := numOk_head lit h
    rw [show sizeV (.num lit) = 1 from rfl, show serV (.num lit) = lit
      from rfl, he]
    simp
  | .str raw, _ => by
    rw [show sizeV (.str raw) = 1 from rfl, serV_str]
    simp
  | .arr tc xs, h => by
    have hwl : wfL xs = true := by
      rw [wfV_arr, Bool.and_eq_true] at h
      exact h.2
    rw [sizeV_arr, serV_arr]
    have := sizeL_le xs tc hwl
    simp only [List.length_cons]
    omega
  | .obj tc kvs, h => by
    have hwk : wfK kvs = true := by
      rw [wfV_obj, Bool.and_eq_true] at h
      exact h.2
    rw [sizeV_obj, serV_obj]
    have := sizeK_le kvs tc hwk
    simp only [List.length_cons]
    omega

theorem sizeL_le : ∀ (xs : TList) (tc : Bool), wfL xs = true →
    sizeL xs ≤ (serL xs tc).length
  | .nil, tc, _ => by
    rw [show sizeL .nil = 0 from rfl]
    omega
  | .cons v .nil, tc, h => by
    have h2 : (wfV v && wfL .nil) = true := h
    rw [Bool.and_eq_true] at h2
    have := sizeV_le v h2.1
    rw [sizeL_cons, serL_single, show sizeL .nil = 0 from rfl]
    rcases tc <;>
      simp only [List.length_append, List.length_cons, List.length_nil,
        if_pos, if_neg, Bool.false_eq_true, if_false, if_true] <;>
      omega
  | .cons v (.cons v2 t), tc, h => by
    have h2 : (wfV v && wfL (.cons v2 t)) = true := h
    rw [Bool.and_eq_true] at h2
    have hv := sizeV_le v h2.1
    have ht := sizeL_le (.cons v2 t) tc h2.2
    rw [sizeL_cons, serL_cons2]
    simp only [List.length_append, List.length_cons]
    omega

theorem sizeK_le : ∀ (kvs : TKVs) (tc : Bool), wfK kvs = true →
    sizeK kvs ≤ (serK kvs tc).length
  | .nil, tc, _ => by
    rw [show sizeK .nil = 0 from rfl]
    omega
  | .cons k v .nil, tc, h => by
    have h2 : (strOk k && wfV v && wfK .nil) = true := h
    rw [Bool.and_eq_true, Bool.and_eq_true] at h2
    have := sizeV_le v h2.1.2
    rw [sizeK_cons, serK_single, show sizeK .nil = 0 from rfl]
    rcases tc <;>
      simp only [List.length_append, List.length_cons, List.length_nil,
        Bool.false_eq_true, if_false, if_true] <;>
      omega
  | .cons k v (.cons k2 v2 t), tc, h => by
    have h2 : (strOk k && wfV v && wfK (.cons k2 v2 t)) = true := h
    rw [Bool.and_eq_true, Bool.and_eq_true] at h2
    have hv := sizeV_le v h2.1.2
    have ht := sizeK_le (.cons k2 v2 t) tc h2.2
    rw [sizeK_cons, serK_cons2]
    simp only [List.length_append, List.length_cons]
    omega

end

theorem json_loads_serV (w : TVal) (h : wfV w = true) :
    json_loads (serV w)
      = if hasTCV w then none else some (eraseV w) := by
  unfold json_loads
  have hp := parseVal_ser w false ((serV w).length + 1) [] h
    (by have := sizeV_le w h; omega) (valDelim_nil w)
  rw [List.append_nil] at hp
  rw [hp]
  have hsw : skipWs ([] : List Char) = [] := rfl
  cases ht : hasTCV w
  · simp [hsw]
  · simp [hsw]

theorem json_loads_tc_serV (w : TVal) (h : wfV w = true) :
    json_loads_tc (serV w) = some (eraseV w) := by
  unfold json_loads_tc
  have hp := parseVal_ser w true ((serV w).length + 1) [] h
    (by have := sizeV_le w h; omega) (valDelim_nil w)
  rw [List.append_nil] at hp
  rw [hp]
  have hsw : skipWs ([] : List Char) = [] := rfl
  simp [hsw]

theorem subCC_empty (close : Char) (pending : List Char) :
    subCCAux close pending [] = pending.reverse := by
  rw [subCCAux.eq_def]

theorem subCC_nil_cons (close c : Char) (rest : List Char) :
    subCCAux close [] (c :: rest)
      = if c = ',' then subCCAux close [','] rest
        else c :: subCCAux close [] rest := by
  rw [subCCAux.eq_def]

theorem subCC_pend_cons (close c p0 : Char) (ps rest : List Char) :
    subCCAux close (p0 :: ps) (c :: rest)
      = if c = close then close :: subCCAux close [] rest
        else if pyIsSpace c then subCCAux close (c :: p0 :: ps) rest
        else if c = ',' then
          (p0 :: ps).reverse ++ subCCAux close [','] rest
        else (p0 :: ps).reverse ++ (c :: subCCAux close [] rest) := by
  rw [subCCAux.eq_def]

theorem subCC_skip (close : Char) (a : List Char)
    (h : ∀ c ∈ a, c ≠ ',') :
    ∀ rest, subCCAux close [] (a ++ rest) = a ++ subCCAux close [] rest := by
  induction a with
  | nil => intro rest; simp
  | cons c a ih =>
    intro rest
    rw [List.cons_append, subCC_nil_cons, if_neg (h c (by simp)),
      ih (fun x hx => h x (by simp [hx])) rest]
    rfl

theorem subCC_comma_val (close c0 : Char) (X : List Char)
    (h1 : c0 ≠ close) (h2 : pyIsSpace c0 = false) (h3 : c0 ≠ ',') :
    subCCAux close [] (',' :: c0 :: X)
      = ',' :: subCCAux close [] (c0 :: X) := by
  rw [subCC_nil_cons, if_pos rfl, subCC_pend_cons, if_neg h1,
    if_neg (by simp [h2]), if_neg h3, subCC_nil_cons, if_neg h3]
  rfl

theorem subCC_comma_close (close : Char) (X : List Char) :
    subCCAux close [] (',' :: close :: X)
      = close :: subCCAux close [] X := by
  rw [subCC_nil_cons, if_pos rfl, subCC_pend_cons, if_pos rfl]

theorem all_not_bad_comma (bad : Char → Bool) (l : List Char)
    (h : l.all (fun c => !bad c) = true) (hb : bad ',' = true) :
    ∀ c ∈ l, c ≠ ',' := by
  intro c hm he
  subst he
  have hc := List.all_eq_true.mp h ',' hm
  rw [hb] at hc
  exact Bool.noConfusion hc

theorem clearV_null (op : Bool) : clearV op .null = .null := rfl

theorem clearV_bool (op bb : Bool) : clearV op (.bool bb) = .bool bb := rfl

theorem clearV_num (op : Bool) (lit : List Char) :
    clearV op (.num lit) = .num lit := rfl

theorem clearV_str (op : Bool) (raw : List Char) :
    clearV op (.str raw) = .str raw := rfl

theorem clearV_arr (op tc : Bool) (xs : TList) :
    clearV op (.arr tc xs) = .arr (if op then tc else false) (clearL op xs) :=
  rfl

theorem clearV_obj (op tc : Bool) (kvs : TKVs) :
    clearV op (.obj tc kvs) = .obj (if op then false else tc) (clearK op kvs)
    := rfl

theorem clearL_nil (op : Bool) : clearL op .nil = .nil := rfl

theorem clearL_cons (op : Bool) (v : TVal) (t : TList) :
    clearL op (.cons v t) = .cons (clearV op v) (clearL op t) := rfl

theorem clearK_nil (op : Bool) : clearK op .nil = .nil := rfl

theorem clearK_cons (op : Bool) (k : List Char) (v : TVal) (t : TKVs) :
    clearK op (.cons k v t) = .cons k (clearV op v) (clearK op t) := rfl

mutual

theorem subCC_serV : ∀ (op : Bool) (w : TVal), wfV w = true →
    cleanV badC5 w = true → ∀ rest,
    subCCAux (if op then '\x7d' else ']') [] (serV w ++ rest)
      = serV (clearV op w) ++ subCCAux (if op then '\x7d' else ']') [] rest
  | op, .null, hw, hc, rest => subCC_skip _ _ (by decide) rest
  | op, .bool bb, hw, hc, rest => by
    rcases bb
    · exact subCC_skip _ _ (by decide) rest
    · exact subCC_skip _ _ (by decide) rest
  | op, .num lit, hw, hc, rest =>
    subCC_skip _ lit (all_not_bad_comma badC5 lit hc (by decide)) rest
  | op, .str raw, hw, hc, rest => by
    have hchars : ∀ c ∈ ('"' :: raw) ++ ['"'], c ≠ ',' := by
      intro c hm
      rcases List.mem_append.mp hm with hm1 | hm1
      · rcases List.mem_cons.mp hm1 with he | hm2
        · subst he; decide
        · exact all_not_bad_comma badC5 raw hc (by decide) c hm2
      · simp at hm1
        subst hm1
        decide
    exact subCC_skip _ (('"' :: raw) ++ ['"']) hchars rest
  | op, .arr tc xs, hw, hc, rest => by
    have hwl : wfL xs = true := by
      rw [wfV_arr, Bool.and_eq_true] at hw
      exact hw.2
    rw [show serV (TVal.arr tc xs) ++ rest = '[' :: (serL xs tc ++ rest)
        from by rw [serV_arr]; simp,
      subCC_nil_cons, if_neg (by decide),
      subCC_serL op xs tc hwl hc rest, clearV_arr, serV_arr]
    simp
  | op, .obj tc kvs, hw, hc, rest => by
    have hwk : wfK kvs = true := by
      rw [wfV_obj, Bool.and_eq_true] at hw
      exact hw.2
    rw [show serV (TVal.obj tc kvs) ++ rest = '\x7b' :: (serK kvs tc ++ rest)
        from by rw [serV_obj]; simp,
      subCC_nil_cons, if_neg (by decide),
      subCC_serK op kvs tc hwk hc rest, clearV_obj, serV_obj]
    simp

theorem subCC_serL : ∀ (op : Bool) (xs : TList) (tcA : Bool),
    wfL xs = true → cleanL badC5 xs = true → ∀ rest,
    subCCAux (if op then '\x7d' else ']') [] (serL xs tcA ++ rest)
      = serL (clearL op xs) (if op then tcA else false)
        ++ subCCAux (if op then '\x7d' else ']') [] rest
  | op, .nil, tcA, hw, hc, rest => subCC_skip _ [']'] (by decide) rest
  | op, .cons v .nil, tcA, hw, hc, rest => by
    have hwv : wfV v = true := by
      have h2 : (wfV v && wfL .nil) = true := hw
      rw [Bool.and_eq_true] at h2
      exact h2.1
    have hcv : cleanV badC5 v = true := by
      have h2 : (cleanV badC5 v && cleanL badC5 .nil) = true := hc
      rw [Bool.and_eq_true] at h2
      exact h2.1
    rcases tcA
    · rw [show serL (TList.cons v TList.nil) false ++ rest
          = serV v ++ (']' :: rest) from by rw [serL_single]; simp,
        subCC_serV op v hwv hcv (']' :: rest),
        subCC_nil_cons, if_neg (by decide), clearL_cons, clearL_nil,
        serL_single,
        show (if (if op then false else false) = true
          then [',', ']'] else [']']) = [']'] from by rcases op <;> rfl]
      simp
    · rcases op
      · rw [show serL (TList.cons v TList.nil) true ++ rest
            = serV v ++ (',' :: ']' :: rest) from by rw [serL_single]; simp,
          subCC_serV false v hwv hcv (',' :: ']' :: rest),
          show ((if false then '\x7d' else ']') : Char) = ']' from rfl,
          subCC_comma_close ']' rest, clearL_cons, clearL_nil, serL_single]
        simp
      · rw [show serL (TList.cons v TList.nil) true ++ rest
            = serV v ++ (',' :: ']' :: rest) from by rw [serL_single]; simp,
          subCC_serV true v hwv hcv (',' :: ']' :: rest),
          show ((if true then '\x7d' else ']') : Char) = '\x7d' from rfl,
          subCC_comma_val '\x7d' ']' rest (by decide) (by decide) (by decide),
          subCC_nil_cons, if_neg (by decide), clearL_cons, clearL_nil,
          serL_single]
        simp
  | op, .cons v (.cons v2 t), tcA, hw, hc, rest => by
    have h2 : (wfV v && wfL (.cons v2 t)) = true := hw
    rw [Bool.and_eq_true] at h2
    obtain ⟨hwv, hwt⟩ := h2
    have h3 : (cleanV badC5 v && cleanL badC5 (.cons v2 t)) = true := hc
    rw [Bool.and_eq_true] at h3
    obtain ⟨hcv, hct⟩ := h3
    have hwv2 : wfV v2 = true := by
      have h4 : (wfV v2 && wfL t) = true := hwt
      rw [Bool.and_eq_true] at h4
      exact h4.1
    obtain ⟨c0, t0, hse, hcm, hrb, hrs, hjw, hpy⟩ := serV_head v2 hwv2
    have hCL : c0 ≠ (if op then '\x7d' else ']') := by
      rcases op
      · exact hrs
      · exact hrb
    obtain ⟨tail, htail⟩ : ∃ tail, serL (.cons v2 t) tcA
        = serV v2 ++ tail := by
      rcases t with _ | ⟨v3, t3⟩
      · exact ⟨(if tcA then [',', ']'] else [']']), rfl⟩
      · exact ⟨',' :: serL (.cons v3 t3) tcA, rfl⟩
    have hhead : serL (.cons v2 t) tcA ++ rest = c0 :: (t0 ++ (tail ++ rest))
        := by
      rw [htail, List.append_assoc, hse, List.cons_append]
    rw [show serL (TList.cons v (TList.cons v2 t)) tcA ++ rest
        = serV v ++ (',' :: (serL (TList.cons v2 t) tcA ++ rest))
        from by rw [serL_cons2]; simp,
      subCC_serV op v hwv hcv _, hhead,
      subCC_comma_val _ c0 _ hCL hpy hcm, ← hhead,
      subCC_serL op (.cons v2 t) tcA hwt hct rest,
      clearL_cons, clearL_cons, clearL_cons, serL_cons2]
    simp

theorem subCC_serK : ∀ (op : Bool) (kvs : TKVs) (tcO : Bool),
    wfK kvs = true → cleanK badC5 kvs = true → ∀ rest,
    subCCAux (if op then '\x7d' else ']') [] (serK kvs tcO ++ rest)
      = serK (clearK op kvs) (if op then false else tcO)
        ++ subCCAux (if op then '\x7d' else ']') [] rest
  | op, .nil, tcO, hw, hc, rest => subCC_skip _ ['\x7d'] (by decide) rest
  | op, .cons k v .nil, tcO, hw, hc, rest => by
    have h2 : (strOk k && wfV v && wfK .nil) = true := hw
    rw [Bool.and_eq_true, Bool.and_eq_true] at h2
    have h3 : (k.all (fun c => !badC5 c) && cleanV badC5 v &&
        cleanK badC5 .nil) = true := hc
    rw [Bool.and_eq_true, Bool.and_eq_true] at h3
    have hkc : ∀ c ∈ '"' :: (k ++ ['"', ':']), c ≠ ',' := by
      intro c hm
      rcases List.mem_cons.mp hm with he | hm1
      · subst he; decide
      · rcases List.mem_append.mp hm1 with hm2 | hm2
        · exact all_not_bad_comma badC5 k h3.1.1 (by decide) c hm2
        · simp at hm2
          rcases hm2 with he | he <;> subst he <;> decide
    rcases tcO
    · rw [show serK (TKVs.cons k v TKVs.nil) false ++ rest
          = ('"' :: (k ++ ['"', ':'])) ++ (serV v ++ ('\x7d' :: rest))
          from by rw [serK_single]; simp,
        subCC_skip _ _ hkc,
        subCC_serV op v h2.1.2 h3.1.2 ('\x7d' :: rest),
        subCC_nil_cons, if_neg (by decide), clearK_cons, clearK_nil,
        serK_single,
        show (if (if op then false else false) = true
          then [',', '\x7d'] else ['\x7d']) = ['\x7d']
          from by rcases op <;> rfl]
      simp
    · rcases op
      · rw [show serK (TKVs.cons k v TKVs.nil) true ++ rest
            = ('"' :: (k ++ ['"', ':'])) ++ (serV v ++ (',' :: '\x7d' :: rest))
            from by rw [serK_single]; simp,
          subCC_skip _ _ hkc,
          subCC_serV false v h2.1.2 h3.1.2 (',' :: '\x7d' :: rest),
          show ((if false then '\x7d' else ']') : Char) = ']' from rfl,
          subCC_comma_val ']' '\x7d' rest (by decide) (by decide) (by decide),
          subCC_nil_cons, if_neg (by decide), clearK_cons, clearK_nil,
          serK_single]
        simp
      · rw [show serK (TKVs.cons k v TKVs.nil) true ++ rest
            = ('"' :: (k ++ ['"', ':'])) ++ (serV v ++ (',' :: '\x7d' :: rest))
            from by rw [serK_single]; simp,
          subCC_skip _ _ hkc,
          subCC_serV true v h2.1.2 h3.1.2 (',' :: '\x7d' :: rest),
          show ((if true then '\x7d' else ']') : Char) = '\x7d' from rfl,
          subCC_comma_close '\x7d' rest, clearK_cons, clearK_nil, serK_single]
        simp
  | op, .cons k v (.cons k2 v2 t), tcO, hw, hc, rest => by
    have h2 : (strOk k && wfV v && wfK (.cons k2 v2 t)) = true := hw
    rw [Bool.and_eq_true, Bool.and_eq_true] at h2
    have h3 : (k.all (fun c => !badC5 c) && cleanV badC5 v &&
        cleanK badC5 (.cons k2 v2 t)) = true := hc
    rw [Bool.and_eq_true, Bool.and_eq_true] at h3
    have hkc : ∀ c ∈ '"' :: (k ++ ['"', ':']), c ≠ ',' := by
      intro c hm
      rcases List.mem_cons.mp hm with he | hm1
      · subst he; decide
      · rcases List.mem_append.mp hm1 with hm2 | hm2
        · exact all_not_bad_comma badC5 k h3.1.1 (by decide) c hm2
        · simp at hm2
          rcases hm2 with he | he <;> subst he <;> decide
    have hhead : ∃ Z, serK (.cons k2 v2 t) tcO ++ rest = '"' :: Z := by
      rcases t with _ | ⟨k3, v3, t3⟩
      · exact ⟨k2 ++ '"' :: ':' :: (serV v2 ++
          ((if tcO then [',', '\x7d'] else ['\x7d']) ++ rest)),
          by rw [serK_single]; simp⟩
      · exact ⟨k2 ++ '"' :: ':' :: (serV v2 ++
          (',' :: (serK (.cons k3 v3 t3) tcO ++ rest))),
          by rw [serK_cons2]; simp⟩
    obtain ⟨Z, hZ⟩ := hhead
    rw [show serK (TKVs.cons k v (TKVs.cons k2 v2 t)) tcO ++ rest
        = ('"' :: (k ++ ['"', ':'])) ++ (serV v ++
          (',' :: (serK (TKVs.cons k2 v2 t) tcO ++ rest)))
        from by rw [serK_cons2]; simp,
      subCC_skip _ _ hkc,
      subCC_serV op v h2.1.2 h3.1.2 _, hZ,
      subCC_comma_val _ '"' _ (by rcases op <;> decide) (by decide)
        (by decide),
      ← hZ,
      subCC_serK op (.cons k2 v2 t) tcO h2.2 h3.2 rest,
      clearK_cons, clearK_cons, clearK_cons, serK_cons2]
    simp

end

theorem fix_trailing_commas_ser (w : TVal) (hw : wfV w = true)
    (hc : cleanV badC5 w = true) :
    fix_trailing_commas (serV w) = serV (clearV false (clearV true w)) := by
  have h1 := subCC_serV true w hw hc []
  have h2 := subCC_serV false (clearV true w) (wfV_clearV true w hw)
    (cleanV_clearV badC5 true w hc) []
  rw [show ((if true then '\x7d' else ']') : Char) = '\x7d' from rfl,
    subCC_empty] at h1
  rw [show ((if false then '\x7d' else ']') : Char) = ']' from rfl,
    subCC_empty] at h2
  simp only [List.append_nil, List.reverse_nil] at h1 h2
  show subCommaClose ']' (subCommaClose '\x7d' (serV w)) = _
  unfold subCommaClose
  rw [h1, h2]

theorem pyStripRight_append (a b : List Char) (c : Char) (t : List Char)
    (ha : a.reverse = c :: t) (hc : pyIsSpace c = false) :
    pyStripRight (a ++ b) = a ++ pyStripRight b := by
  show (a ++ b).rdropWhile pyIsSpace = a ++ b.rdropWhile pyIsSpace
  unfold List.rdropWhile
  rw [List.reverse_append, List.dropWhile_append]
  cases hbe : (b.reverse.dropWhile pyIsSpace).isEmpty
  · rw [if_neg (by simp [hbe]), List.reverse_append, List.reverse_reverse]
  · have hb0 : b.reverse.dropWhile pyIsSpace = [] := by
      simpa using hbe
    rw [if_pos (by simp [hbe]), ha, List.dropWhile_cons, if_neg (by simp [hc]),
      hb0, List.reverse_nil, List.append_nil, ← ha, List.reverse_reverse]

theorem pyStrip_ser_obj (tc : Bool) (kvs : TKVs) (p : List Char) :
    pyStrip (serV (TVal.obj tc kvs) ++ p)
      = serV (TVal.obj tc kvs) ++ pyStripRight p := by
  obtain ⟨a, ha⟩ := serK_ends kvs tc
  have hrev : (serV (TVal.obj tc kvs)).reverse
      = '\x7d' :: ('\x7b' :: a).reverse := by
    rw [serV_obj, ha]
    simp
  have hleft : pyStripLeft (serV (TVal.obj tc kvs) ++ p)
      = serV (TVal.obj tc kvs) ++ p := by
    rw [serV_obj]
    show List.dropWhile pyIsSpace ('\x7b' :: (serK kvs tc ++ p)) = _
    rw [List.dropWhile_cons, if_neg (by decide)]
    simp
  show pyStripRight (pyStripLeft (serV (TVal.obj tc kvs) ++ p)) = _
  rw [hleft]
  exact pyStripRight_append _ p '\x7d' _ hrev (by decide)

theorem stripFences_notMem (t : List Char) (h : '`' ∉ t) :
    stripFences t = t := by
  have h1 : listContains t (cs "```json") = false := by
    rw [show cs "```json"
        = '`' :: ('`' :: '`' :: 'j' :: 's' :: 'o' :: 'n' :: []) from by decide]
    exact listContains_false_of_notMem t '`' _ h
  have h2 : listContains t (cs "```") = false := by
    rw [show cs "```" = '`' :: ('`' :: '`' :: []) from by decide]
    exact listContains_false_of_notMem t '`' _ h
  unfold stripFences
  rw [h1, h2]
  simp

/-- C5 (amended): for the serialization of a JSON object that is well formed
except for trailing commas flagged inside it, and whose string, key and
number literals contain no comma, brace or backtick: the tolerant parse
assigns it `eraseV`, the comma-stripping regex pass rewrites it to the
serialization of the comma-free tree, and `repair` returns exactly the
object the equivalent comma-free text denotes. -/
theorem repair_preserves_values_modulo_trailing_commas (tcTop : Bool)
    (kvs : TKVs)
    (hw : wfV (TVal.obj tcTop kvs) = true)
    (hc : cleanV badC5 (TVal.obj tcTop kvs) = true) :
    json_loads_tc (serV (TVal.obj tcTop kvs))
      = some (eraseV (TVal.obj tcTop kvs)) ∧
    fix_trailing_commas (serV (TVal.obj tcTop kvs))
      = serV (clearV false (clearV true (TVal.obj tcTop kvs))) ∧
    parse_json_from_response (serV (TVal.obj tcTop kvs))
      = some (.json (eraseV (TVal.obj tcTop kvs))) := by
  refine ⟨json_loads_tc_serV _ hw, fix_trailing_commas_ser _ hw hc, ?_⟩
  have hbt : '`' ∉ serV (TVal.obj tcTop kvs) :=
    serV_no_bt badC5 _ hc (by decide)
  have hps : pyStrip (serV (TVal.obj tcTop kvs))
      = serV (TVal.obj tcTop kvs) := by
    have h0 := pyStrip_ser_obj tcTop kvs []
    rw [List.append_nil, show pyStripRight ([] : List Char) = [] from rfl,
      List.append_nil] at h0
    exact h0
  have hbe := braceExtract_ser badC5 tcTop kvs hc (by decide) (by decide) []
  rw [List.append_nil] at hbe
  have hcore : repairCore (serV (TVal.obj tcTop kvs))
      = serV (TVal.obj tcTop kvs) := by
    unfold repairCore
    rw [hps, stripFences_notMem _ hbt, serV_obj, hbe]
  unfold parse_json_from_response
  rw [show braceExtract (stripFences (pyStrip (serV (TVal.obj tcTop kvs))))
      = repairCore (serV (TVal.obj tcTop kvs)) from rfl, hcore]
  cases htc : hasTCV (TVal.obj tcTop kvs)
  · have hj : json_loads (serV (TVal.obj tcTop kvs))
        = some (eraseV (TVal.obj tcTop kvs)) := by
      rw [json_loads_serV _ hw, htc]
      simp
    simp [hj]
  · have hj : json_loads (serV (TVal.obj tcTop kvs)) = none := by
      rw [json_loads_serV _ hw, htc]
      simp
    have hfix : json_loads (fix_trailing_commas (serV (TVal.obj tcTop kvs)))
        = some (eraseV (TVal.obj tcTop kvs)) := by
      rw [fix_trailing_commas_ser _ hw hc,
        json_loads_serV _ (wfV_clearV false _ (wfV_clearV true _ hw)),
        hasTCV_clear2, eraseV_clearV, eraseV_clearV]
      simp
    simp [hj, hfix]

/-- C5 witness: the pipeline on `{"a":"b","c":[1,],}`, which carries a
trailing comma before `]` and one before `\x7d`. -/
theorem repair_preserves_values_modulo_trailing_commas_witness :
    json_loads_tc (serV (TVal.obj true (.cons (cs "a") (.str (cs "b"))
        (.cons (cs "c") (.arr true (.cons (.num (cs "1")) .nil)) .nil))))
      = some (eraseV (TVal.obj true (.cons (cs "a") (.str (cs "b"))
        (.cons (cs "c") (.arr true (.cons (.num (cs "1")) .nil)) .nil)))) ∧
    fix_trailing_commas (serV (TVal.obj true (.cons (cs "a") (.str (cs "b"))
        (.cons (cs "c") (.arr true (.cons (.num (cs "1")) .nil)) .nil))))
      = serV (clearV false (clearV true (TVal.obj true
        (.cons (cs "a") (.str (cs "b"))
          (.cons (cs "c") (.arr true (.cons (.num (cs "1")) .nil))
            .nil))))) ∧
    parse_json_from_response (serV (TVal.obj true
        (.cons (cs "a") (.str (cs "b"))
          (.cons (cs "c") (.arr true (.cons (.num (cs "1")) .nil)) .nil))))
      = some (.json (eraseV (TVal.obj true (.cons (cs "a") (.str (cs "b"))
          (.cons (cs "c") (.arr true (.cons (.num (cs "1")) .nil))
            .nil))))) :=
  repair_preserves_values_modulo_trailing_commas true _ (by decide) (by decide)
